import Mathlib

/-!
# miuscript: the Pratt parser

A shallow embedding of `parser/parser.go` and `token/token.go`.

* A production that mutates the receiver `p *Parser` becomes a function that
  takes the parser state and returns the new state next to its result.
* Go's `nil` results are `none`.
* Every production takes a `fuel` argument that bounds the depth of calls and
  the number of loop iterations; `none` at the outermost level means that the
  fuel ran out before the production returned.
-/

namespace Miuscript

/-! ## token/token.go -/

/-- The token categories of `token.go`. `TokenType` is a string type in the
source; its values are the constants declared there, rendered by `toString`. -/
inductive TokenType
  | ILLEGAL | EOF
  | IDENT | INT
  | ASSIGN | PLUS | MINUS | ASTERICK | BANG | SLASH
  | COMMA | SEMICOLON | COLON
  | LPAREN | RPAREN | LBRACE | RBRACE | LBRACKET | RBRACKET
  | EQ | NOT_EQ | LT | GT
  | LET | FUNCTION | IF | ELSE | RETURN | TRUE | FALSE
  | STRING
  deriving DecidableEq, Repr

namespace TokenType

/-- The string value of each category constant. -/
def toString : TokenType → String
  | ILLEGAL => "ILLEGAL"
  | EOF => "EOF"
  | IDENT => "IDENT"
  | INT => "INT"
  | ASSIGN => "="
  | PLUS => "+"
  | MINUS => "-"
  | ASTERICK => "*"
  | BANG => "!"
  | SLASH => "/"
  | COMMA => ","
  | SEMICOLON => ";"
  | COLON => ":"
  | LPAREN => "("
  | RPAREN => ")"
  | LBRACE => "\x7b"
  | RBRACE => "\x7d"
  | LBRACKET => "["
  | RBRACKET => "]"
  | EQ => "=="
  | NOT_EQ => "!="
  | LT => "<"
  | GT => ">"
  | LET => "LET"
  | FUNCTION => "FUNCTION"
  | IF => "IF"
  | ELSE => "ELSE"
  | RETURN => "RETURN"
  | TRUE => "TRUE"
  | FALSE => "FALSE"
  | STRING => "STRING"

end TokenType

/-- The struct `token.Token`; its field `Type` is `Typ` here. -/
structure Token where
  Typ : TokenType
  Literal : String
  deriving DecidableEq, Repr

/-- The end-of-file token the token source returns once its input is used up. -/
def eofToken : Token := ⟨TokenType.EOF, ""⟩

/-! ## The token source

The package `lexer` is not part of the sources; the parser only calls
`NextToken` on it. -/

/-- Modelled from the spec: the token source (`lexer.Lexer`), a sequential token
supplier without rewind. It holds the tokens not yet pulled; after the last one
it returns end-of-file forever. -/
abbrev Lexer := List Token

/-- Modelled from the spec: `Lexer.NextToken`, pull the next token and advance. -/
def Lexer.NextToken : Lexer → Token × Lexer
  | [] => (eofToken, [])
  | t :: ts => (t, ts)

/-! ## The AST nodes the parser builds

The package `ast` is not part of the sources; the node types and their fields
are the ones the parser's composite literals and assignments name. -/

/-- The node `ast.Identifier`. -/
structure Identifier where
  Token : Token
  Value : String
  deriving DecidableEq, Repr

mutual
/-- The interface `ast.Expression`: one constructor per node type the parser
builds. A field that holds an expression may be `nil` (`none`); a slice field
may be the `nil` slice (`none`). `HashLiteral.Pairs` is a Go map keyed by the
key expression: the list holds its entries, see `hashPairsSet`. -/
inductive Expression
  | Identifier (Token : Token) (Value : String)
  | IntegerLiteral (Token : Token) (Value : Int)
  | Boolean (Token : Token) (Value : Bool)
  | StringLiteral (Token : Token) (Value : String)
  | PrefixExpression (Token : Token) (Operator : String) (Right : Option Expression)
  | InfixExpression (Token : Token) (Operator : String) (Left : Option Expression)
      (Right : Option Expression)
  | IfExpression (Token : Token) (Condition : Option Expression)
      (Consequence : BlockStatement) (Alternative : Option BlockStatement)
  | FunctionLiteral (Token : Token) (Parameters : Option (List Identifier))
      (Body : BlockStatement)
  | CallExpression (Token : Token) (Function : Option Expression)
      (Arguments : Option (List (Option Expression)))
  | ArrayLiteral (Token : Token) (Elements : Option (List (Option Expression)))
  | HashLiteral (Token : Token) (Pairs : List (Option Expression × Option Expression))
  | IndexExpression (Token : Token) (Left : Option Expression) (Index : Option Expression)
/-- The interface `ast.Statement`. `nilLetStatement` is the interface value that
holds the nil pointer `(*ast.LetStatement)(nil)`, which `parseStatement` returns
when `parseLetStatement` returns `nil`: it is not the nil interface. -/
inductive Statement
  | LetStatement (Token : Token) (Name : Identifier) (Value : Option Expression)
  | nilLetStatement
  | ReturnStatement (Token : Token) (ReturnValue : Option Expression)
  | ExpressionStatement (Token : Token) (Expression : Option Expression)
/-- The node `ast.BlockStatement`. -/
inductive BlockStatement
  | mk (Token : Token) (Statements : List Statement)
end

/-- The root node `ast.Program`. -/
structure Program where
  Statements : List Statement

/-- The assignment `hash.Pairs[key] = value` on the Go map
`map[ast.Expression]ast.Expression`. Two interface keys are the same key when
both are nil or both hold the same pointer. Every node the parser returns is
freshly allocated, so a non-nil key is never already in the map and the
assignment adds an entry; the nil key (a key expression that failed to parse)
is one key, and assigning to it again replaces the value of its entry. The list
records the entries in the order in which their keys were first assigned. -/
def hashPairsSet (pairs : List (Option Expression × Option Expression))
    (key value : Option Expression) : List (Option Expression × Option Expression) :=
  match key with
  | some k => pairs ++ [(some k, value)]
  | none =>
    if pairs.any (fun kv => kv.1.isNone) then
      pairs.map (fun kv => if kv.1.isNone then (none, value) else kv)
    else pairs ++ [(none, value)]

/-! ## strconv.ParseInt

The Go standard library function the integer-literal production calls, at the
arguments the parser passes: `base = 0`, `bitSize = 64`. -/

/-- The two error kinds of `strconv`: `ErrSyntax` and `ErrRange`. -/
inductive NumError
  | ErrSyntax | ErrRange
  deriving DecidableEq, Repr

/-- The largest `uint64`. -/
def maxUint64 : Nat := 2 ^ 64 - 1

/-- The value of a byte as a digit in `ParseUint`: `c - 48` for a decimal digit,
`lower(c) - 97 + 10` for a letter, nothing for any other byte. -/
def digitVal (c : Char) : Option Nat :=
  if '0' ≤ c ∧ c ≤ '9' then some (c.toNat - '0'.toNat)
  else if 'a' ≤ c ∧ c ≤ 'z' then some (c.toNat - 'a'.toNat + 10)
  else if 'A' ≤ c ∧ c ≤ 'Z' then some (c.toNat - 'A'.toNat + 10)
  else none

/-- The digit loop of `ParseUint` with `base0` set: the fold over the bytes of
`s`, from the value `n` so far. Returns the flag `underscores` with the value. -/
def parseUintLoop (base : Nat) : List Char → Nat → Bool → Except NumError (Nat × Bool)
  | [], n, underscores => .ok (n, underscores)
  | c :: cs, n, underscores =>
    if c = '_' then parseUintLoop base cs n true
    else
      match digitVal c with
      | none => .error .ErrSyntax
      | some d =>
        if d ≥ base then .error .ErrSyntax
        else if n ≥ maxUint64 / base + 1 then .error .ErrRange
        else if n * base + d > maxUint64 then .error .ErrRange
        else parseUintLoop base cs (n * base + d) underscores

/-- The function `underscoreOK` of `strconv`, after the optional sign and base
marker: `i` tracks the previous byte (`'0'` digit, `'_'` underscore, `'!'`
other). -/
def underscoreOKLoop (hex : Bool) : List Char → Char → Bool
  | [], i => i ≠ '_'
  | c :: cs, i =>
    if ('0' ≤ c ∧ c ≤ '9') ∨ (hex ∧ (('a' ≤ c ∧ c ≤ 'f') ∨ ('A' ≤ c ∧ c ≤ 'F'))) then
      underscoreOKLoop hex cs '0'
    else if c = '_' then
      if i ≠ '0' then false else underscoreOKLoop hex cs '_'
    else if i = '_' then false
    else underscoreOKLoop hex cs '!'

/-- The function `underscoreOK` of `strconv`: underscores only separate digits
(the base marker counts as a digit). -/
def underscoreOK (s : List Char) : Bool :=
  let s := match s with
    | '-' :: r => r
    | '+' :: r => r
    | _ => s
  match s with
  | '0' :: m :: r =>
    if m = 'b' ∨ m = 'B' ∨ m = 'o' ∨ m = 'O' ∨ m = 'x' ∨ m = 'X' then
      underscoreOKLoop (m = 'x' ∨ m = 'X') r '0'
    else underscoreOKLoop false s '^'
  | _ => underscoreOKLoop false s '^'

/-- The call `strconv.ParseUint(s, 0, 64)`: the base comes from the marker
(`0b`, `0o`, `0x`, a leading `0` for octal, decimal otherwise). -/
def ParseUint (s : List Char) : Except NumError Nat :=
  match s with
  | [] => .error .ErrSyntax
  | c :: rest =>
    let (base, digits) : Nat × List Char :=
      if c = '0' then
        match rest with
        | m :: d :: r =>
          if m = 'b' ∨ m = 'B' then (2, d :: r)
          else if m = 'o' ∨ m = 'O' then (8, d :: r)
          else if m = 'x' ∨ m = 'X' then (16, d :: r)
          else (8, rest)
        | _ => (8, rest)
      else (10, s)
    match parseUintLoop base digits 0 false with
    | .error e => .error e
    | .ok (n, underscores) =>
      if underscores ∧ ¬ underscoreOK s then .error .ErrSyntax else .ok n

/-- The call `strconv.ParseInt(s, 0, 64)`: an optional sign, then `ParseUint`,
then the range check against `1 << 63`. A range error of `ParseUint` comes with
the value `maxUint64`, which fails the range check here as well. -/
def ParseInt (s : String) : Except NumError Int :=
  match s.toList with
  | [] => .error .ErrSyntax
  | c :: rest =>
    let neg := c = '-'
    let digits := if c = '+' ∨ c = '-' then rest else c :: rest
    match ParseUint digits with
    | .error e => .error e
    | .ok un =>
      if ¬ neg ∧ un ≥ 2 ^ 63 then .error .ErrRange
      else if neg ∧ un > 2 ^ 63 then .error .ErrRange
      else .ok (if neg then - (un : Int) else (un : Int))

/-! ## parser/parser.go -/

/-- The struct `Parser`. The two registries `prefixParseFns` and `infixParseFns`
are filled once by `New` and never change; they are the functions
`prefixParseFns` and `infixParseFns` below. -/
structure Parser where
  l : Lexer
  errors : List String
  currToken : Token
  peekToken : Token

/-- The precedence ranks (`iota` from 1). -/
def LOWEST : Nat := 1
/-- Rank of `==` and `!=`. -/
def EQUALS : Nat := 2
/-- Rank of `<` and `>`. -/
def LESSGREATER : Nat := 3
/-- Rank of `+` and `-`. -/
def SUM : Nat := 4
/-- Rank of `*` and `/`. -/
def PRODUCT : Nat := 5
/-- Rank of the operand of `-x` or `!x`. -/
def PREFIX : Nat := 6
/-- Rank of `foobar(x)`. -/
def CALL : Nat := 7
/-- Rank of `array[index]`. -/
def INDEX : Nat := 8

/-- The table `precedences`. -/
def precedences : TokenType → Option Nat
  | .EQ => some EQUALS
  | .NOT_EQ => some EQUALS
  | .LT => some LESSGREATER
  | .GT => some LESSGREATER
  | .PLUS => some SUM
  | .MINUS => some SUM
  | .SLASH => some PRODUCT
  | .ASTERICK => some PRODUCT
  | .LPAREN => some CALL
  | .LBRACKET => some INDEX
  | _ => none

/-- The methods `New` registers as prefix productions. -/
inductive prefixParseFn
  | parseIdentifier | parseIntegerLiteral | parsePrefixExpressions | parseBooleans
  | parseGroupedExpression | parseIfExpression | parseFunctionLiteral
  | parseStringLiteral | parseArrayLiteral | parseHashLiteral
  deriving DecidableEq, Repr

/-- The methods `New` registers as infix productions. -/
inductive infixParseFn
  | parseInfixExpressions | parseCallExpression | parseIndexExpression
  deriving DecidableEq, Repr

/-- The map `p.prefixParseFns` as `New` fills it. -/
def prefixParseFns : TokenType → Option prefixParseFn
  | .IDENT => some .parseIdentifier
  | .INT => some .parseIntegerLiteral
  | .BANG => some .parsePrefixExpressions
  | .MINUS => some .parsePrefixExpressions
  | .TRUE => some .parseBooleans
  | .FALSE => some .parseBooleans
  | .LPAREN => some .parseGroupedExpression
  | .IF => some .parseIfExpression
  | .FUNCTION => some .parseFunctionLiteral
  | .STRING => some .parseStringLiteral
  | .LBRACKET => some .parseArrayLiteral
  | .LBRACE => some .parseHashLiteral
  | _ => none

/-- The map `p.infixParseFns` as `New` fills it. -/
def infixParseFns : TokenType → Option infixParseFn
  | .PLUS => some .parseInfixExpressions
  | .MINUS => some .parseInfixExpressions
  | .SLASH => some .parseInfixExpressions
  | .ASTERICK => some .parseInfixExpressions
  | .EQ => some .parseInfixExpressions
  | .NOT_EQ => some .parseInfixExpressions
  | .LT => some .parseInfixExpressions
  | .GT => some .parseInfixExpressions
  | .LPAREN => some .parseCallExpression
  | .LBRACKET => some .parseIndexExpression
  | _ => none

namespace Parser

/-- The method `nextToken`. -/
def nextToken (p : Parser) : Parser :=
  { p with currToken := p.peekToken, peekToken := p.l.NextToken.1, l := p.l.NextToken.2 }

/-- The method `Errors`. -/
def Errors (p : Parser) : List String := p.errors

/-- The method `peekError`. -/
def peekError (p : Parser) (t : TokenType) : Parser :=
  { p with errors := p.errors ++
      ["expected next token to be " ++ t.toString ++ ", got " ++ p.peekToken.Typ.toString] }

/-- The method `noPrefixParseFnError`. -/
def noPrefixParseFnError (p : Parser) (t : TokenType) : Parser :=
  { p with errors := p.errors ++ ["no prefix function for " ++ t.toString ++ " found."] }

/-- The method `currTokenIs`. -/
def currTokenIs (p : Parser) (t : TokenType) : Bool := p.currToken.Typ = t

/-- The method `peekTokenIs`. -/
def peekTokenIs (p : Parser) (t : TokenType) : Bool := p.peekToken.Typ = t

/-- The method `expectPeek`. -/
def expectPeek (p : Parser) (t : TokenType) : Bool × Parser :=
  if p.peekTokenIs t then (true, p.nextToken) else (false, p.peekError t)

/-- The method `peekPrecedence`. -/
def peekPrecedence (p : Parser) : Nat :=
  match precedences p.peekToken.Typ with
  | some r => r
  | none => LOWEST

/-- The method `currPrecedence`. -/
def currPrecedence (p : Parser) : Nat :=
  match precedences p.currToken.Typ with
  | some r => r
  | none => LOWEST

/-- The method `parseIdentifier`. -/
def parseIdentifier (p : Parser) : Option Expression × Parser :=
  (some (.Identifier p.currToken p.currToken.Literal), p)

/-- The method `parseIntegerLiteral`. -/
def parseIntegerLiteral (p : Parser) : Option Expression × Parser :=
  match ParseInt p.currToken.Literal with
  | .error _ =>
    (none, { p with errors := p.errors ++
      ["count not parse string to int64, got=" ++ p.currToken.Literal] })
  | .ok value => (some (.IntegerLiteral p.currToken value), p)

/-- The method `parseBooleans`. -/
def parseBooleans (p : Parser) : Option Expression × Parser :=
  (some (.Boolean p.currToken (p.currTokenIs .TRUE)), p)

/-- The method `parseStringLiteral`. -/
def parseStringLiteral (p : Parser) : Option Expression × Parser :=
  (some (.StringLiteral p.currToken p.currToken.Literal), p)

/-- The loop `for !p.currTokenIs(token.SEMICOLON) { p.nextToken() }` of
`parseReturnStatement`. -/
def parseReturnStatementLoop : Nat → Parser → Option Parser
  | 0, _ => none
  | fuel + 1, p =>
    if ¬ p.currTokenIs .SEMICOLON then parseReturnStatementLoop fuel p.nextToken
    else some p

/-- The loop `for p.peekTokenIs(token.COMMA)` of `parseFunctionParamters`. -/
def parseFunctionParamtersLoop : Nat → List Identifier → Parser →
    Option (List Identifier × Parser)
  | 0, _, _ => none
  | fuel + 1, identifers, p =>
    if p.peekTokenIs .COMMA then
      let p := p.nextToken
      let p := p.nextToken
      let ident : Identifier := ⟨p.currToken, p.currToken.Literal⟩
      parseFunctionParamtersLoop fuel (identifers ++ [ident]) p
    else some (identifers, p)

/-- The method `parseFunctionParamters`. -/
def parseFunctionParamters : Nat → Parser → Option (Option (List Identifier) × Parser)
  | 0, _ => none
  | fuel + 1, p =>
    if p.peekTokenIs .RPAREN then some (some [], p.nextToken)
    else
      let p := p.nextToken
      let ident : Identifier := ⟨p.currToken, p.currToken.Literal⟩
      match parseFunctionParamtersLoop fuel [ident] p with
      | none => none
      | some (identifers, p) =>
        match p.expectPeek .RPAREN with
        | (false, p) => some (none, p)
        | (true, p) => some (some identifers, p)

mutual

/-- The method `parseStatement`. The result is an interface value: a nil
`*ast.LetStatement` is wrapped as `nilLetStatement`, never as the nil interface. -/
def parseStatement : Nat → Parser → Option (Option Statement × Parser)
  | 0, _ => none
  | fuel + 1, p =>
    match p.currToken.Typ with
    | .LET =>
      match parseLetStatement fuel p with
      | none => none
      | some (none, p) => some (some .nilLetStatement, p)
      | some (some statement, p) => some (some statement, p)
    | .RETURN =>
      match parseReturnStatement fuel p with
      | none => none
      | some (statement, p) => some (some statement, p)
    | _ =>
      match parseExpressionStatement fuel p with
      | none => none
      | some (stmt, p) => some (some stmt, p)

/-- The method `parseLetStatement`; `none` inside is the nil pointer. -/
def parseLetStatement : Nat → Parser → Option (Option Statement × Parser)
  | 0, _ => none
  | fuel + 1, p =>
    let tok := p.currToken
    match p.expectPeek .IDENT with
    | (false, p) => some (none, p)
    | (true, p) =>
      let name : Identifier := ⟨p.currToken, p.currToken.Literal⟩
      match p.expectPeek .ASSIGN with
      | (false, p) => some (none, p)
      | (true, p) =>
        let p := p.nextToken
        match parseExpression fuel LOWEST p with
        | none => none
        | some (value, p) =>
          let p := if p.peekTokenIs .SEMICOLON then p.nextToken else p
          some (some (.LetStatement tok name value), p)

/-- The method `parseReturnStatement`. -/
def parseReturnStatement : Nat → Parser → Option (Statement × Parser)
  | 0, _ => none
  | fuel + 1, p =>
    let tok := p.currToken
    let p := p.nextToken
    match parseExpression fuel LOWEST p with
    | none => none
    | some (returnValue, p) =>
      match parseReturnStatementLoop fuel p with
      | none => none
      | some p => some (.ReturnStatement tok returnValue, p)

/-- The method `parseExpressionStatement`. -/
def parseExpressionStatement : Nat → Parser → Option (Statement × Parser)
  | 0, _ => none
  | fuel + 1, p =>
    let tok := p.currToken
    match parseExpression fuel LOWEST p with
    | none => none
    | some (expression, p) =>
      let p := if p.peekTokenIs .SEMICOLON then p.nextToken else p
      some (.ExpressionStatement tok expression, p)

/-- The method `parseExpression`: look up and run the prefix production of the
current token, then enter the loop. -/
def parseExpression : Nat → Nat → Parser → Option (Option Expression × Parser)
  | 0, _, _ => none
  | fuel + 1, precedence, p =>
    match prefixParseFns p.currToken.Typ with
    | none => some (none, p.noPrefixParseFnError p.currToken.Typ)
    | some prefixFn =>
      let leftExp :=
        match prefixFn with
        | .parseIdentifier => some p.parseIdentifier
        | .parseIntegerLiteral => some p.parseIntegerLiteral
        | .parsePrefixExpressions => parsePrefixExpressions fuel p
        | .parseBooleans => some p.parseBooleans
        | .parseGroupedExpression => parseGroupedExpression fuel p
        | .parseIfExpression => parseIfExpression fuel p
        | .parseFunctionLiteral => parseFunctionLiteral fuel p
        | .parseStringLiteral => some p.parseStringLiteral
        | .parseArrayLiteral => parseArrayLiteral fuel p
        | .parseHashLiteral => parseHashLiteral fuel p
      match leftExp with
      | none => none
      | some (leftExp, p) => parseExpressionLoop fuel precedence leftExp p

/-- The loop `for !p.peekTokenIs(token.SEMICOLON) && precedence < p.peekPrecedence()`
of `parseExpression`. -/
def parseExpressionLoop : Nat → Nat → Option Expression → Parser →
    Option (Option Expression × Parser)
  | 0, _, _, _ => none
  | fuel + 1, precedence, leftExp, p =>
    if ¬ p.peekTokenIs .SEMICOLON ∧ precedence < p.peekPrecedence then
      match infixParseFns p.peekToken.Typ with
      | none => some (leftExp, p)
      | some infixFn =>
        let p := p.nextToken
        let leftExp :=
          match infixFn with
          | .parseInfixExpressions => parseInfixExpressions fuel leftExp p
          | .parseCallExpression => parseCallExpression fuel leftExp p
          | .parseIndexExpression => parseIndexExpression fuel leftExp p
        match leftExp with
        | none => none
        | some (leftExp, p) => parseExpressionLoop fuel precedence leftExp p
    else some (leftExp, p)

/-- The method `parsePrefixExpressions`. -/
def parsePrefixExpressions : Nat → Parser → Option (Option Expression × Parser)
  | 0, _ => none
  | fuel + 1, p =>
    let tok := p.currToken
    let p := p.nextToken
    match parseExpression fuel PREFIX p with
    | none => none
    | some (right, p) => some (some (.PrefixExpression tok tok.Literal right), p)

/-- The method `parseInfixExpressions`. -/
def parseInfixExpressions : Nat → Option Expression → Parser →
    Option (Option Expression × Parser)
  | 0, _, _ => none
  | fuel + 1, left, p =>
    let tok := p.currToken
    let precedence := p.currPrecedence
    let p := p.nextToken
    match parseExpression fuel precedence p with
    | none => none
    | some (right, p) => some (some (.InfixExpression tok tok.Literal left right), p)

/-- The method `parseGroupedExpression`. -/
def parseGroupedExpression : Nat → Parser → Option (Option Expression × Parser)
  | 0, _ => none
  | fuel + 1, p =>
    let p := p.nextToken
    match parseExpression fuel LOWEST p with
    | none => none
    | some (exp, p) =>
      match p.expectPeek .RPAREN with
      | (false, p) => some (none, p)
      | (true, p) => some (exp, p)

/-- The method `parseIfExpression`. -/
def parseIfExpression : Nat → Parser → Option (Option Expression × Parser)
  | 0, _ => none
  | fuel + 1, p =>
    let tok := p.currToken
    match p.expectPeek .LPAREN with
    | (false, p) => some (none, p)
    | (true, p) =>
      let p := p.nextToken
      match parseExpression fuel LOWEST p with
      | none => none
      | some (condition, p) =>
        match p.expectPeek .RPAREN with
        | (false, p) => some (none, p)
        | (true, p) =>
          match p.expectPeek .LBRACE with
          | (false, p) => some (none, p)
          | (true, p) =>
            match parseBlockStatement fuel p with
            | none => none
            | some (consequence, p) =>
              if p.peekTokenIs .ELSE then
                let p := p.nextToken
                match p.expectPeek .LBRACE with
                | (false, p) => some (none, p)
                | (true, p) =>
                  match parseBlockStatement fuel p with
                  | none => none
                  | some (alternative, p) =>
                    some (some (.IfExpression tok condition consequence (some alternative)), p)
              else some (some (.IfExpression tok condition consequence none), p)

/-- The method `parseBlockStatement`. -/
def parseBlockStatement : Nat → Parser → Option (BlockStatement × Parser)
  | 0, _ => none
  | fuel + 1, p =>
    let tok := p.currToken
    let p := p.nextToken
    match parseBlockStatementLoop fuel [] p with
    | none => none
    | some (statements, p) => some (.mk tok statements, p)

/-- The loop `for !p.currTokenIs(token.RBRACE) && !p.currTokenIs(token.EOF)` of
`parseBlockStatement`. -/
def parseBlockStatementLoop : Nat → List Statement → Parser →
    Option (List Statement × Parser)
  | 0, _, _ => none
  | fuel + 1, statements, p =>
    if ¬ p.currTokenIs .RBRACE ∧ ¬ p.currTokenIs .EOF then
      match parseStatement fuel p with
      | none => none
      | some (stmt, p) =>
        let statements :=
          match stmt with
          | some stmt => statements ++ [stmt]
          | none => statements
        parseBlockStatementLoop fuel statements p.nextToken
    else some (statements, p)

/-- The method `parseFunctionLiteral`. -/
def parseFunctionLiteral : Nat → Parser → Option (Option Expression × Parser)
  | 0, _ => none
  | fuel + 1, p =>
    let tok := p.currToken
    match p.expectPeek .LPAREN with
    | (false, p) => some (none, p)
    | (true, p) =>
      match parseFunctionParamters fuel p with
      | none => none
      | some (parameters, p) =>
        match p.expectPeek .LBRACE with
        | (false, p) => some (none, p)
        | (true, p) =>
          match parseBlockStatement fuel p with
          | none => none
          | some (body, p) => some (some (.FunctionLiteral tok parameters body), p)

/-- The method `parseCallExpression`. -/
def parseCallExpression : Nat → Option Expression → Parser →
    Option (Option Expression × Parser)
  | 0, _, _ => none
  | fuel + 1, function, p =>
    let tok := p.currToken
    match parseExpressionList fuel .RPAREN p with
    | none => none
    | some (arguments, p) => some (some (.CallExpression tok function arguments), p)

/-- The method `parseCallArguments` (no caller). -/
def parseCallArguments : Nat → Parser → Option (Option (List (Option Expression)) × Parser)
  | 0, _ => none
  | fuel + 1, p =>
    if p.peekTokenIs .RPAREN then some (some [], p.nextToken)
    else
      let p := p.nextToken
      match parseExpression fuel LOWEST p with
      | none => none
      | some (arg, p) =>
        match parseCallArgumentsLoop fuel [arg] p with
        | none => none
        | some (args, p) =>
          match p.expectPeek .RPAREN with
          | (false, p) => some (none, p)
          | (true, p) => some (some args, p)

/-- The loop `for p.peekTokenIs(token.COMMA)` of `parseCallArguments`. -/
def parseCallArgumentsLoop : Nat → List (Option Expression) → Parser →
    Option (List (Option Expression) × Parser)
  | 0, _, _ => none
  | fuel + 1, args, p =>
    if p.peekTokenIs .COMMA then
      let p := p.nextToken
      let p := p.nextToken
      match parseExpression fuel LOWEST p with
      | none => none
      | some (arg, p) => parseCallArgumentsLoop fuel (args ++ [arg]) p
    else some (args, p)

/-- The method `parseArrayLiteral`. -/
def parseArrayLiteral : Nat → Parser → Option (Option Expression × Parser)
  | 0, _ => none
  | fuel + 1, p =>
    let tok := p.currToken
    match parseExpressionList fuel .RBRACKET p with
    | none => none
    | some (elements, p) => some (some (.ArrayLiteral tok elements), p)

/-- The method `parseHashLiteral`. -/
def parseHashLiteral : Nat → Parser → Option (Option Expression × Parser)
  | 0, _ => none
  | fuel + 1, p =>
    let tok := p.currToken
    match parseHashLiteralLoop fuel [] p with
    | none => none
    | some (none, p) => some (none, p)
    | some (some pairs, p) =>
      match p.expectPeek .RBRACE with
      | (false, p) => some (none, p)
      | (true, p) => some (some (.HashLiteral tok pairs), p)

/-- The loop `for !p.peekTokenIs(token.RBRACE)` of `parseHashLiteral`; `none`
inside is a `return nil` from within the loop. -/
def parseHashLiteralLoop : Nat → List (Option Expression × Option Expression) → Parser →
    Option (Option (List (Option Expression × Option Expression)) × Parser)
  | 0, _, _ => none
  | fuel + 1, pairs, p =>
    if ¬ p.peekTokenIs .RBRACE then
      let p := p.nextToken
      match parseExpression fuel LOWEST p with
      | none => none
      | some (key, p) =>
        match p.expectPeek .COLON with
        | (false, p) => some (none, p)
        | (true, p) =>
          let p := p.nextToken
          match parseExpression fuel LOWEST p with
          | none => none
          | some (value, p) =>
            let pairs := hashPairsSet pairs key value
            if ¬ p.peekTokenIs .RBRACE then
              match p.expectPeek .COMMA with
              | (false, p) => some (none, p)
              | (true, p) => parseHashLiteralLoop fuel pairs p
            else parseHashLiteralLoop fuel pairs p
    else some (some pairs, p)

/-- The method `parseExpressionList`. -/
def parseExpressionList : Nat → TokenType → Parser →
    Option (Option (List (Option Expression)) × Parser)
  | 0, _, _ => none
  | fuel + 1, endTok, p =>
    if p.peekTokenIs endTok then some (some [], p.nextToken)
    else
      let p := p.nextToken
      match parseExpression fuel LOWEST p with
      | none => none
      | some (first, p) =>
        match parseExpressionListLoop fuel [first] p with
        | none => none
        | some (list, p) =>
          match p.expectPeek endTok with
          | (false, p) => some (none, p)
          | (true, p) => some (some list, p)

/-- The loop `for p.peekTokenIs(token.COMMA)` of `parseExpressionList`. -/
def parseExpressionListLoop : Nat → List (Option Expression) → Parser →
    Option (List (Option Expression) × Parser)
  | 0, _, _ => none
  | fuel + 1, list, p =>
    if p.peekTokenIs .COMMA then
      let p := p.nextToken
      let p := p.nextToken
      match parseExpression fuel LOWEST p with
      | none => none
      | some (item, p) => parseExpressionListLoop fuel (list ++ [item]) p
    else some (list, p)

/-- The method `parseIndexExpression`. -/
def parseIndexExpression : Nat → Option Expression → Parser →
    Option (Option Expression × Parser)
  | 0, _, _ => none
  | fuel + 1, left, p =>
    let tok := p.currToken
    let p := p.nextToken
    match parseExpression fuel LOWEST p with
    | none => none
    | some (index, p) =>
      match p.expectPeek .RBRACKET with
      | (false, p) => some (none, p)
      | (true, p) => some (some (.IndexExpression tok left index), p)

end

/-- The loop `for p.currToken.Type != token.EOF` of `ParseProgram`. -/
def ParseProgramLoop : Nat → List Statement → Parser → Option (List Statement × Parser)
  | 0, _, _ => none
  | fuel + 1, statements, p =>
    if p.currToken.Typ ≠ .EOF then
      match parseStatement fuel p with
      | none => none
      | some (statement, p) =>
        let statements :=
          match statement with
          | some statement => statements ++ [statement]
          | none => statements
        ParseProgramLoop fuel statements p.nextToken
    else some (statements, p)

/-- The method `ParseProgram`. -/
def ParseProgram (fuel : Nat) (p : Parser) : Option (Program × Parser) :=
  match ParseProgramLoop fuel [] p with
  | none => none
  | some (statements, p) => some (⟨statements⟩, p)

end Parser

/-- The constructor `New`: both lookahead slots are filled before any
production runs. -/
def New (l : Lexer) : Parser :=
  let p : Parser := ⟨l, [], eofToken, eofToken⟩
  p.nextToken.nextToken

/-! ## Vocabulary of the properties -/

/-- The table rank of a category: its entry in `precedences`, `LOWEST` when it
has none (what `peekPrecedence` and `currPrecedence` compute). -/
def rank (t : TokenType) : Nat :=
  match precedences t with
  | some r => r
  | none => LOWEST

/-- An atom is a single identifier or integer-literal token. -/
def isAtom (t : Token) : Prop := t.Typ = .IDENT ∨ t.Typ = .INT

instance (t : Token) : Decidable (isAtom t) := by unfold isAtom; infer_instance

/-- The binary operators `+ - * / == != < >`. -/
def isBinaryOperator : TokenType → Bool
  | .PLUS | .MINUS | .ASTERICK | .SLASH | .EQ | .NOT_EQ | .LT | .GT => true
  | _ => false

/-- The prefix operators `!` and `-`. -/
def isPrefixOperator : TokenType → Bool
  | .BANG | .MINUS => true
  | _ => false

/-- The text of an integer-literal token converts: `ParseInt` returns no error.
An identifier has nothing to convert. -/
def converts (t : Token) : Prop :=
  t.Typ = .INT → ∃ v, ParseInt t.Literal = .ok v

/-- The node of an atom: what its prefix production (`parseIdentifier` or
`parseIntegerLiteral`) returns with the atom as current token. -/
def atomNode (t : Token) : Option Expression :=
  if t.Typ = .INT then (Parser.parseIntegerLiteral ⟨[], [], t, eofToken⟩).1
  else (Parser.parseIdentifier ⟨[], [], t, eofToken⟩).1

/-- The diagnostics the prefix production of an atom records. -/
def atomErrors (t : Token) : List String :=
  if t.Typ = .INT then (Parser.parseIntegerLiteral ⟨[], [], t, eofToken⟩).2.errors
  else []

/-- The node `InfixExpression` for the operator token `o`. -/
def Infix (o : Token) (left right : Option Expression) : Option Expression :=
  some (.InfixExpression o o.Literal left right)

/-- The node `PrefixExpression` for the operator token `u`. -/
def Prefix (u : Token) (right : Option Expression) : Option Expression :=
  some (.PrefixExpression u u.Literal right)

/-- The token `\x7b`. -/
def lbrace : Token := ⟨.LBRACE, "\x7b"⟩
/-- The token `\x7d`. -/
def rbrace : Token := ⟨.RBRACE, "\x7d"⟩
/-- The token `:`. -/
def colon : Token := ⟨.COLON, ":"⟩
/-- The token `,`. -/
def comma : Token := ⟨.COMMA, ","⟩

/-- The token `(`. -/
def lparen : Token := ⟨.LPAREN, "("⟩
/-- The token `)`. -/
def rparen : Token := ⟨.RPAREN, ")"⟩
/-- The token `[`. -/
def lbracket : Token := ⟨.LBRACKET, "["⟩
/-- The token `]`. -/
def rbracket : Token := ⟨.RBRACKET, "]"⟩

/-- The tokens of a hash literal after its first pair: `, k : v` for every
further pair, then the closing brace. -/
def hashTail : List (Token × Token) → List Token
  | [] => [rbrace]
  | kv :: rest => comma :: kv.1 :: colon :: kv.2 :: hashTail rest

/-- The tokens of the hash literal with the given key and value atoms,
`\x7b k1 : v1 , ... , kn : vn \x7d`. -/
def hashTokens : List (Token × Token) → List Token
  | [] => [lbrace, rbrace]
  | kv :: rest => lbrace :: kv.1 :: colon :: kv.2 :: hashTail rest

/-- The map after the assignments `Pairs[ki] = vi` for the given atoms, in
source order, from the map `acc`. -/
def hashEntries (acc : List (Option Expression × Option Expression)) :
    List (Token × Token) → List (Option Expression × Option Expression)
  | [] => acc
  | kv :: rest => hashEntries (hashPairsSet acc (atomNode kv.1) (atomNode kv.2)) rest

/-- The diagnostics of the atoms of the pairs, in source order. -/
def pairErrors : List (Token × Token) → List String
  | [] => []
  | kv :: rest => atomErrors kv.1 ++ atomErrors kv.2 ++ pairErrors rest

/-- The last value token of the pairs `(k, v) :: rest`. -/
def lastValue (v : Token) : List (Token × Token) → Token
  | [] => v
  | kv :: rest => lastValue kv.2 rest

/-- The parser state with the diagnostics `errs` and the current token `cur`
that reads the tokens `ts` next: the first of them (end of file when there is
none) is the peek token. -/
def parserAt (errs : List String) (cur : Token) (ts : List Token) : Parser :=
  ⟨(Lexer.NextToken ts).2, errs, cur, (Lexer.NextToken ts).1⟩

/-- The tokens of a comma-separated sequence after its first atom: `, a` for
every further atom, then the terminator. -/
def listTail (e : Token) : List Token → List Token
  | [] => [e]
  | a :: rest => comma :: a :: listTail e rest

/-- The tokens `a1 , a2 , ... , an e` of a sequence of atoms with its terminator. -/
def listTokens (e : Token) : List Token → List Token
  | [] => [e]
  | a :: rest => a :: listTail e rest

/-- The diagnostics of a sequence of atoms, in source order. -/
def atomsErrors : List Token → List String
  | [] => []
  | a :: rest => atomErrors a ++ atomsErrors rest

/-- A terminator category `parseExpressionList` can stop on after an atom: it
has no entry in `precedences` (so the expression before it ends), and it is
neither the separator `,` nor the category of an atom. -/
def isListTerminator (t : TokenType) : Prop :=
  precedences t = none ∧ t ≠ .COMMA ∧ t ≠ .IDENT ∧ t ≠ .INT

instance (t : TokenType) : Decidable (isListTerminator t) := by
  unfold isListTerminator; infer_instance
/-- The last token of `cur :: rest`. -/
def lastToken (cur : Token) : List Token → Token
  | [] => cur
  | a :: rest => lastToken a rest

/-- The decimal reading of a string of decimal digits. -/
def decimalValue (ds : List Char) : Nat :=
  ds.foldl (fun n c => n * 10 + (c.toNat - '0'.toNat)) 0

/-- The tokens `o1 a2 o2 a3 ...` of a chain of atoms joined by operators, after
its first atom; a pair holds an operator and the atom after it. -/
def chainTail : List (Token × Token) → List Token
  | [] => []
  | oa :: rest => oa.1 :: oa.2 :: chainTail rest

/-- The diagnostics of the atoms of a chain after its first atom, in source
order. -/
def chainErrors : List (Token × Token) → List String
  | [] => []
  | oa :: rest => atomErrors oa.2 ++ chainErrors rest

/-- The rank of the operator at the root when the expression is an
`InfixExpression`. -/
def infixRank : Option Expression → Option Nat
  | some (.InfixExpression tok _ _ _) => some (rank tok.Typ)
  | _ => none

mutual
/-- Rank nesting, checked at every `InfixExpression` of the tree: an
`InfixExpression` that is its direct left operand has a rank greater than or
equal to its own, one that is its direct right operand a strictly greater
rank. -/
def Expression.rankNested : Expression → Bool
  | .Identifier _ _ => true
  | .IntegerLiteral _ _ => true
  | .Boolean _ _ => true
  | .StringLiteral _ _ => true
  | .PrefixExpression _ _ right => optRankNested right
  | .InfixExpression tok _ left right =>
    (match infixRank left with
      | some r => decide (rank tok.Typ ≤ r)
      | none => true) &&
    (match infixRank right with
      | some r => decide (rank tok.Typ < r)
      | none => true) &&
    optRankNested left && optRankNested right
  | .IfExpression _ c k a => optRankNested c && k.rankNested && optBlockRankNested a
  | .FunctionLiteral _ _ body => body.rankNested
  | .CallExpression _ f args => optRankNested f && optListRankNested args
  | .ArrayLiteral _ els => optListRankNested els
  | .HashLiteral _ pairs => pairsRankNested pairs
  | .IndexExpression _ l i => optRankNested l && optRankNested i
/-- Rank nesting of an expression that may be absent. -/
def optRankNested : Option Expression → Bool
  | none => true
  | some e => e.rankNested
/-- Rank nesting of a sequence that may be absent. -/
def optListRankNested : Option (List (Option Expression)) → Bool
  | none => true
  | some l => listRankNested l
/-- Rank nesting of every expression of a sequence. -/
def listRankNested : List (Option Expression) → Bool
  | [] => true
  | e :: rest => optRankNested e && listRankNested rest
/-- Rank nesting of every key and value. -/
def pairsRankNested : List (Option Expression × Option Expression) → Bool
  | [] => true
  | (k, v) :: rest => optRankNested k && optRankNested v && pairsRankNested rest
/-- Rank nesting of the expression of a statement. -/
def Statement.rankNested : Statement → Bool
  | .LetStatement _ _ v => optRankNested v
  | .nilLetStatement => true
  | .ReturnStatement _ v => optRankNested v
  | .ExpressionStatement _ v => optRankNested v
/-- Rank nesting of every statement of a block. -/
def BlockStatement.rankNested : BlockStatement → Bool
  | .mk _ stmts => stmtsRankNested stmts
/-- Rank nesting of a block that may be absent. -/
def optBlockRankNested : Option BlockStatement → Bool
  | none => true
  | some b => b.rankNested
/-- Rank nesting of every statement of a sequence. -/
def stmtsRankNested : List Statement → Bool
  | [] => true
  | s :: rest => s.rankNested && stmtsRankNested rest
end

/-- The token `;`. -/
def semicolon : Token := ⟨.SEMICOLON, ";"⟩
/-- The token `let`. -/
def letTok : Token := ⟨.LET, "let"⟩
/-- The token `=`. -/
def assignTok : Token := ⟨.ASSIGN, "="⟩

/-- Every result `(r, q)` of a production satisfies `Q r q`; nothing is said of
a run that is out of fuel. -/
structure Sat {α : Type} (Q : α → Parser → Prop) (res : Option (α × Parser)) : Prop where
  out : ∀ r q, res = some (r, q) → Q r q

/-- The diagnostics `e0` are a prefix of the diagnostics after the production. -/
abbrev Grows {α : Type} (e0 : List String) (res : Option (α × Parser)) : Prop :=
  Sat (fun _ q => e0 <+: q.errors) res

/-- With `fuel`, every production of the mutual block only appends to the
diagnostics: a list that is a prefix of the diagnostics before the call is a
prefix of the diagnostics after it. -/
structure ErrorsGrow (fuel : Nat) : Prop where
  parseStatement : ∀ e0 p, e0 <+: p.errors → Grows e0 (Parser.parseStatement fuel p)
  parseLetStatement : ∀ e0 p, e0 <+: p.errors → Grows e0 (Parser.parseLetStatement fuel p)
  parseReturnStatement : ∀ e0 p, e0 <+: p.errors → Grows e0 (Parser.parseReturnStatement fuel p)
  parseExpressionStatement : ∀ e0 p, e0 <+: p.errors → Grows e0 (Parser.parseExpressionStatement fuel p)
  parseExpression : ∀ e0 p, e0 <+: p.errors → ∀ precedence,
    Grows e0 (Parser.parseExpression fuel precedence p)
  parseExpressionLoop : ∀ e0 p, e0 <+: p.errors → ∀ precedence leftExp,
    Grows e0 (Parser.parseExpressionLoop fuel precedence leftExp p)
  parsePrefixExpressions : ∀ e0 p, e0 <+: p.errors → Grows e0 (Parser.parsePrefixExpressions fuel p)
  parseInfixExpressions : ∀ e0 p, e0 <+: p.errors → ∀ left,
    Grows e0 (Parser.parseInfixExpressions fuel left p)
  parseGroupedExpression : ∀ e0 p, e0 <+: p.errors → Grows e0 (Parser.parseGroupedExpression fuel p)
  parseIfExpression : ∀ e0 p, e0 <+: p.errors → Grows e0 (Parser.parseIfExpression fuel p)
  parseBlockStatement : ∀ e0 p, e0 <+: p.errors → Grows e0 (Parser.parseBlockStatement fuel p)
  parseBlockStatementLoop : ∀ e0 p, e0 <+: p.errors → ∀ statements,
    Grows e0 (Parser.parseBlockStatementLoop fuel statements p)
  parseFunctionLiteral : ∀ e0 p, e0 <+: p.errors → Grows e0 (Parser.parseFunctionLiteral fuel p)
  parseCallExpression : ∀ e0 p, e0 <+: p.errors → ∀ function,
    Grows e0 (Parser.parseCallExpression fuel function p)
  parseCallArguments : ∀ e0 p, e0 <+: p.errors → Grows e0 (Parser.parseCallArguments fuel p)
  parseCallArgumentsLoop : ∀ e0 p, e0 <+: p.errors → ∀ args,
    Grows e0 (Parser.parseCallArgumentsLoop fuel args p)
  parseArrayLiteral : ∀ e0 p, e0 <+: p.errors → Grows e0 (Parser.parseArrayLiteral fuel p)
  parseHashLiteral : ∀ e0 p, e0 <+: p.errors → Grows e0 (Parser.parseHashLiteral fuel p)
  parseHashLiteralLoop : ∀ e0 p, e0 <+: p.errors → ∀ pairs,
    Grows e0 (Parser.parseHashLiteralLoop fuel pairs p)
  parseExpressionList : ∀ e0 p, e0 <+: p.errors → ∀ endTok,
    Grows e0 (Parser.parseExpressionList fuel endTok p)
  parseExpressionListLoop : ∀ e0 p, e0 <+: p.errors → ∀ list,
    Grows e0 (Parser.parseExpressionListLoop fuel list p)
  parseIndexExpression : ∀ e0 p, e0 <+: p.errors → ∀ left,
    Grows e0 (Parser.parseIndexExpression fuel left p)

mutual
/-- No node of the expression is absent: every expression-valued field holds an
expression, every sequence field holds a sequence whose elements are all there,
every statement of every block is there; only the alternative of an
`IfExpression` may be absent. -/
def Expression.complete : Expression → Bool
  | .Identifier _ _ => true
  | .IntegerLiteral _ _ => true
  | .Boolean _ _ => true
  | .StringLiteral _ _ => true
  | .PrefixExpression _ _ right => optComplete right
  | .InfixExpression _ _ left right => optComplete left && optComplete right
  | .IfExpression _ c k a => optComplete c && k.complete && optBlockComplete a
  | .FunctionLiteral _ parameters body => parameters.isSome && body.complete
  | .CallExpression _ f args => optComplete f && optListComplete args
  | .ArrayLiteral _ els => optListComplete els
  | .HashLiteral _ pairs => pairsComplete pairs
  | .IndexExpression _ l i => optComplete l && optComplete i
/-- An expression-valued field: present, and complete. -/
def optComplete : Option Expression → Bool
  | none => false
  | some e => e.complete
/-- A sequence field: present, with every element present and complete. -/
def optListComplete : Option (List (Option Expression)) → Bool
  | none => false
  | some l => listComplete l
/-- Every element of the sequence is present and complete. -/
def listComplete : List (Option Expression) → Bool
  | [] => true
  | e :: rest => optComplete e && listComplete rest
/-- Every key and every value is present and complete. -/
def pairsComplete : List (Option Expression × Option Expression) → Bool
  | [] => true
  | (k, v) :: rest => optComplete k && optComplete v && pairsComplete rest
/-- The statement is present (not the nil `*ast.LetStatement`) and its
expression is present and complete. -/
def Statement.complete : Statement → Bool
  | .LetStatement _ _ v => optComplete v
  | .nilLetStatement => false
  | .ReturnStatement _ v => optComplete v
  | .ExpressionStatement _ v => optComplete v
/-- Every statement of the block is present and complete. -/
def BlockStatement.complete : BlockStatement → Bool
  | .mk _ stmts => stmtsComplete stmts
/-- The optional alternative: absent, or a complete block. -/
def optBlockComplete : Option BlockStatement → Bool
  | none => true
  | some b => b.complete
/-- Every statement of the sequence is present and complete. -/
def stmtsComplete : List Statement → Bool
  | [] => true
  | s :: rest => s.complete && stmtsComplete rest
end

/-- The tree of a program has no absent node. -/
def Program.complete (program : Program) : Bool := stmtsComplete program.Statements

/-- The statement `parseStatement` hands to a statement loop: the nil interface
adds nothing to the sequence, any other value must be complete. -/
def optStatementComplete : Option Statement → Bool
  | none => true
  | some s => s.complete

/-- The entries of a hash literal whose loop did not give up. -/
def optPairsComplete : Option (List (Option Expression × Option Expression)) → Bool
  | none => false
  | some l => pairsComplete l

/-- If the diagnostics are empty after the production, they were empty in the
state `p` before it and the result satisfies `C`. -/
abbrev Reported {α : Type} (p : Parser) (C : α → Prop) (res : Option (α × Parser)) : Prop :=
  Sat (fun r q => q.errors = [] → p.errors = [] ∧ C r) res

/-- With `fuel`, every production of the mutual block reports what it could not
build: when it leaves the diagnostics empty its result is complete (for a
production that extends an operand or a sequence: complete if what it was given
is). -/
structure Reports (fuel : Nat) : Prop where
  parseStatement : ∀ p,
    Reported p (fun r => optStatementComplete r = true) (Parser.parseStatement fuel p)
  parseLetStatement : ∀ p,
    Reported p (fun r => r.isSome = true ∧ optStatementComplete r = true) (Parser.parseLetStatement fuel p)
  parseReturnStatement : ∀ p,
    Reported p (fun r => r.complete = true) (Parser.parseReturnStatement fuel p)
  parseExpressionStatement : ∀ p,
    Reported p (fun r => r.complete = true) (Parser.parseExpressionStatement fuel p)
  parseExpression : ∀ p precedence,
    Reported p (fun r => optComplete r = true) (Parser.parseExpression fuel precedence p)
  parseExpressionLoop : ∀ p precedence leftExp,
    Reported p (fun r => optComplete leftExp = true → optComplete r = true) (Parser.parseExpressionLoop fuel precedence leftExp p)
  parsePrefixExpressions : ∀ p,
    Reported p (fun r => optComplete r = true) (Parser.parsePrefixExpressions fuel p)
  parseInfixExpressions : ∀ p left,
    Reported p (fun r => optComplete left = true → optComplete r = true) (Parser.parseInfixExpressions fuel left p)
  parseGroupedExpression : ∀ p,
    Reported p (fun r => optComplete r = true) (Parser.parseGroupedExpression fuel p)
  parseIfExpression : ∀ p,
    Reported p (fun r => optComplete r = true) (Parser.parseIfExpression fuel p)
  parseBlockStatement : ∀ p,
    Reported p (fun r => r.complete = true) (Parser.parseBlockStatement fuel p)
  parseBlockStatementLoop : ∀ p statements,
    Reported p (fun r => stmtsComplete statements = true → stmtsComplete r = true) (Parser.parseBlockStatementLoop fuel statements p)
  parseFunctionLiteral : ∀ p,
    Reported p (fun r => optComplete r = true) (Parser.parseFunctionLiteral fuel p)
  parseCallExpression : ∀ p function,
    Reported p (fun r => optComplete function = true → optComplete r = true) (Parser.parseCallExpression fuel function p)
  parseCallArguments : ∀ p,
    Reported p (fun r => optListComplete r = true) (Parser.parseCallArguments fuel p)
  parseCallArgumentsLoop : ∀ p args,
    Reported p (fun r => listComplete args = true → listComplete r = true) (Parser.parseCallArgumentsLoop fuel args p)
  parseArrayLiteral : ∀ p,
    Reported p (fun r => optComplete r = true) (Parser.parseArrayLiteral fuel p)
  parseHashLiteral : ∀ p,
    Reported p (fun r => optComplete r = true) (Parser.parseHashLiteral fuel p)
  parseHashLiteralLoop : ∀ p pairs,
    Reported p (fun r => pairsComplete pairs = true → optPairsComplete r = true) (Parser.parseHashLiteralLoop fuel pairs p)
  parseExpressionList : ∀ p endTok,
    Reported p (fun r => optListComplete r = true) (Parser.parseExpressionList fuel endTok p)
  parseExpressionListLoop : ∀ p list,
    Reported p (fun r => listComplete list = true → listComplete r = true) (Parser.parseExpressionListLoop fuel list p)
  parseIndexExpression : ∀ p left,
    Reported p (fun r => optComplete left = true → optComplete r = true) (Parser.parseIndexExpression fuel left p)

/-! ## Stepping lemmas for the precedence-climbing core -/

theorem isBinaryOperator_facts {t : TokenType} (h : isBinaryOperator t = true) :
    infixParseFns t = some .parseInfixExpressions ∧ t ≠ .SEMICOLON ∧ LOWEST < rank t ∧
      rank t < PREFIX := by
  cases t <;> simp_all [isBinaryOperator, infixParseFns, rank, precedences, LOWEST, EQUALS,
    LESSGREATER, SUM, PRODUCT, PREFIX]

theorem LOWEST_le_rank (t : TokenType) : LOWEST ≤ rank t := by
  cases t <;> simp [rank, precedences, LOWEST, EQUALS, LESSGREATER, SUM, PRODUCT, CALL, INDEX]

theorem rank_eofToken_le (t : TokenType) : rank eofToken.Typ ≤ rank t :=
  LOWEST_le_rank t

theorem atomErrors_eq_nil {t : Token} (h : converts t) : atomErrors t = [] := by
  unfold atomErrors
  split
  · rename_i hint
    obtain ⟨v, hv⟩ := h hint
    simp [Parser.parseIntegerLiteral, hv]
  · rfl

theorem atomNode_isSome {t : Token} (h : converts t) : (atomNode t).isSome = true := by
  unfold atomNode
  split
  · rename_i hint
    obtain ⟨v, hv⟩ := h hint
    simp [Parser.parseIntegerLiteral, hv]
  · rfl

/-- On an atom, `parseExpression` runs the atom's production, which leaves the
tokens in place, and enters the loop. -/
theorem parseExpression_atom (fuel precedence : Nat) (l : Lexer) (errs : List String)
    (a pk : Token) (ha : isAtom a) :
    Parser.parseExpression (fuel + 1) precedence ⟨l, errs, a, pk⟩ =
      Parser.parseExpressionLoop fuel precedence (atomNode a)
        ⟨l, errs ++ atomErrors a, a, pk⟩ := by
  rw [Parser.parseExpression]
  rcases ha with h | h
  · simp [h, prefixParseFns, Parser.parseIdentifier, atomNode, atomErrors]
  · simp only [h, prefixParseFns, Parser.parseIntegerLiteral, atomNode, atomErrors]
    cases ParseInt a.Literal <;> simp

/-- The loop of `parseExpression` stops on `;` and on a token whose rank does
not exceed the bound. -/
theorem parseExpressionLoop_stop (fuel precedence : Nat) (left : Option Expression)
    (p : Parser) (h : p.peekToken.Typ = .SEMICOLON ∨ rank p.peekToken.Typ ≤ precedence) :
    Parser.parseExpressionLoop (fuel + 1) precedence left p = some (left, p) := by
  rw [Parser.parseExpressionLoop]
  have : ¬ (¬ p.peekTokenIs .SEMICOLON = true ∧ precedence < p.peekPrecedence) := by
    rintro ⟨h1, h2⟩
    rcases h with h | h
    · exact h1 (by simp [Parser.peekTokenIs, h])
    · exact absurd h2 (by simpa [Parser.peekPrecedence, rank] using h)
  rw [if_neg this]

/-- The loop of `parseExpression` on a binary operator of rank above the bound:
the operator and the token after it are consumed, the right operand is parsed
with the operator's rank as bound, and the loop goes on with the new node. -/
theorem parseExpressionLoop_binary (fuel precedence : Nat) (left : Option Expression)
    (p : Parser) (ho : isBinaryOperator p.peekToken.Typ = true)
    (h : precedence < rank p.peekToken.Typ) :
    Parser.parseExpressionLoop (fuel + 2) precedence left p =
      match Parser.parseExpression fuel (rank p.peekToken.Typ) p.nextToken.nextToken with
      | none => none
      | some (right, q) =>
        Parser.parseExpressionLoop (fuel + 1) precedence (Infix p.peekToken left right) q := by
  obtain ⟨h1, h2, -, -⟩ := isBinaryOperator_facts ho
  rw [Parser.parseExpressionLoop]
  have hc : (¬ p.peekTokenIs .SEMICOLON = true ∧ precedence < p.peekPrecedence) := by
    refine ⟨by simp [Parser.peekTokenIs, h2], by simpa [Parser.peekPrecedence, rank] using h⟩
  rw [if_pos hc]
  simp only [h1]
  rw [Parser.parseInfixExpressions]
  have : p.nextToken.currPrecedence = rank p.peekToken.Typ := rfl
  simp only [this]
  have : p.nextToken.currToken = p.peekToken := rfl
  simp only [this, Infix]
  cases Parser.parseExpression fuel (rank p.peekToken.Typ) p.nextToken.nextToken <;> rfl

/-- The state `New` builds over a stream of at least two tokens. -/
theorem New_cons_cons (a b : Token) (l : List Token) : New (a :: b :: l) = ⟨l, [], a, b⟩ := rfl

/-- The stream `a o1 b o2 c` with `rank o1 < rank o2`, for any atoms: the inner
operator takes `b`, and every atom's production records its own diagnostics. -/
theorem parse_atom_op_atom_op_atom_right (a b c o1 o2 : Token) (ha : isAtom a) (hb : isAtom b)
    (hc : isAtom c) (ho1 : isBinaryOperator o1.Typ = true)
    (ho2 : isBinaryOperator o2.Typ = true) (hr : rank o1.Typ < rank o2.Typ) (fuel : Nat) :
    Parser.parseExpression (fuel + 8) LOWEST (New [a, o1, b, o2, c]) =
      some (Infix o1 (atomNode a) (Infix o2 (atomNode b) (atomNode c)),
        ⟨[], atomErrors a ++ atomErrors b ++ atomErrors c, c, eofToken⟩) := by
  obtain ⟨-, -, hl1, -⟩ := isBinaryOperator_facts ho1
  rw [New_cons_cons, parseExpression_atom (fuel + 7) _ _ _ _ _ ha,
    parseExpressionLoop_binary (fuel + 5) _ _ _ ho1 hl1]
  simp only [Parser.nextToken, Lexer.NextToken]
  rw [parseExpression_atom (fuel + 4) _ _ _ _ _ hb,
    parseExpressionLoop_binary (fuel + 2) _ _ _ ho2 hr]
  simp only [Parser.nextToken, Lexer.NextToken]
  rw [parseExpression_atom (fuel + 1) _ _ _ _ _ hc,
    parseExpressionLoop_stop fuel _ _ _ (Or.inr (rank_eofToken_le _))]
  simp only
  rw [parseExpressionLoop_stop (fuel + 2) _ _ _ (Or.inr (rank_eofToken_le _))]
  simp only
  rw [parseExpressionLoop_stop (fuel + 5) _ _ _ (Or.inr (le_refl LOWEST))]
  simp [List.append_assoc]

/-- On `!` or `-` in prefix position, `parseExpression` consumes the operator,
parses the operand with `PREFIX` as bound and enters the loop with the
`PrefixExpression` node. -/
theorem parseExpression_prefixOperator (fuel precedence : Nat) (p : Parser)
    (hu : isPrefixOperator p.currToken.Typ = true) :
    Parser.parseExpression (fuel + 2) precedence p =
      match Parser.parseExpression fuel PREFIX p.nextToken with
      | none => none
      | some (right, q) =>
        Parser.parseExpressionLoop (fuel + 1) precedence (Prefix p.currToken right) q := by
  have h1 : prefixParseFns p.currToken.Typ = some .parsePrefixExpressions := by
    revert hu
    cases p.currToken.Typ <;> simp [isPrefixOperator, prefixParseFns]
  rw [Parser.parseExpression]
  simp only [h1]
  rw [Parser.parsePrefixExpressions]
  simp only [Prefix]
  cases Parser.parseExpression fuel PREFIX p.nextToken <;> rfl

/-- The node of an atom is never an `InfixExpression`. -/
theorem atomNode_ne_Infix (t o : Token) (left right : Option Expression) :
    atomNode t ≠ Infix o left right := by
  unfold atomNode Infix Parser.parseIntegerLiteral Parser.parseIdentifier
  split
  · cases ParseInt t.Literal <;> simp
  · simp

/-- The stream `a o1 b o2 c` with `rank o2 ≤ rank o1`, for any atoms: the first
operator takes `b`, and the second folds the node so far as its left operand. -/
theorem parse_atom_op_atom_op_atom_left (a b c o1 o2 : Token) (ha : isAtom a) (hb : isAtom b)
    (hc : isAtom c) (ho1 : isBinaryOperator o1.Typ = true)
    (ho2 : isBinaryOperator o2.Typ = true) (hr : rank o2.Typ ≤ rank o1.Typ) (fuel : Nat) :
    Parser.parseExpression (fuel + 6) LOWEST (New [a, o1, b, o2, c]) =
      some (Infix o2 (Infix o1 (atomNode a) (atomNode b)) (atomNode c),
        ⟨[], atomErrors a ++ atomErrors b ++ atomErrors c, c, eofToken⟩) := by
  obtain ⟨-, -, hl1, -⟩ := isBinaryOperator_facts ho1
  obtain ⟨-, -, hl2, -⟩ := isBinaryOperator_facts ho2
  rw [New_cons_cons, parseExpression_atom (fuel + 5) _ _ _ _ _ ha,
    parseExpressionLoop_binary (fuel + 3) _ _ _ ho1 hl1]
  simp only [Parser.nextToken, Lexer.NextToken]
  rw [parseExpression_atom (fuel + 2) _ _ _ _ _ hb,
    parseExpressionLoop_stop (fuel + 1) _ _ _ (Or.inr hr)]
  simp only
  rw [parseExpressionLoop_binary (fuel + 2) _ _ _ ho2 hl2]
  simp only [Parser.nextToken, Lexer.NextToken]
  rw [parseExpression_atom (fuel + 1) _ _ _ _ _ hc,
    parseExpressionLoop_stop fuel _ _ _ (Or.inr (rank_eofToken_le _))]
  simp only
  rw [parseExpressionLoop_stop (fuel + 2) _ _ _ (Or.inr (le_refl LOWEST))]
  simp [List.append_assoc]

/-- The stream `u a o b`, for any atoms: the prefix operator takes `a` alone,
and the binary operator folds the `PrefixExpression` as its left operand. -/
theorem parse_prefix_atom_op_atom (u a o b : Token) (hu : isPrefixOperator u.Typ = true)
    (ha : isAtom a) (hb : isAtom b) (ho : isBinaryOperator o.Typ = true) (fuel : Nat) :
    Parser.parseExpression (fuel + 5) LOWEST (New [u, a, o, b]) =
      some (Infix o (Prefix u (atomNode a)) (atomNode b),
        ⟨[], atomErrors a ++ atomErrors b, b, eofToken⟩) := by
  obtain ⟨-, -, hl, hp⟩ := isBinaryOperator_facts ho
  rw [New_cons_cons, parseExpression_prefixOperator (fuel + 3) _ _ hu]
  simp only [Parser.nextToken, Lexer.NextToken]
  rw [parseExpression_atom (fuel + 2) _ _ _ _ _ ha,
    parseExpressionLoop_stop (fuel + 1) _ _ _ (Or.inr (le_of_lt hp))]
  simp only
  rw [parseExpressionLoop_binary (fuel + 2) _ _ _ ho hl]
  simp only [Parser.nextToken, Lexer.NextToken]
  rw [parseExpression_atom (fuel + 1) _ _ _ _ _ hb,
    parseExpressionLoop_stop fuel _ _ _ (Or.inr (rank_eofToken_le _))]
  simp only
  rw [parseExpressionLoop_stop (fuel + 2) _ _ _ (Or.inr (le_refl LOWEST))]
  simp

/-- Without a registered prefix production for the current token,
`parseExpression` records the diagnostic and returns an absent expression. -/
theorem parseExpression_noPrefix (fuel precedence : Nat) (p : Parser)
    (h : prefixParseFns p.currToken.Typ = none) :
    Parser.parseExpression (fuel + 1) precedence p =
      some (none, p.noPrefixParseFnError p.currToken.Typ) := by
  rw [Parser.parseExpression]
  simp only [h]

/-- Once the stream is used up and the current token is not `;`, the scan for
`;` in `parseReturnStatement` runs out of any fuel. -/
theorem parseReturnStatementLoop_exhausted (fuel : Nat) (cur : Token) (errs : List String)
    (h : cur.Typ ≠ .SEMICOLON) :
    Parser.parseReturnStatementLoop fuel ⟨[], errs, cur, eofToken⟩ = none := by
  induction fuel generalizing cur with
  | zero => rfl
  | succ n ih =>
    rw [Parser.parseReturnStatementLoop]
    have hc : ¬ (Parser.currTokenIs ⟨[], errs, cur, eofToken⟩ .SEMICOLON = true) := by
      simpa [Parser.currTokenIs] using h
    rw [if_pos hc]
    exact ih eofToken (by decide)

/-- The stream `return a o ;`, for any atom: the statement production stops on
the `;`, the right operand of `o` is absent, and the diagnostics are those of the
atom followed by the missing-prefix-production diagnostic for `;`. -/
theorem parseStatement_return_atom_op_semicolon (a o : Token) (ha : isAtom a)
    (ho : isBinaryOperator o.Typ = true) (fuel : Nat) :
    Parser.parseStatement (fuel + 6)
        (New [⟨.RETURN, "return"⟩, a, o, ⟨.SEMICOLON, ";"⟩]) =
      some (some (.ReturnStatement ⟨.RETURN, "return"⟩ (Infix o (atomNode a) none)),
        ⟨[], atomErrors a ++ ["no prefix function for ; found."], ⟨.SEMICOLON, ";"⟩,
          eofToken⟩) := by
  obtain ⟨-, -, hl, -⟩ := isBinaryOperator_facts ho
  rw [New_cons_cons, Parser.parseStatement]
  simp only
  rw [Parser.parseReturnStatement]
  simp only [Parser.nextToken, Lexer.NextToken]
  rw [parseExpression_atom (fuel + 3) _ _ _ _ _ ha,
    parseExpressionLoop_binary (fuel + 1) _ _ _ ho hl]
  simp only [Parser.nextToken, Lexer.NextToken]
  rw [parseExpression_noPrefix fuel _ ⟨[], _, ⟨.SEMICOLON, ";"⟩, eofToken⟩ rfl]
  simp only [Parser.noPrefixParseFnError]
  rw [parseExpressionLoop_stop (fuel + 1) _ _ _ (Or.inr (le_refl LOWEST))]
  simp only
  rw [Parser.parseReturnStatementLoop]
  simp [Parser.currTokenIs, TokenType.toString]

/-- The stream `return a o ;`, for any atom, through `ParseProgram`. -/
theorem ParseProgram_return_atom_op_semicolon (a o : Token) (ha : isAtom a)
    (ho : isBinaryOperator o.Typ = true) (fuel : Nat) :
    Parser.ParseProgram (fuel + 7)
        (New [⟨.RETURN, "return"⟩, a, o, ⟨.SEMICOLON, ";"⟩]) =
      some (⟨[.ReturnStatement ⟨.RETURN, "return"⟩ (Infix o (atomNode a) none)]⟩,
        ⟨[], atomErrors a ++ ["no prefix function for ; found."], eofToken, eofToken⟩) := by
  rw [Parser.ParseProgram, Parser.ParseProgramLoop]
  have h0 : (New [⟨.RETURN, "return"⟩, a, o, ⟨.SEMICOLON, ";"⟩]).currToken.Typ ≠ .EOF := by
    simp [New_cons_cons]
  rw [if_pos h0, parseStatement_return_atom_op_semicolon a o ha ho fuel]
  simp only [Parser.nextToken, Lexer.NextToken, List.nil_append]
  rw [Parser.ParseProgramLoop]
  simp [eofToken]

/-- On a token other than `let` and `return`, `parseStatement` runs
`parseExpressionStatement`. -/
theorem parseStatement_expression (fuel : Nat) (p : Parser) (h1 : p.currToken.Typ ≠ .LET)
    (h2 : p.currToken.Typ ≠ .RETURN) :
    Parser.parseStatement (fuel + 1) p =
      match Parser.parseExpressionStatement fuel p with
      | none => none
      | some (stmt, q) => some (some stmt, q) := by
  rw [Parser.parseStatement]
  split
  · rename_i h; exact absurd h h1
  · rename_i h; exact absurd h h2
  · rfl

/-- The stream `let x a ;` (no `=`), for any atom: the let production stops on
the identifier with one diagnostic and a nil `*ast.LetStatement`. -/
theorem parseStatement_let_missing_assign (x a : Token) (hx : x.Typ = .IDENT)
    (ha : isAtom a) (fuel : Nat) :
    Parser.parseStatement (fuel + 2) (New [⟨.LET, "let"⟩, x, a, ⟨.SEMICOLON, ";"⟩]) =
      some (some .nilLetStatement,
        ⟨[⟨.SEMICOLON, ";"⟩], ["expected next token to be =, got " ++ a.Typ.toString], x, a⟩) := by
  have hne : a.Typ ≠ .ASSIGN := by
    rcases ha with h | h <;> simp [h]
  rw [New_cons_cons, Parser.parseStatement]
  simp only
  rw [Parser.parseLetStatement]
  simp [Parser.expectPeek, Parser.peekTokenIs, hx, hne, Parser.nextToken, Lexer.NextToken,
    Parser.peekError, TokenType.toString]

/-- The stream `let x a ;` (no `=`), for any atom, through `ParseProgram`: the
tokens `a ;` are parsed as an expression statement. -/
theorem ParseProgram_let_missing_assign (x a : Token) (hx : x.Typ = .IDENT)
    (ha : isAtom a) (fuel : Nat) :
    Parser.ParseProgram (fuel + 6) (New [⟨.LET, "let"⟩, x, a, ⟨.SEMICOLON, ";"⟩]) =
      some (⟨[.nilLetStatement, .ExpressionStatement a (atomNode a)]⟩,
        ⟨[], ["expected next token to be =, got " ++ a.Typ.toString] ++ atomErrors a,
          eofToken, eofToken⟩) := by
  have hne : a.Typ ≠ .EOF := by
    rcases ha with h | h <;> simp [h]
  have hnl : a.Typ ≠ .LET := by
    rcases ha with h | h <;> simp [h]
  have hnr : a.Typ ≠ .RETURN := by
    rcases ha with h | h <;> simp [h]
  rw [Parser.ParseProgram, Parser.ParseProgramLoop]
  have h0 : (New [⟨.LET, "let"⟩, x, a, ⟨.SEMICOLON, ";"⟩]).currToken.Typ ≠ .EOF := by
    simp [New_cons_cons]
  rw [if_pos h0, parseStatement_let_missing_assign x a hx ha (fuel + 3)]
  simp only [Parser.nextToken, Lexer.NextToken, List.nil_append]
  rw [Parser.ParseProgramLoop, if_pos (by simpa using hne)]
  have hstmt : Parser.parseStatement (fuel + 4)
      ⟨[], ["expected next token to be =, got " ++ a.Typ.toString], a, ⟨.SEMICOLON, ";"⟩⟩ =
      some (some (.ExpressionStatement a (atomNode a)),
        ⟨[], ["expected next token to be =, got " ++ a.Typ.toString] ++ atomErrors a,
          ⟨.SEMICOLON, ";"⟩, eofToken⟩) := by
    rw [parseStatement_expression _ _ hnl hnr, Parser.parseExpressionStatement,
      parseExpression_atom (fuel + 1) _ _ _ _ _ ha,
      parseExpressionLoop_stop fuel _ _ _ (Or.inl rfl)]
    simp [Parser.peekTokenIs, Parser.nextToken, Lexer.NextToken]
  rw [hstmt]
  simp only [Parser.nextToken, Lexer.NextToken]
  rw [Parser.ParseProgramLoop]
  simp [eofToken]

/-- The rank of an atom is `LOWEST`. -/
theorem rank_atom {t : Token} (h : isAtom t) : rank t.Typ = LOWEST := by
  rcases h with h | h <;> simp [h, rank, precedences]

/-- The loop of `parseHashLiteral` over `k : v , ... \x7d`, for any atoms: one
assignment to the map per pair, in source order. -/
theorem parseHashLiteralLoop_pairs (rest : List (Token × Token)) :
    ∀ (k v cur : Token) (acc : List (Option Expression × Option Expression))
      (errs : List String) (after : List Token) (fuel : Nat),
      isAtom k → isAtom v → (∀ kv ∈ rest, isAtom kv.1 ∧ isAtom kv.2) →
      Parser.parseHashLiteralLoop (fuel + rest.length + 3) acc
          ⟨colon :: v :: (hashTail rest ++ after), errs, cur, k⟩ =
        some (some (hashEntries acc ((k, v) :: rest)),
          ⟨after, errs ++ pairErrors ((k, v) :: rest), lastValue v rest, rbrace⟩) := by
  induction rest with
  | nil =>
    intro k v cur acc errs after fuel hk hv _
    have hkr : k.Typ ≠ .RBRACE := by rcases hk with h | h <;> simp [h]
    rw [List.length_nil, Nat.add_zero, Parser.parseHashLiteralLoop]
    rw [if_pos (by simpa [Parser.peekTokenIs] using hkr)]
    simp only [Parser.nextToken, Lexer.NextToken]
    rw [parseExpression_atom (fuel + 1) _ _ _ _ _ hk,
      parseExpressionLoop_stop fuel _ _ _ (Or.inr (le_refl LOWEST))]
    simp only [Parser.expectPeek, Parser.peekTokenIs, colon, decide_True, if_true,
      Parser.nextToken, Lexer.NextToken, hashTail, List.cons_append, List.nil_append]
    rw [parseExpression_atom (fuel + 1) _ _ _ _ _ hv,
      parseExpressionLoop_stop fuel _ _ _ (Or.inr (le_refl LOWEST))]
    simp only [rbrace, decide_True, not_true_eq_false, if_false]
    rw [Parser.parseHashLiteralLoop]
    simp [Parser.peekTokenIs, hashEntries, pairErrors, lastValue, rbrace]
  | cons kv rest ih =>
    intro k v cur acc errs after fuel hk hv hrest
    have hkr : k.Typ ≠ .RBRACE := by rcases hk with h | h <;> simp [h]
    obtain ⟨hk2, hv2⟩ := hrest kv (List.mem_cons_self _ _)
    have hrest2 : ∀ x ∈ rest, isAtom x.1 ∧ isAtom x.2 :=
      fun x hx => hrest x (List.mem_cons_of_mem _ hx)
    have hih := ih kv.1 kv.2 comma (hashPairsSet acc (atomNode k) (atomNode v))
      (errs ++ atomErrors k ++ atomErrors v) after fuel hk2 hv2 hrest2
    have e : fuel + (kv :: rest).length + 3 = (fuel + rest.length + 3) + 1 := by
      rw [List.length_cons]; omega
    rw [e, Parser.parseHashLiteralLoop]
    rw [if_pos (by simpa [Parser.peekTokenIs] using hkr)]
    simp only [Parser.nextToken, Lexer.NextToken]
    rw [parseExpression_atom (fuel + rest.length + 2) _ _ _ _ _ hk,
      parseExpressionLoop_stop (fuel + rest.length + 1) _ _ _ (Or.inr (le_refl LOWEST))]
    simp only [Parser.expectPeek, Parser.peekTokenIs, colon, decide_True, if_true,
      Parser.nextToken, Lexer.NextToken, hashTail, List.cons_append, List.nil_append]
    rw [parseExpression_atom (fuel + rest.length + 2) _ _ _ _ _ hv,
      parseExpressionLoop_stop (fuel + rest.length + 1) _ _ _ (Or.inr (le_refl LOWEST))]
    simp only [comma, decide_False, decide_True, not_false_eq_true, if_true]
    simp only [colon, comma] at hih
    rw [hih]
    simp [hashEntries, pairErrors, lastValue, List.append_assoc]

/-- The hash literal `\x7b k1 : v1 , ... , kn : vn \x7d`, for any atoms. -/
theorem parse_hashLiteral (kvs : List (Token × Token))
    (hatoms : ∀ kv ∈ kvs, isAtom kv.1 ∧ isAtom kv.2) (fuel : Nat) :
    Parser.parseExpression (fuel + kvs.length + 4) LOWEST (New (hashTokens kvs)) =
      some (some (.HashLiteral lbrace (hashEntries [] kvs)),
        ⟨[], pairErrors kvs, rbrace, eofToken⟩) := by
  cases kvs with
  | nil =>
    rw [List.length_nil, Nat.add_zero, hashTokens, New_cons_cons, Parser.parseExpression]
    simp only [lbrace, prefixParseFns]
    rw [Parser.parseHashLiteral, Parser.parseHashLiteralLoop]
    simp only [Parser.peekTokenIs, rbrace, decide_True, not_true_eq_false, if_false,
      Parser.expectPeek, if_true, Parser.nextToken, Lexer.NextToken]
    rw [parseExpressionLoop_stop (fuel + 2) _ _ _ (Or.inr (le_refl LOWEST))]
    simp [hashEntries, pairErrors]
  | cons kv rest =>
    obtain ⟨hk, hv⟩ := hatoms kv (List.mem_cons_self _ _)
    have hrest : ∀ x ∈ rest, isAtom x.1 ∧ isAtom x.2 :=
      fun x hx => hatoms x (List.mem_cons_of_mem _ hx)
    have e : fuel + (kv :: rest).length + 4 = (fuel + rest.length + 4) + 1 := by
      rw [List.length_cons]; omega
    have hloop := parseHashLiteralLoop_pairs rest kv.1 kv.2 lbrace [] [] [] fuel hk hv hrest
    rw [List.append_nil, List.nil_append] at hloop
    rw [e, hashTokens, New_cons_cons, Parser.parseExpression]
    simp only [lbrace, prefixParseFns]
    rw [Parser.parseHashLiteral]
    simp only [lbrace, colon] at hloop
    simp only [colon]
    rw [hloop]
    simp only [Parser.peekTokenIs, rbrace, decide_True, Parser.expectPeek, if_true,
      Parser.nextToken, Lexer.NextToken]
    rw [parseExpressionLoop_stop (fuel + rest.length + 3) _ _ _ (Or.inr (le_refl LOWEST))]

/-- With key atoms that have a node, every assignment adds an entry. -/
theorem hashEntries_append (kvs : List (Token × Token)) :
    ∀ acc, (∀ kv ∈ kvs, (atomNode kv.1).isSome = true) →
      hashEntries acc kvs = acc ++ kvs.map (fun kv => (atomNode kv.1, atomNode kv.2)) := by
  induction kvs with
  | nil => intro acc _; simp [hashEntries]
  | cons kv rest ih =>
    intro acc h
    obtain ⟨K, hK⟩ := Option.isSome_iff_exists.mp (h kv (List.mem_cons_self _ _))
    rw [hashEntries, ih _ (fun x hx => h x (List.mem_cons_of_mem _ hx))]
    simp [hashPairsSet, hK]

/-- A single atom followed by `;` or by a token whose rank does not exceed the
bound. -/
theorem parse_atom (fuel precedence : Nat) (l : Lexer) (errs : List String) (a t : Token)
    (ha : isAtom a) (ht : t.Typ = .SEMICOLON ∨ rank t.Typ ≤ precedence) :
    Parser.parseExpression (fuel + 2) precedence ⟨l, errs, a, t⟩ =
      some (atomNode a, ⟨l, errs ++ atomErrors a, a, t⟩) := by
  rw [parseExpression_atom (fuel + 1) _ _ _ _ _ ha, parseExpressionLoop_stop fuel _ _ _ ht]

/-- The tokens `a o b` followed by a token of rank `LOWEST`, for any atoms and
any bound from `LOWEST` on below the rank of `o`. -/
theorem parse_atom_op_atom (fuel precedence : Nat) (l : Lexer) (errs : List String)
    (a o b t : Token) (ha : isAtom a) (hb : isAtom b) (ho : isBinaryOperator o.Typ = true)
    (hl : LOWEST ≤ precedence) (hp : precedence < rank o.Typ) (ht : rank t.Typ = LOWEST) :
    Parser.parseExpression (fuel + 5) precedence ⟨b :: t :: l, errs, a, o⟩ =
      some (Infix o (atomNode a) (atomNode b),
        ⟨l, errs ++ atomErrors a ++ atomErrors b, b, t⟩) := by
  have h1 : rank t.Typ ≤ rank o.Typ := ht ▸ LOWEST_le_rank _
  have h2 : rank t.Typ ≤ precedence := ht ▸ hl
  rw [parseExpression_atom (fuel + 4) _ _ _ _ _ ha,
    parseExpressionLoop_binary (fuel + 2) _ _ _ ho hp]
  simp only [Parser.nextToken, Lexer.NextToken]
  rw [parse_atom fuel _ _ _ _ _ hb (Or.inr h1)]
  simp only
  rw [parseExpressionLoop_stop (fuel + 2) _ _ _ (Or.inr h2)]

/-- The loop of `parseExpression` on `(` in infix position: a call, whose
arguments `parseExpressionList` reads up to `)`. -/
theorem parseExpressionLoop_call (fuel precedence : Nat) (left : Option Expression)
    (p : Parser) (hpk : p.peekToken.Typ = .LPAREN) (h : precedence < CALL) :
    Parser.parseExpressionLoop (fuel + 2) precedence left p =
      match Parser.parseExpressionList fuel .RPAREN p.nextToken with
      | none => none
      | some (arguments, q) =>
        Parser.parseExpressionLoop (fuel + 1) precedence
          (some (.CallExpression p.peekToken left arguments)) q := by
  rw [Parser.parseExpressionLoop]
  have hc : (¬ p.peekTokenIs .SEMICOLON = true ∧ precedence < p.peekPrecedence) := by
    refine ⟨by simp [Parser.peekTokenIs, hpk], by simpa [Parser.peekPrecedence, hpk, precedences] using h⟩
  rw [if_pos hc]
  simp only [hpk, infixParseFns]
  rw [Parser.parseCallExpression]
  have : p.nextToken.currToken = p.peekToken := rfl
  simp only [this]
  cases Parser.parseExpressionList fuel .RPAREN p.nextToken <;> rfl

/-- The loop of `parseExpression` on `[` in infix position: an index, parsed
from `LOWEST`, then the closing `]` is required. -/
theorem parseExpressionLoop_index (fuel precedence : Nat) (left : Option Expression)
    (p : Parser) (hpk : p.peekToken.Typ = .LBRACKET) (h : precedence < INDEX) :
    Parser.parseExpressionLoop (fuel + 2) precedence left p =
      match Parser.parseExpression fuel LOWEST p.nextToken.nextToken with
      | none => none
      | some (index, q) =>
        match q.expectPeek .RBRACKET with
        | (false, q) => Parser.parseExpressionLoop (fuel + 1) precedence none q
        | (true, q) =>
          Parser.parseExpressionLoop (fuel + 1) precedence
            (some (.IndexExpression p.peekToken left index)) q := by
  rw [Parser.parseExpressionLoop]
  have hc : (¬ p.peekTokenIs .SEMICOLON = true ∧ precedence < p.peekPrecedence) := by
    refine ⟨by simp [Parser.peekTokenIs, hpk], by simpa [Parser.peekPrecedence, hpk, precedences] using h⟩
  rw [if_pos hc]
  simp only [hpk, infixParseFns]
  rw [Parser.parseIndexExpression]
  have : p.nextToken.currToken = p.peekToken := rfl
  simp only [this]
  cases Parser.parseExpression fuel LOWEST p.nextToken.nextToken with
  | none => rfl
  | some r =>
    obtain ⟨index, q⟩ := r
    simp only
    cases hq : q.expectPeek .RBRACKET with
    | mk ok q2 => cases ok <;> rfl

/-- On `(` in prefix position, `parseExpression` parses the inner expression
from `LOWEST`, requires `)`, and enters the loop with the inner expression
itself. -/
theorem parseExpression_grouped (fuel precedence : Nat) (p : Parser)
    (hc : p.currToken.Typ = .LPAREN) :
    Parser.parseExpression (fuel + 2) precedence p =
      match Parser.parseExpression fuel LOWEST p.nextToken with
      | none => none
      | some (exp, q) =>
        match q.expectPeek .RPAREN with
        | (false, q) => Parser.parseExpressionLoop (fuel + 1) precedence none q
        | (true, q) => Parser.parseExpressionLoop (fuel + 1) precedence exp q := by
  rw [Parser.parseExpression]
  simp only [hc, prefixParseFns]
  rw [Parser.parseGroupedExpression]
  cases Parser.parseExpression fuel LOWEST p.nextToken with
  | none => rfl
  | some r =>
    obtain ⟨exp, q⟩ := r
    simp only
    cases hq : q.expectPeek .RPAREN with
    | mk ok q2 => cases ok <;> rfl

/-- The node of an identifier token. -/
theorem atomNode_ident {t : Token} (h : t.Typ = .IDENT) :
    atomNode t = some (.Identifier t t.Literal) := by
  simp [atomNode, h, Parser.parseIdentifier]

/-- An identifier token records no diagnostic. -/
theorem atomErrors_ident {t : Token} (h : t.Typ = .IDENT) : atomErrors t = [] := by
  simp [atomErrors, h]

/-- An atom is not a closing parenthesis. -/
theorem isAtom_ne_RPAREN {t : Token} (h : isAtom t) : t.Typ ≠ .RPAREN := by
  rcases h with h | h <;> simp [h]

/-- The stream `f ( a , b o c )`, for any atoms: a call with the two arguments
in source order, each parsed from `LOWEST`. -/
theorem parse_call_two_arguments (f a b o c : Token) (hf : f.Typ = .IDENT) (ha : isAtom a)
    (hb : isAtom b) (hc : isAtom c) (ho : isBinaryOperator o.Typ = true) (fuel : Nat) :
    Parser.parseExpression (fuel + 10) LOWEST (New [f, lparen, a, comma, b, o, c, rparen]) =
      some (some (.CallExpression lparen (some (.Identifier f f.Literal))
          (some [atomNode a, Infix o (atomNode b) (atomNode c)])),
        ⟨[], atomErrors a ++ atomErrors b ++ atomErrors c, rparen, eofToken⟩) := by
  obtain ⟨-, -, hl, -⟩ := isBinaryOperator_facts ho
  rw [New_cons_cons, parseExpression_atom (fuel + 9) _ _ _ _ _ (Or.inl hf),
    parseExpressionLoop_call (fuel + 7) _ _ _ rfl (by decide)]
  simp only [Parser.nextToken, Lexer.NextToken, atomNode_ident hf, atomErrors_ident hf,
    List.append_nil]
  rw [Parser.parseExpressionList]
  rw [if_neg (by simpa [Parser.peekTokenIs] using isAtom_ne_RPAREN ha)]
  simp only [Parser.nextToken, Lexer.NextToken]
  rw [parse_atom (fuel + 4) _ _ _ _ _ ha (Or.inr (le_refl LOWEST))]
  simp only
  rw [Parser.parseExpressionListLoop]
  simp only [Parser.peekTokenIs, comma, decide_True, if_true, Parser.nextToken,
    Lexer.NextToken]
  rw [parse_atom_op_atom fuel _ _ _ _ _ _ rparen hb hc ho (le_refl LOWEST) hl rfl]
  simp only
  rw [Parser.parseExpressionListLoop]
  simp only [Parser.peekTokenIs, rparen, reduceCtorEq, decide_False, Bool.false_eq_true,
    if_false, Parser.expectPeek, decide_True, if_true, Parser.nextToken, Lexer.NextToken]
  rw [parseExpressionLoop_stop (fuel + 7) _ _ _ (Or.inr (le_refl LOWEST))]
  simp [lparen, List.append_assoc]

/-- The stream `c [ a o b ]`, for any atoms: an index expression whose index is
parsed from `LOWEST`; the current token ends on `]`. -/
theorem parse_index_atom_op_atom (c a o b : Token) (hc : c.Typ = .IDENT) (ha : isAtom a)
    (hb : isAtom b) (ho : isBinaryOperator o.Typ = true) (fuel : Nat) :
    Parser.parseExpression (fuel + 8) LOWEST (New [c, lbracket, a, o, b, rbracket]) =
      some (some (.IndexExpression lbracket (some (.Identifier c c.Literal))
          (Infix o (atomNode a) (atomNode b))),
        ⟨[], atomErrors a ++ atomErrors b, rbracket, eofToken⟩) := by
  obtain ⟨-, -, hl, -⟩ := isBinaryOperator_facts ho
  rw [New_cons_cons, parseExpression_atom (fuel + 7) _ _ _ _ _ (Or.inl hc),
    parseExpressionLoop_index (fuel + 5) _ _ _ rfl (by decide)]
  simp only [Parser.nextToken, Lexer.NextToken, atomNode_ident hc, atomErrors_ident hc,
    List.append_nil]
  rw [parse_atom_op_atom fuel _ _ _ _ _ _ rbracket ha hb ho (le_refl LOWEST) hl rfl]
  simp only [Parser.peekTokenIs, rbracket, Parser.expectPeek, decide_True, if_true,
    Parser.nextToken, Lexer.NextToken]
  rw [parseExpressionLoop_stop (fuel + 5) _ _ _ (Or.inr (le_refl LOWEST))]
  simp [lbracket, List.append_assoc]

/-- The stream `( a o1 b ) o2 c`, for any atoms and any two binary operators:
the group is the left operand of `o2`, and no node stands for the parentheses. -/
theorem parse_group_op_atom (a b c o1 o2 : Token) (ha : isAtom a) (hb : isAtom b)
    (hc : isAtom c) (ho1 : isBinaryOperator o1.Typ = true)
    (ho2 : isBinaryOperator o2.Typ = true) (fuel : Nat) :
    Parser.parseExpression (fuel + 7) LOWEST (New [lparen, a, o1, b, rparen, o2, c]) =
      some (Infix o2 (Infix o1 (atomNode a) (atomNode b)) (atomNode c),
        ⟨[], atomErrors a ++ atomErrors b ++ atomErrors c, c, eofToken⟩) := by
  obtain ⟨-, -, hl1, -⟩ := isBinaryOperator_facts ho1
  obtain ⟨-, -, hl2, -⟩ := isBinaryOperator_facts ho2
  rw [New_cons_cons, parseExpression_grouped (fuel + 5) _ _ rfl]
  simp only [Parser.nextToken, Lexer.NextToken]
  rw [parse_atom_op_atom fuel _ _ _ _ _ _ rparen ha hb ho1 (le_refl LOWEST) hl1 rfl]
  simp only [Parser.peekTokenIs, rparen, Parser.expectPeek, decide_True, if_true,
    Parser.nextToken, Lexer.NextToken]
  rw [parseExpressionLoop_binary (fuel + 4) _ _ _ ho2 hl2]
  simp only [Parser.nextToken, Lexer.NextToken]
  rw [parse_atom (fuel + 2) _ _ _ _ _ hc (Or.inr (rank_eofToken_le _))]
  simp only
  rw [parseExpressionLoop_stop (fuel + 4) _ _ _ (Or.inr (le_refl LOWEST))]
  simp [List.append_assoc]

/-! ## Operator precedence (C1) -/

/-- C1, as amended. For atoms `a`, `b`, `c` whose integer texts convert and
binary operators `o1`, `o2` with `rank o1 < rank o2`, parsing the stream
`a o1 b o2 c` at `LOWEST` returns, for every fuel from 8 on,
`Infix(o1, a, Infix(o2, b, c))` over the three atoms' nodes, with an empty
diagnostics list, the current token on `c` and the stream used up. -/
theorem parseExpression_higher_rank_nests_right (a b c o1 o2 : Token)
    (ha : isAtom a) (hb : isAtom b) (hc : isAtom c)
    (hca : converts a) (hcb : converts b) (hcc : converts c)
    (ho1 : isBinaryOperator o1.Typ = true) (ho2 : isBinaryOperator o2.Typ = true)
    (hr : rank o1.Typ < rank o2.Typ) (fuel : Nat) (hf : 8 ≤ fuel) :
    ∃ A B C, atomNode a = some A ∧ atomNode b = some B ∧ atomNode c = some C ∧
      Parser.parseExpression fuel LOWEST (New [a, o1, b, o2, c]) =
        some (Infix o1 (some A) (Infix o2 (some B) (some C)), ⟨[], [], c, eofToken⟩) := by
  obtain ⟨k, rfl⟩ := Nat.exists_eq_add_of_le' hf
  obtain ⟨A, hA⟩ := Option.isSome_iff_exists.mp (atomNode_isSome hca)
  obtain ⟨B, hB⟩ := Option.isSome_iff_exists.mp (atomNode_isSome hcb)
  obtain ⟨C, hC⟩ := Option.isSome_iff_exists.mp (atomNode_isSome hcc)
  refine ⟨A, B, C, hA, hB, hC, ?_⟩
  rw [parse_atom_op_atom_op_atom_right a b c o1 o2 ha hb hc ho1 ho2 hr k,
    atomErrors_eq_nil hca, atomErrors_eq_nil hcb, atomErrors_eq_nil hcc, hA, hB, hC]
  rfl

/-- C1, witness: `1 + 2 * 3` gives `Infix(+, 1, Infix(*, 2, 3))`. -/
theorem parseExpression_higher_rank_nests_right_witness :
    ∃ A B C, atomNode ⟨.INT, "1"⟩ = some A ∧ atomNode ⟨.INT, "2"⟩ = some B ∧
      atomNode ⟨.INT, "3"⟩ = some C ∧
      Parser.parseExpression 8 LOWEST
          (New [⟨.INT, "1"⟩, ⟨.PLUS, "+"⟩, ⟨.INT, "2"⟩, ⟨.ASTERICK, "*"⟩, ⟨.INT, "3"⟩]) =
        some (Infix ⟨.PLUS, "+"⟩ (some A) (Infix ⟨.ASTERICK, "*"⟩ (some B) (some C)),
          ⟨[], [], ⟨.INT, "3"⟩, eofToken⟩) :=
  parseExpression_higher_rank_nests_right ⟨.INT, "1"⟩ ⟨.INT, "2"⟩ ⟨.INT, "3"⟩ ⟨.PLUS, "+"⟩
    ⟨.ASTERICK, "*"⟩ (by decide) (by decide) (by decide) (fun _ => ⟨1, rfl⟩) (fun _ => ⟨2, rfl⟩)
    (fun _ => ⟨3, rfl⟩) (by decide) (by decide) (by decide) 8 (le_refl 8)

/-- C1, counterexample to "with no diagnostics" for every integer-literal atom:
in `9223372036854775808 + 2 * 3` the first atom is an integer-literal token whose
text is out of the `int64` range, `+` ranks below `*`, and the parse records a
conversion diagnostic and leaves the left operand of `+` absent. -/
theorem parseExpression_higher_rank_nests_right_counterexample :
    isAtom ⟨.INT, "9223372036854775808"⟩ ∧ isAtom ⟨.INT, "2"⟩ ∧ isAtom ⟨.INT, "3"⟩ ∧
    isBinaryOperator .PLUS = true ∧ isBinaryOperator .ASTERICK = true ∧
    rank .PLUS < rank .ASTERICK ∧
    ∀ fuel, 8 ≤ fuel →
      Parser.parseExpression fuel LOWEST
          (New [⟨.INT, "9223372036854775808"⟩, ⟨.PLUS, "+"⟩, ⟨.INT, "2"⟩, ⟨.ASTERICK, "*"⟩,
            ⟨.INT, "3"⟩]) =
        some (Infix ⟨.PLUS, "+"⟩ none
            (Infix ⟨.ASTERICK, "*"⟩ (some (.IntegerLiteral ⟨.INT, "2"⟩ 2))
              (some (.IntegerLiteral ⟨.INT, "3"⟩ 3))),
          ⟨[], ["count not parse string to int64, got=9223372036854775808"], ⟨.INT, "3"⟩,
            eofToken⟩) := by
  refine ⟨by decide, by decide, by decide, by decide, by decide, by decide, fun fuel hf => ?_⟩
  obtain ⟨k, rfl⟩ := Nat.exists_eq_add_of_le' hf
  rw [parse_atom_op_atom_op_atom_right _ _ _ _ _ (by decide) (by decide) (by decide)
    (by decide) (by decide) (by decide) k]
  rfl

/-! ## Left associativity (C2) -/

/-- C2. For atoms `a`, `b`, `c` and binary operators `o1`, `o2` of equal table
rank, parsing the stream `a o1 b o2 c` at `LOWEST` returns, for every fuel from 6
on, the left-nested `Infix(o2, Infix(o1, a, b), c)` over the atoms' nodes, which
is not the right-nested `Infix(o1, a, Infix(o2, b, c))`. The node of an atom is
what its production returns: absent, with a diagnostic, for an integer text
that does not convert. -/
theorem parseExpression_equal_rank_nests_left (a b c o1 o2 : Token)
    (ha : isAtom a) (hb : isAtom b) (hc : isAtom c)
    (ho1 : isBinaryOperator o1.Typ = true) (ho2 : isBinaryOperator o2.Typ = true)
    (hr : rank o1.Typ = rank o2.Typ) (fuel : Nat) (hf : 6 ≤ fuel) :
    Parser.parseExpression fuel LOWEST (New [a, o1, b, o2, c]) =
        some (Infix o2 (Infix o1 (atomNode a) (atomNode b)) (atomNode c),
          ⟨[], atomErrors a ++ atomErrors b ++ atomErrors c, c, eofToken⟩) ∧
      Infix o2 (Infix o1 (atomNode a) (atomNode b)) (atomNode c) ≠
        Infix o1 (atomNode a) (Infix o2 (atomNode b) (atomNode c)) := by
  obtain ⟨k, rfl⟩ := Nat.exists_eq_add_of_le' hf
  refine ⟨parse_atom_op_atom_op_atom_left a b c o1 o2 ha hb hc ho1 ho2 (le_of_eq hr.symm) k,
    ?_⟩
  intro h
  have h2 : Infix o1 (atomNode a) (atomNode b) = atomNode a := by
    simp only [Infix, Option.some.injEq, Expression.InfixExpression.injEq] at h
    exact h.2.2.1
  exact atomNode_ne_Infix _ _ _ _ h2.symm

/-- C2, witness: `1 + 2 + 3` gives `Infix(+, Infix(+, 1, 2), 3)`. -/
theorem parseExpression_equal_rank_nests_left_witness :
    Parser.parseExpression 6 LOWEST
          (New [⟨.INT, "1"⟩, ⟨.PLUS, "+"⟩, ⟨.INT, "2"⟩, ⟨.PLUS, "+"⟩, ⟨.INT, "3"⟩]) =
        some (Infix ⟨.PLUS, "+"⟩
            (Infix ⟨.PLUS, "+"⟩ (some (.IntegerLiteral ⟨.INT, "1"⟩ 1))
              (some (.IntegerLiteral ⟨.INT, "2"⟩ 2)))
            (some (.IntegerLiteral ⟨.INT, "3"⟩ 3)),
          ⟨[], [], ⟨.INT, "3"⟩, eofToken⟩) ∧
      Infix ⟨.PLUS, "+"⟩
          (Infix ⟨.PLUS, "+"⟩ (some (.IntegerLiteral ⟨.INT, "1"⟩ 1))
            (some (.IntegerLiteral ⟨.INT, "2"⟩ 2)))
          (some (.IntegerLiteral ⟨.INT, "3"⟩ 3)) ≠
        Infix ⟨.PLUS, "+"⟩ (some (.IntegerLiteral ⟨.INT, "1"⟩ 1))
          (Infix ⟨.PLUS, "+"⟩ (some (.IntegerLiteral ⟨.INT, "2"⟩ 2))
            (some (.IntegerLiteral ⟨.INT, "3"⟩ 3))) :=
  parseExpression_equal_rank_nests_left ⟨.INT, "1"⟩ ⟨.INT, "2"⟩ ⟨.INT, "3"⟩ ⟨.PLUS, "+"⟩
    ⟨.PLUS, "+"⟩ (by decide) (by decide) (by decide) (by decide) (by decide) (by decide) 6
    (le_refl 6)

/-! ## Prefix operators (C3) -/

/-- C3. For a prefix operator `u` (`!` or `-`), a binary operator `o` and atoms
`a`, `b`, parsing the stream `u a o b` at `LOWEST` returns, for every fuel from 5
on, `Infix(o, Prefix(u, a), b)` over the atoms' nodes, which is not
`Prefix(u, Infix(o, a, b))`. The node of an atom is what its production
returns: absent, with a diagnostic, for an integer text that does not convert. -/
theorem parseExpression_prefix_binds_tighter (u a o b : Token)
    (hu : isPrefixOperator u.Typ = true) (ha : isAtom a) (hb : isAtom b)
    (ho : isBinaryOperator o.Typ = true) (fuel : Nat) (hf : 5 ≤ fuel) :
    Parser.parseExpression fuel LOWEST (New [u, a, o, b]) =
        some (Infix o (Prefix u (atomNode a)) (atomNode b),
          ⟨[], atomErrors a ++ atomErrors b, b, eofToken⟩) ∧
      Infix o (Prefix u (atomNode a)) (atomNode b) ≠
        Prefix u (Infix o (atomNode a) (atomNode b)) := by
  obtain ⟨k, rfl⟩ := Nat.exists_eq_add_of_le' hf
  exact ⟨parse_prefix_atom_op_atom u a o b hu ha hb ho k, by simp [Infix, Prefix]⟩

/-- C3, witness: `-1 * 2` gives `Infix(*, Prefix(-, 1), 2)`. -/
theorem parseExpression_prefix_binds_tighter_witness :
    Parser.parseExpression 5 LOWEST
          (New [⟨.MINUS, "-"⟩, ⟨.INT, "1"⟩, ⟨.ASTERICK, "*"⟩, ⟨.INT, "2"⟩]) =
        some (Infix ⟨.ASTERICK, "*"⟩
            (Prefix ⟨.MINUS, "-"⟩ (some (.IntegerLiteral ⟨.INT, "1"⟩ 1)))
            (some (.IntegerLiteral ⟨.INT, "2"⟩ 2)),
          ⟨[], [], ⟨.INT, "2"⟩, eofToken⟩) ∧
      Infix ⟨.ASTERICK, "*"⟩ (Prefix ⟨.MINUS, "-"⟩ (some (.IntegerLiteral ⟨.INT, "1"⟩ 1)))
          (some (.IntegerLiteral ⟨.INT, "2"⟩ 2)) ≠
        Prefix ⟨.MINUS, "-"⟩
          (Infix ⟨.ASTERICK, "*"⟩ (some (.IntegerLiteral ⟨.INT, "1"⟩ 1))
            (some (.IntegerLiteral ⟨.INT, "2"⟩ 2))) :=
  parseExpression_prefix_binds_tighter ⟨.MINUS, "-"⟩ ⟨.INT, "1"⟩ ⟨.ASTERICK, "*"⟩ ⟨.INT, "2"⟩
    (by decide) (by decide) (by decide) (by decide) 5 (le_refl 5)

/-! ## Termination of `ParseProgram` (C4) -/

/-- C4, the failing input. On the stream `return 5` (no `;` before end of file)
`ParseProgram` returns for no amount of fuel: after the return value, the scan
`for !p.currTokenIs(token.SEMICOLON) { p.nextToken() }` pulls end-of-file tokens
forever. -/
theorem ParseProgram_return_without_semicolon_diverges (fuel : Nat) :
    Parser.ParseProgram fuel (New [⟨.RETURN, "return"⟩, ⟨.INT, "5"⟩]) = none := by
  have hret : ∀ n, Parser.parseReturnStatement n
      ⟨[], [], ⟨.RETURN, "return"⟩, ⟨.INT, "5"⟩⟩ = none := by
    intro n
    cases n with
    | zero => rfl
    | succ n =>
      rw [Parser.parseReturnStatement]
      simp only [Parser.nextToken, Lexer.NextToken]
      cases n with
      | zero => rfl
      | succ n =>
        rw [parseExpression_atom n _ _ _ _ _ (Or.inr rfl)]
        cases n with
        | zero => rfl
        | succ n =>
          rw [parseExpressionLoop_stop n _ _ _ (Or.inr (le_refl LOWEST))]
          simp only
          rw [parseReturnStatementLoop_exhausted _ _ _ (by decide)]
  have hstmt : ∀ n, Parser.parseStatement n
      ⟨[], [], ⟨.RETURN, "return"⟩, ⟨.INT, "5"⟩⟩ = none := by
    intro n
    cases n with
    | zero => rfl
    | succ n =>
      rw [Parser.parseStatement]
      simp only [hret]
  cases fuel with
  | zero => rfl
  | succ n =>
    rw [Parser.ParseProgram, New_cons_cons, Parser.ParseProgramLoop]
    simp [hstmt]

/-! ## Return resynchronisation (C5) -/

/-- C5, as amended. For an atom `a` whose integer text converts and a binary
operator `o`, on the stream `return a o ;` the return production stops on the
`;` (first part), and `ParseProgram` returns, for every fuel from 7 on, a Program
of exactly one statement, the `ReturnStatement` with value `Infix(o, a, absent)`,
with exactly one diagnostic, the missing-prefix-production diagnostic for `;`. -/
theorem ParseProgram_return_resynchronises (a o : Token) (ha : isAtom a) (hca : converts a)
    (ho : isBinaryOperator o.Typ = true) (fuel : Nat) (hf : 7 ≤ fuel) :
    ∃ A, atomNode a = some A ∧
      Parser.parseStatement fuel (New [⟨.RETURN, "return"⟩, a, o, ⟨.SEMICOLON, ";"⟩]) =
        some (some (.ReturnStatement ⟨.RETURN, "return"⟩ (Infix o (some A) none)),
          ⟨[], ["no prefix function for ; found."], ⟨.SEMICOLON, ";"⟩, eofToken⟩) ∧
      Parser.ParseProgram fuel (New [⟨.RETURN, "return"⟩, a, o, ⟨.SEMICOLON, ";"⟩]) =
        some (⟨[.ReturnStatement ⟨.RETURN, "return"⟩ (Infix o (some A) none)]⟩,
          ⟨[], ["no prefix function for ; found."], eofToken, eofToken⟩) := by
  obtain ⟨k, rfl⟩ := Nat.exists_eq_add_of_le' hf
  obtain ⟨A, hA⟩ := Option.isSome_iff_exists.mp (atomNode_isSome hca)
  refine ⟨A, hA, ?_, ?_⟩
  · rw [parseStatement_return_atom_op_semicolon a o ha ho (k + 1), atomErrors_eq_nil hca, hA]
    rfl
  · rw [ParseProgram_return_atom_op_semicolon a o ha ho k, atomErrors_eq_nil hca, hA]
    rfl

/-- C5, witness: `return 5 + ;`. -/
theorem ParseProgram_return_resynchronises_witness :
    ∃ A, atomNode ⟨.INT, "5"⟩ = some A ∧
      Parser.parseStatement 7
          (New [⟨.RETURN, "return"⟩, ⟨.INT, "5"⟩, ⟨.PLUS, "+"⟩, ⟨.SEMICOLON, ";"⟩]) =
        some (some (.ReturnStatement ⟨.RETURN, "return"⟩ (Infix ⟨.PLUS, "+"⟩ (some A) none)),
          ⟨[], ["no prefix function for ; found."], ⟨.SEMICOLON, ";"⟩, eofToken⟩) ∧
      Parser.ParseProgram 7
          (New [⟨.RETURN, "return"⟩, ⟨.INT, "5"⟩, ⟨.PLUS, "+"⟩, ⟨.SEMICOLON, ";"⟩]) =
        some (⟨[.ReturnStatement ⟨.RETURN, "return"⟩ (Infix ⟨.PLUS, "+"⟩ (some A) none)]⟩,
          ⟨[], ["no prefix function for ; found."], eofToken, eofToken⟩) :=
  ParseProgram_return_resynchronises ⟨.INT, "5"⟩ ⟨.PLUS, "+"⟩ (by decide) (fun _ => ⟨5, rfl⟩)
    (by decide) 7 (le_refl 7)

/-- C5, counterexample to "exactly one entry" for every integer-literal atom: on
`return 9223372036854775808 + ;` the diagnostics list holds two entries, the
conversion diagnostic of the atom and the missing-prefix-production diagnostic,
and the left operand of `+` is absent. -/
theorem ParseProgram_return_resynchronises_counterexample :
    isAtom ⟨.INT, "9223372036854775808"⟩ ∧ isBinaryOperator .PLUS = true ∧
    ∀ fuel, 7 ≤ fuel →
      Parser.ParseProgram fuel (New [⟨.RETURN, "return"⟩, ⟨.INT, "9223372036854775808"⟩,
          ⟨.PLUS, "+"⟩, ⟨.SEMICOLON, ";"⟩]) =
        some (⟨[.ReturnStatement ⟨.RETURN, "return"⟩ (Infix ⟨.PLUS, "+"⟩ none none)]⟩,
          ⟨[], ["count not parse string to int64, got=9223372036854775808",
            "no prefix function for ; found."], eofToken, eofToken⟩) := by
  refine ⟨by decide, by decide, fun fuel hf => ?_⟩
  obtain ⟨k, rfl⟩ := Nat.exists_eq_add_of_le' hf
  rw [ParseProgram_return_atom_op_semicolon _ _ (by decide) (by decide) k]
  rfl

/-! ## Error accumulation without abort (C6) -/

/-- C6, as amended. For an identifier `x` and an atom `a` whose integer text
converts, on the stream `let x a ;` the let production consumes only the
identifier and returns a nil `*ast.LetStatement` with the one diagnostic (first
part), and `ParseProgram` returns, for every fuel from 6 on, with exactly that
one diagnostic, "expected next token to be =, got <category of a>", and a
Program whose last statement is the expression statement for `a` (its first
statement is the interface value holding the nil let statement). -/
theorem ParseProgram_let_missing_assign_continues (x a : Token) (hx : x.Typ = .IDENT)
    (ha : isAtom a) (hca : converts a) (fuel : Nat) (hf : 6 ≤ fuel) :
    ∃ A, atomNode a = some A ∧
      Parser.parseStatement fuel (New [⟨.LET, "let"⟩, x, a, ⟨.SEMICOLON, ";"⟩]) =
        some (some .nilLetStatement,
          ⟨[⟨.SEMICOLON, ";"⟩], ["expected next token to be =, got " ++ a.Typ.toString],
            x, a⟩) ∧
      Parser.ParseProgram fuel (New [⟨.LET, "let"⟩, x, a, ⟨.SEMICOLON, ";"⟩]) =
        some (⟨[.nilLetStatement, .ExpressionStatement a (some A)]⟩,
          ⟨[], ["expected next token to be =, got " ++ a.Typ.toString], eofToken,
            eofToken⟩) := by
  obtain ⟨k, rfl⟩ := Nat.exists_eq_add_of_le' hf
  obtain ⟨A, hA⟩ := Option.isSome_iff_exists.mp (atomNode_isSome hca)
  refine ⟨A, hA, parseStatement_let_missing_assign x a hx ha (k + 4), ?_⟩
  rw [ParseProgram_let_missing_assign x a hx ha k, atomErrors_eq_nil hca, hA]
  rfl

/-- C6, witness: `let x 5;`. -/
theorem ParseProgram_let_missing_assign_continues_witness :
    ∃ A, atomNode ⟨.INT, "5"⟩ = some A ∧
      Parser.parseStatement 6
          (New [⟨.LET, "let"⟩, ⟨.IDENT, "x"⟩, ⟨.INT, "5"⟩, ⟨.SEMICOLON, ";"⟩]) =
        some (some .nilLetStatement,
          ⟨[⟨.SEMICOLON, ";"⟩], ["expected next token to be =, got INT"],
            ⟨.IDENT, "x"⟩, ⟨.INT, "5"⟩⟩) ∧
      Parser.ParseProgram 6
          (New [⟨.LET, "let"⟩, ⟨.IDENT, "x"⟩, ⟨.INT, "5"⟩, ⟨.SEMICOLON, ";"⟩]) =
        some (⟨[.nilLetStatement, .ExpressionStatement ⟨.INT, "5"⟩ (some A)]⟩,
          ⟨[], ["expected next token to be =, got INT"], eofToken, eofToken⟩) :=
  ParseProgram_let_missing_assign_continues ⟨.IDENT, "x"⟩ ⟨.INT, "5"⟩ rfl (by decide)
    (fun _ => ⟨5, rfl⟩) 6 (le_refl 6)

/-- C6, counterexample to "exactly one entry" for every integer-literal atom: on
`let x 9223372036854775808 ;` the diagnostics list holds two entries, the
expected-token diagnostic and the conversion diagnostic of the atom, and the
expression statement's value is absent. -/
theorem ParseProgram_let_missing_assign_continues_counterexample :
    isAtom ⟨.INT, "9223372036854775808"⟩ ∧
    ∀ fuel, 6 ≤ fuel →
      Parser.ParseProgram fuel (New [⟨.LET, "let"⟩, ⟨.IDENT, "x"⟩,
          ⟨.INT, "9223372036854775808"⟩, ⟨.SEMICOLON, ";"⟩]) =
        some (⟨[.nilLetStatement, .ExpressionStatement ⟨.INT, "9223372036854775808"⟩ none]⟩,
          ⟨[], ["expected next token to be =, got INT",
            "count not parse string to int64, got=9223372036854775808"],
            eofToken, eofToken⟩) := by
  refine ⟨by decide, fun fuel hf => ?_⟩
  obtain ⟨k, rfl⟩ := Nat.exists_eq_add_of_le' hf
  rw [ParseProgram_let_missing_assign _ _ rfl (by decide) k]
  rfl

/-! ## Hash literals (C7) -/

/-- C7, as amended. For every `n` and atoms `k1..kn`, `v1..vn` where the text
of every integer key converts, parsing the hash literal
`\x7b k1 : v1 , ... , kn : vn \x7d` at `LOWEST` returns, for every fuel from
`n + 4` on, a `HashLiteral` whose entries are exactly the `n` pairs `(ki, vi)`
of the atoms' nodes, one per syntactic pair and in source (insertion) order,
also when two keys have the same text; every key is present. -/
theorem parseHashLiteral_keeps_every_pair (kvs : List (Token × Token))
    (hatoms : ∀ kv ∈ kvs, isAtom kv.1 ∧ isAtom kv.2)
    (hkeys : ∀ kv ∈ kvs, converts kv.1) (fuel : Nat) (hf : kvs.length + 4 ≤ fuel) :
    Parser.parseExpression fuel LOWEST (New (hashTokens kvs)) =
        some (some (.HashLiteral lbrace (kvs.map (fun kv => (atomNode kv.1, atomNode kv.2)))),
          ⟨[], pairErrors kvs, rbrace, eofToken⟩) ∧
      (kvs.map (fun kv => (atomNode kv.1, atomNode kv.2))).length = kvs.length ∧
      ∀ kv ∈ kvs, (atomNode kv.1).isSome = true := by
  obtain ⟨k, rfl⟩ := Nat.exists_eq_add_of_le' hf
  have hsome : ∀ kv ∈ kvs, (atomNode kv.1).isSome = true :=
    fun kv hkv => atomNode_isSome (hkeys kv hkv)
  have e : k + (kvs.length + 4) = k + kvs.length + 4 := by omega
  have hparse := parse_hashLiteral kvs hatoms k
  rw [hashEntries_append kvs [] hsome, List.nil_append] at hparse
  refine ⟨?_, List.length_map _ _, hsome⟩
  rw [e]
  exact hparse

/-- C7, witness: `\x7b 1 : 2 , 1 : 3 \x7d` keeps two pairs, `(1, 2)` then `(1, 3)`. -/
theorem parseHashLiteral_keeps_every_pair_witness :
    Parser.parseExpression 6 LOWEST
          (New [lbrace, ⟨.INT, "1"⟩, colon, ⟨.INT, "2"⟩, comma, ⟨.INT, "1"⟩, colon,
            ⟨.INT, "3"⟩, rbrace]) =
        some (some (.HashLiteral lbrace
          [(some (.IntegerLiteral ⟨.INT, "1"⟩ 1), some (.IntegerLiteral ⟨.INT, "2"⟩ 2)),
            (some (.IntegerLiteral ⟨.INT, "1"⟩ 1), some (.IntegerLiteral ⟨.INT, "3"⟩ 3))]),
          ⟨[], [], rbrace, eofToken⟩) ∧
      [(some (Expression.IntegerLiteral ⟨.INT, "1"⟩ 1),
          some (Expression.IntegerLiteral ⟨.INT, "2"⟩ 2)),
        (some (Expression.IntegerLiteral ⟨.INT, "1"⟩ 1),
          some (Expression.IntegerLiteral ⟨.INT, "3"⟩ 3))].length = 2 ∧
      ∀ kv ∈ [((⟨.INT, "1"⟩ : Token), (⟨.INT, "2"⟩ : Token)), (⟨.INT, "1"⟩, ⟨.INT, "3"⟩)],
        (atomNode kv.1).isSome = true :=
  parseHashLiteral_keeps_every_pair [(⟨.INT, "1"⟩, ⟨.INT, "2"⟩), (⟨.INT, "1"⟩, ⟨.INT, "3"⟩)]
    (by decide) (by intro kv hkv; simp at hkv; rcases hkv with rfl | rfl <;> exact fun _ => ⟨1, rfl⟩)
    6 (le_refl 6)

/-- C7, counterexample to "exactly n pairs, no merging" for every
integer-literal key: in `\x7b 9223372036854775808 : 2 , 9223372036854775808 : 3 \x7d`
both keys fail to convert, both are the nil key of the map, and the map ends
with one entry, the second value under the absent key. -/
theorem parseHashLiteral_keeps_every_pair_counterexample :
    isAtom ⟨.INT, "9223372036854775808"⟩ ∧ isAtom ⟨.INT, "2"⟩ ∧ isAtom ⟨.INT, "3"⟩ ∧
    ∀ fuel, 6 ≤ fuel →
      Parser.parseExpression fuel LOWEST
          (New [lbrace, ⟨.INT, "9223372036854775808"⟩, colon, ⟨.INT, "2"⟩, comma,
            ⟨.INT, "9223372036854775808"⟩, colon, ⟨.INT, "3"⟩, rbrace]) =
        some (some (.HashLiteral lbrace [(none, some (.IntegerLiteral ⟨.INT, "3"⟩ 3))]),
          ⟨[], ["count not parse string to int64, got=9223372036854775808",
            "count not parse string to int64, got=9223372036854775808"], rbrace,
            eofToken⟩) := by
  refine ⟨by decide, by decide, by decide, fun fuel hf => ?_⟩
  obtain ⟨k, rfl⟩ := Nat.exists_eq_add_of_le' hf
  exact parse_hashLiteral
    [(⟨.INT, "9223372036854775808"⟩, ⟨.INT, "2"⟩), (⟨.INT, "9223372036854775808"⟩, ⟨.INT, "3"⟩)]
    (by decide) k

/-! ## Calls (C8) -/

/-- C8, as amended. For an identifier `f`, atoms `a`, `b`, `c` whose integer
texts convert and a binary operator `o`, parsing the stream `f ( a , b o c )` at
`LOWEST` returns, for every fuel from 10 on, `Call(f, [a, Infix(o, b, c)])` with
the arguments in source order, an empty diagnostics list and the current token
on `)`. -/
theorem parseExpression_call_arguments (f a b o c : Token) (hf : f.Typ = .IDENT)
    (ha : isAtom a) (hb : isAtom b) (hc : isAtom c)
    (hca : converts a) (hcb : converts b) (hcc : converts c)
    (ho : isBinaryOperator o.Typ = true) (fuel : Nat) (hfuel : 10 ≤ fuel) :
    ∃ A B C, atomNode a = some A ∧ atomNode b = some B ∧ atomNode c = some C ∧
      Parser.parseExpression fuel LOWEST (New [f, lparen, a, comma, b, o, c, rparen]) =
        some (some (.CallExpression lparen (some (.Identifier f f.Literal))
            (some [some A, Infix o (some B) (some C)])),
          ⟨[], [], rparen, eofToken⟩) := by
  obtain ⟨k, rfl⟩ := Nat.exists_eq_add_of_le' hfuel
  obtain ⟨A, hA⟩ := Option.isSome_iff_exists.mp (atomNode_isSome hca)
  obtain ⟨B, hB⟩ := Option.isSome_iff_exists.mp (atomNode_isSome hcb)
  obtain ⟨C, hC⟩ := Option.isSome_iff_exists.mp (atomNode_isSome hcc)
  refine ⟨A, B, C, hA, hB, hC, ?_⟩
  rw [parse_call_two_arguments f a b o c hf ha hb hc ho k,
    atomErrors_eq_nil hca, atomErrors_eq_nil hcb, atomErrors_eq_nil hcc, hA, hB, hC]
  rfl

/-- C8, witness: `add(1, 2 * 3)` gives `Call(add, [1, Infix(*, 2, 3)])`. -/
theorem parseExpression_call_arguments_witness :
    ∃ A B C, atomNode ⟨.INT, "1"⟩ = some A ∧ atomNode ⟨.INT, "2"⟩ = some B ∧
      atomNode ⟨.INT, "3"⟩ = some C ∧
      Parser.parseExpression 10 LOWEST
          (New [⟨.IDENT, "add"⟩, lparen, ⟨.INT, "1"⟩, comma, ⟨.INT, "2"⟩, ⟨.ASTERICK, "*"⟩,
            ⟨.INT, "3"⟩, rparen]) =
        some (some (.CallExpression lparen (some (.Identifier ⟨.IDENT, "add"⟩ "add"))
            (some [some A, Infix ⟨.ASTERICK, "*"⟩ (some B) (some C)])),
          ⟨[], [], rparen, eofToken⟩) :=
  parseExpression_call_arguments ⟨.IDENT, "add"⟩ ⟨.INT, "1"⟩ ⟨.INT, "2"⟩ ⟨.ASTERICK, "*"⟩
    ⟨.INT, "3"⟩ rfl (by decide) (by decide) (by decide) (fun _ => ⟨1, rfl⟩) (fun _ => ⟨2, rfl⟩)
    (fun _ => ⟨3, rfl⟩) (by decide) 10 (le_refl 10)

/-- C8, counterexample to "with no diagnostics" for every integer-literal atom:
in `add(9223372036854775808, 2 * 3)` the first argument is absent and its
conversion diagnostic is recorded. -/
theorem parseExpression_call_arguments_counterexample :
    isAtom ⟨.INT, "9223372036854775808"⟩ ∧ isAtom ⟨.INT, "2"⟩ ∧ isAtom ⟨.INT, "3"⟩ ∧
    isBinaryOperator .ASTERICK = true ∧
    ∀ fuel, 10 ≤ fuel →
      Parser.parseExpression fuel LOWEST
          (New [⟨.IDENT, "add"⟩, lparen, ⟨.INT, "9223372036854775808"⟩, comma, ⟨.INT, "2"⟩,
            ⟨.ASTERICK, "*"⟩, ⟨.INT, "3"⟩, rparen]) =
        some (some (.CallExpression lparen (some (.Identifier ⟨.IDENT, "add"⟩ "add"))
            (some [none, Infix ⟨.ASTERICK, "*"⟩ (some (.IntegerLiteral ⟨.INT, "2"⟩ 2))
              (some (.IntegerLiteral ⟨.INT, "3"⟩ 3))])),
          ⟨[], ["count not parse string to int64, got=9223372036854775808"], rparen,
            eofToken⟩) := by
  refine ⟨by decide, by decide, by decide, by decide, fun fuel hf => ?_⟩
  obtain ⟨k, rfl⟩ := Nat.exists_eq_add_of_le' hf
  rw [parse_call_two_arguments _ _ _ _ _ rfl (by decide) (by decide) (by decide) (by decide) k]
  rfl

/-! ## Index expressions (C9) -/

/-- C9, as amended. For an identifier `c`, atoms `a`, `b` whose integer texts
convert and a binary operator `o` of any rank, parsing the stream `c [ a o b ]`
at `LOWEST` returns, for every fuel from 8 on, `Index(c, Infix(o, a, b))` with an
empty diagnostics list and the current token on the closing `]`. -/
theorem parseExpression_index_from_lowest (c a o b : Token) (hc : c.Typ = .IDENT)
    (ha : isAtom a) (hb : isAtom b) (hca : converts a) (hcb : converts b)
    (ho : isBinaryOperator o.Typ = true) (fuel : Nat) (hfuel : 8 ≤ fuel) :
    ∃ A B, atomNode a = some A ∧ atomNode b = some B ∧
      Parser.parseExpression fuel LOWEST (New [c, lbracket, a, o, b, rbracket]) =
        some (some (.IndexExpression lbracket (some (.Identifier c c.Literal))
            (Infix o (some A) (some B))),
          ⟨[], [], rbracket, eofToken⟩) := by
  obtain ⟨k, rfl⟩ := Nat.exists_eq_add_of_le' hfuel
  obtain ⟨A, hA⟩ := Option.isSome_iff_exists.mp (atomNode_isSome hca)
  obtain ⟨B, hB⟩ := Option.isSome_iff_exists.mp (atomNode_isSome hcb)
  refine ⟨A, B, hA, hB, ?_⟩
  rw [parse_index_atom_op_atom c a o b hc ha hb ho k,
    atomErrors_eq_nil hca, atomErrors_eq_nil hcb, hA, hB]
  rfl

/-- C9, witness: `myArray[1 + 1]` gives `Index(myArray, Infix(+, 1, 1))`. -/
theorem parseExpression_index_from_lowest_witness :
    ∃ A B, atomNode ⟨.INT, "1"⟩ = some A ∧ atomNode ⟨.INT, "1"⟩ = some B ∧
      Parser.parseExpression 8 LOWEST
          (New [⟨.IDENT, "myArray"⟩, lbracket, ⟨.INT, "1"⟩, ⟨.PLUS, "+"⟩, ⟨.INT, "1"⟩,
            rbracket]) =
        some (some (.IndexExpression lbracket (some (.Identifier ⟨.IDENT, "myArray"⟩ "myArray"))
            (Infix ⟨.PLUS, "+"⟩ (some A) (some B))),
          ⟨[], [], rbracket, eofToken⟩) :=
  parseExpression_index_from_lowest ⟨.IDENT, "myArray"⟩ ⟨.INT, "1"⟩ ⟨.PLUS, "+"⟩ ⟨.INT, "1"⟩
    rfl (by decide) (by decide) (fun _ => ⟨1, rfl⟩) (fun _ => ⟨1, rfl⟩) (by decide) 8
    (le_refl 8)

/-- C9, counterexample to "with no diagnostics" for every integer-literal atom:
in `myArray[9223372036854775808 + 1]` the left operand of `+` is absent and its
conversion diagnostic is recorded. -/
theorem parseExpression_index_from_lowest_counterexample :
    isAtom ⟨.INT, "9223372036854775808"⟩ ∧ isAtom ⟨.INT, "1"⟩ ∧
    isBinaryOperator .PLUS = true ∧
    ∀ fuel, 8 ≤ fuel →
      Parser.parseExpression fuel LOWEST
          (New [⟨.IDENT, "myArray"⟩, lbracket, ⟨.INT, "9223372036854775808"⟩, ⟨.PLUS, "+"⟩,
            ⟨.INT, "1"⟩, rbracket]) =
        some (some (.IndexExpression lbracket (some (.Identifier ⟨.IDENT, "myArray"⟩ "myArray"))
            (Infix ⟨.PLUS, "+"⟩ none (some (.IntegerLiteral ⟨.INT, "1"⟩ 1)))),
          ⟨[], ["count not parse string to int64, got=9223372036854775808"], rbracket,
            eofToken⟩) := by
  refine ⟨by decide, by decide, by decide, fun fuel hf => ?_⟩
  obtain ⟨k, rfl⟩ := Nat.exists_eq_add_of_le' hf
  rw [parse_index_atom_op_atom _ _ _ _ rfl (by decide) (by decide) (by decide) k]
  rfl

/-! ## Grouping (C10) -/

/-- C10, as amended. For atoms `a`, `b`, `c` whose integer texts convert and
binary operators `o1`, `o2` of any ranks, parsing the stream `( a o1 b ) o2 c`
at `LOWEST` returns, for every fuel from 7 on, `Infix(o2, Infix(o1, a, b), c)`
with an empty diagnostics list; the tree holds no node for the parentheses. -/
theorem parseExpression_grouping_overrides (a b c o1 o2 : Token)
    (ha : isAtom a) (hb : isAtom b) (hc : isAtom c)
    (hca : converts a) (hcb : converts b) (hcc : converts c)
    (ho1 : isBinaryOperator o1.Typ = true) (ho2 : isBinaryOperator o2.Typ = true)
    (fuel : Nat) (hfuel : 7 ≤ fuel) :
    ∃ A B C, atomNode a = some A ∧ atomNode b = some B ∧ atomNode c = some C ∧
      Parser.parseExpression fuel LOWEST (New [lparen, a, o1, b, rparen, o2, c]) =
        some (Infix o2 (Infix o1 (some A) (some B)) (some C), ⟨[], [], c, eofToken⟩) := by
  obtain ⟨k, rfl⟩ := Nat.exists_eq_add_of_le' hfuel
  obtain ⟨A, hA⟩ := Option.isSome_iff_exists.mp (atomNode_isSome hca)
  obtain ⟨B, hB⟩ := Option.isSome_iff_exists.mp (atomNode_isSome hcb)
  obtain ⟨C, hC⟩ := Option.isSome_iff_exists.mp (atomNode_isSome hcc)
  refine ⟨A, B, C, hA, hB, hC, ?_⟩
  rw [parse_group_op_atom a b c o1 o2 ha hb hc ho1 ho2 k,
    atomErrors_eq_nil hca, atomErrors_eq_nil hcb, atomErrors_eq_nil hcc, hA, hB, hC]
  rfl

/-- C10, witness: `(1 + 2) * 3` gives `Infix(*, Infix(+, 1, 2), 3)`, with
`rank + < rank *`. -/
theorem parseExpression_grouping_overrides_witness :
    ∃ A B C, atomNode ⟨.INT, "1"⟩ = some A ∧ atomNode ⟨.INT, "2"⟩ = some B ∧
      atomNode ⟨.INT, "3"⟩ = some C ∧
      Parser.parseExpression 7 LOWEST
          (New [lparen, ⟨.INT, "1"⟩, ⟨.PLUS, "+"⟩, ⟨.INT, "2"⟩, rparen, ⟨.ASTERICK, "*"⟩,
            ⟨.INT, "3"⟩]) =
        some (Infix ⟨.ASTERICK, "*"⟩ (Infix ⟨.PLUS, "+"⟩ (some A) (some B)) (some C),
          ⟨[], [], ⟨.INT, "3"⟩, eofToken⟩) :=
  parseExpression_grouping_overrides ⟨.INT, "1"⟩ ⟨.INT, "2"⟩ ⟨.INT, "3"⟩ ⟨.PLUS, "+"⟩
    ⟨.ASTERICK, "*"⟩ (by decide) (by decide) (by decide) (fun _ => ⟨1, rfl⟩) (fun _ => ⟨2, rfl⟩)
    (fun _ => ⟨3, rfl⟩) (by decide) (by decide) 7 (le_refl 7)

/-- C10, counterexample to "with no diagnostics" for every integer-literal
atom: in `(9223372036854775808 + 2) * 3` the left operand of `+` is absent and
its conversion diagnostic is recorded. -/
theorem parseExpression_grouping_overrides_counterexample :
    isAtom ⟨.INT, "9223372036854775808"⟩ ∧ isAtom ⟨.INT, "2"⟩ ∧ isAtom ⟨.INT, "3"⟩ ∧
    isBinaryOperator .PLUS = true ∧ isBinaryOperator .ASTERICK = true ∧
    ∀ fuel, 7 ≤ fuel →
      Parser.parseExpression fuel LOWEST
          (New [lparen, ⟨.INT, "9223372036854775808"⟩, ⟨.PLUS, "+"⟩, ⟨.INT, "2"⟩, rparen,
            ⟨.ASTERICK, "*"⟩, ⟨.INT, "3"⟩]) =
        some (Infix ⟨.ASTERICK, "*"⟩
            (Infix ⟨.PLUS, "+"⟩ none (some (.IntegerLiteral ⟨.INT, "2"⟩ 2)))
            (some (.IntegerLiteral ⟨.INT, "3"⟩ 3)),
          ⟨[], ["count not parse string to int64, got=9223372036854775808"], ⟨.INT, "3"⟩,
            eofToken⟩) := by
  refine ⟨by decide, by decide, by decide, by decide, by decide, fun fuel hf => ?_⟩
  obtain ⟨k, rfl⟩ := Nat.exists_eq_add_of_le' hf
  rw [parse_group_op_atom _ _ _ _ _ (by decide) (by decide) (by decide) (by decide)
    (by decide) k]
  rfl

/-! ## Empty boundaries (C11) -/

/-- C11. With no diagnostics, for every fuel from 4 on: `fn ( ) \x7b \x7d` is a
`FunctionLiteral` with the empty parameter sequence and an empty body, `[ ]` an
`ArrayLiteral` with the empty element sequence, and `\x7b \x7d` in expression
position a `HashLiteral` with no pairs. Each sequence is the empty sequence
(`some []`), not the absent result (`none`). -/
theorem parseExpression_empty_boundaries (fuel : Nat) (hf : 4 ≤ fuel) :
    Parser.parseExpression fuel LOWEST
        (New [⟨.FUNCTION, "fn"⟩, lparen, rparen, lbrace, rbrace]) =
      some (some (.FunctionLiteral ⟨.FUNCTION, "fn"⟩ (some []) (.mk lbrace [])),
        ⟨[], [], rbrace, eofToken⟩) ∧
    Parser.parseExpression fuel LOWEST (New [lbracket, rbracket]) =
      some (some (.ArrayLiteral lbracket (some [])), ⟨[], [], rbracket, eofToken⟩) ∧
    Parser.parseExpression fuel LOWEST (New [lbrace, rbrace]) =
      some (some (.HashLiteral lbrace []), ⟨[], [], rbrace, eofToken⟩) := by
  obtain ⟨k, rfl⟩ := Nat.exists_eq_add_of_le' hf
  exact ⟨rfl, rfl, rfl⟩

/-- C11, witness: the three literals at fuel 4. -/
theorem parseExpression_empty_boundaries_witness :
    Parser.parseExpression 4 LOWEST
        (New [⟨.FUNCTION, "fn"⟩, lparen, rparen, lbrace, rbrace]) =
      some (some (.FunctionLiteral ⟨.FUNCTION, "fn"⟩ (some []) (.mk lbrace [])),
        ⟨[], [], rbrace, eofToken⟩) ∧
    Parser.parseExpression 4 LOWEST (New [lbracket, rbracket]) =
      some (some (.ArrayLiteral lbracket (some [])), ⟨[], [], rbracket, eofToken⟩) ∧
    Parser.parseExpression 4 LOWEST (New [lbrace, rbrace]) =
      some (some (.HashLiteral lbrace []), ⟨[], [], rbrace, eofToken⟩) :=
  parseExpression_empty_boundaries 4 (le_refl 4)

/-! ## One list routine (C20) -/

/-- The loops of `parseCallArguments` and `parseExpressionList` are the same
function. -/
theorem parseCallArgumentsLoop_eq (fuel : Nat) :
    ∀ (args : List (Option Expression)) (p : Parser),
      Parser.parseCallArgumentsLoop fuel args p = Parser.parseExpressionListLoop fuel args p := by
  induction fuel with
  | zero => intro args p; rfl
  | succ n ih =>
    intro args p
    rw [Parser.parseCallArgumentsLoop, Parser.parseExpressionListLoop]
    simp only [ih]

/-- C20. `parseCallExpression` and `parseArrayLiteral` take their sequence from
`parseExpressionList` (with `)` and `]`), and on every parser state and for
every fuel `parseCallArguments` returns what `parseExpressionList` returns with
the terminator `)`: the same sequence or the same absent result, and the same
parser state after. -/
theorem parseCallArguments_eq_parseExpressionList (fuel : Nat) (p : Parser) :
    Parser.parseCallArguments fuel p = Parser.parseExpressionList fuel .RPAREN p ∧
    (∀ function, Parser.parseCallExpression (fuel + 1) function p =
      match Parser.parseExpressionList fuel .RPAREN p with
      | none => none
      | some (arguments, q) => some (some (.CallExpression p.currToken function arguments), q)) ∧
    Parser.parseArrayLiteral (fuel + 1) p =
      match Parser.parseExpressionList fuel .RBRACKET p with
      | none => none
      | some (elements, q) => some (some (.ArrayLiteral p.currToken elements), q) := by
  refine ⟨?_, ?_, ?_⟩
  · cases fuel with
    | zero => rfl
    | succ n =>
      rw [Parser.parseCallArguments, Parser.parseExpressionList]
      simp only [parseCallArgumentsLoop_eq]
  · intro function
    rw [Parser.parseCallExpression]
  · rw [Parser.parseArrayLiteral]

/-! ## Function parameters (C19) -/

/-- The stream `fn ( t ) \x7b \x7d` for any token `t` other than `)`:
`parseFunctionParamters` builds an `Identifier` from `t` whatever its category,
and no diagnostic is recorded. -/
theorem parse_fn_any_parameter (t : Token) (ht : t.Typ ≠ .RPAREN) (fuel : Nat) :
    Parser.parseExpression (fuel + 4) LOWEST
        (New [⟨.FUNCTION, "fn"⟩, lparen, t, rparen, lbrace, rbrace]) =
      some (some (.FunctionLiteral ⟨.FUNCTION, "fn"⟩ (some [⟨t, t.Literal⟩]) (.mk lbrace [])),
        ⟨[], [], rbrace, eofToken⟩) := by
  rw [New_cons_cons, Parser.parseExpression]
  simp only [prefixParseFns]
  rw [Parser.parseFunctionLiteral]
  simp only [Parser.expectPeek, Parser.peekTokenIs, lparen, decide_True, if_true,
    Parser.nextToken, Lexer.NextToken]
  rw [Parser.parseFunctionParamters]
  simp only [Parser.peekTokenIs, ht, decide_False, Bool.false_eq_true, if_false,
    Parser.nextToken, Lexer.NextToken]
  rw [Parser.parseFunctionParamtersLoop]
  simp only [Parser.peekTokenIs, rparen, reduceCtorEq, decide_False, Bool.false_eq_true,
    if_false, Parser.expectPeek, decide_True, if_true, Parser.nextToken, Lexer.NextToken,
    lbrace]
  rw [Parser.parseBlockStatement]
  simp only [Parser.nextToken, Lexer.NextToken]
  rw [Parser.parseBlockStatementLoop]
  simp only [Parser.currTokenIs, rbrace, decide_True, not_true_eq_false, false_and, if_false]
  rw [parseExpressionLoop_stop (fuel + 2) _ _ _ (Or.inr (le_refl LOWEST))]

/-- C19, the failing input. In `fn ( 1 ) \x7b \x7d` the token between the
parentheses is an integer literal, neither an identifier nor `)`; for every fuel
from 4 on the parse returns a `FunctionLiteral` whose one parameter is an
`Identifier` built from that token, and the diagnostics list is empty. -/
theorem parseFunctionLiteral_integer_parameter_no_diagnostic :
    (⟨.INT, "1"⟩ : Token).Typ ≠ .IDENT ∧ (⟨.INT, "1"⟩ : Token).Typ ≠ .RPAREN ∧
    ∀ fuel, 4 ≤ fuel →
      Parser.parseExpression fuel LOWEST
          (New [⟨.FUNCTION, "fn"⟩, lparen, ⟨.INT, "1"⟩, rparen, lbrace, rbrace]) =
        some (some (.FunctionLiteral ⟨.FUNCTION, "fn"⟩ (some [⟨⟨.INT, "1"⟩, "1"⟩])
            (.mk lbrace [])),
          ⟨[], [], rbrace, eofToken⟩) := by
  refine ⟨by decide, by decide, fun fuel hf => ?_⟩
  obtain ⟨k, rfl⟩ := Nat.exists_eq_add_of_le' hf
  exact parse_fn_any_parameter ⟨.INT, "1"⟩ (by decide) k

theorem parserAt_cons (errs : List String) (cur t : Token) (ts : List Token) :
    parserAt errs cur (t :: ts) = ⟨ts, errs, cur, t⟩ := rfl

theorem nextToken_parserAt (errs : List String) (cur t : Token) (ts : List Token) :
    (parserAt errs cur (t :: ts)).nextToken = parserAt errs t ts := rfl

theorem rank_of_isListTerminator {t : TokenType} (h : isListTerminator t) : rank t = LOWEST := by
  unfold rank; rw [h.1]

/-- The loop of `parseExpressionList` over `, a , ... e`, for any atoms. -/
theorem parseExpressionListLoop_atoms (e : Token) (he : isListTerminator e.Typ)
    (rest : List Token) :
    ∀ (acc : List (Option Expression)) (errs : List String) (cur : Token)
      (after : List Token) (fuel : Nat), (∀ a ∈ rest, isAtom a) →
      Parser.parseExpressionListLoop (fuel + rest.length + 2) acc
          (parserAt errs cur (listTail e rest ++ after)) =
        some (acc ++ rest.map atomNode,
          ⟨after, errs ++ atomsErrors rest, lastToken cur rest, e⟩) := by
  induction rest with
  | nil =>
    intro acc errs cur after fuel _
    rw [List.length_nil, Nat.add_zero, Parser.parseExpressionListLoop]
    simp [listTail, parserAt, Lexer.NextToken, Parser.peekTokenIs, he.2.1, atomsErrors,
      lastToken]
  | cons a rest ih =>
    intro acc errs cur after fuel hatoms
    have ha := hatoms a (List.mem_cons_self _ _)
    have hrest : ∀ x ∈ rest, isAtom x := fun x hx => hatoms x (List.mem_cons_of_mem _ hx)
    have e1 : fuel + (a :: rest).length + 2 = (fuel + rest.length + 2) + 1 := by
      rw [List.length_cons]; omega
    rw [e1, Parser.parseExpressionListLoop]
    simp only [listTail, List.cons_append, parserAt_cons, Parser.peekTokenIs, comma,
      decide_True, if_true, Parser.nextToken]
    have hnext : ∃ t ts, listTail e rest ++ after = t :: ts := by
      cases rest <;> simp [listTail]
    obtain ⟨t, ts, hts⟩ := hnext
    have hstop : rank t.Typ ≤ LOWEST := by
      cases rest with
      | nil =>
        simp only [listTail, List.cons_append, List.nil_append, List.cons.injEq] at hts
        rw [← hts.1, rank_of_isListTerminator he]
      | cons b rest2 =>
        simp only [listTail, List.cons_append, List.cons.injEq] at hts
        rw [← hts.1]
        exact le_refl LOWEST
    have hih := ih (acc ++ [atomNode a]) (errs ++ atomErrors a) a after fuel hrest
    rw [hts] at hih ⊢
    simp only [Lexer.NextToken]
    rw [parse_atom (fuel + rest.length) _ _ _ _ _ ha (Or.inr hstop)]
    simp only
    rw [parserAt_cons] at hih
    rw [hih]
    simp [atomsErrors, List.append_assoc, lastToken]

theorem atomsErrors_eq_nil (atoms : List Token) (h : ∀ a ∈ atoms, converts a) :
    atomsErrors atoms = [] := by
  induction atoms with
  | nil => rfl
  | cons a rest ih =>
    rw [atomsErrors, atomErrors_eq_nil (h a (List.mem_cons_self _ _)),
      ih (fun x hx => h x (List.mem_cons_of_mem _ hx))]
    rfl

/-- The routine `parseExpressionList` over `a1 , ... , an e`, for any atoms and
a terminator that ends an expression. -/
theorem parseExpressionList_atoms (e opening : Token) (he : isListTerminator e.Typ)
    (atoms : List Token) (hatoms : ∀ a ∈ atoms, isAtom a) (errs : List String)
    (after : List Token) (fuel : Nat) :
    Parser.parseExpressionList (fuel + atoms.length + 3) e.Typ
        (parserAt errs opening (listTokens e atoms ++ after)) =
      some (some (atoms.map atomNode), parserAt (errs ++ atomsErrors atoms) e after) := by
  cases atoms with
  | nil =>
    rw [Parser.parseExpressionList]
    simp [listTokens, parserAt, Lexer.NextToken, Parser.peekTokenIs, Parser.nextToken,
      atomsErrors]
  | cons a rest =>
    have ha := hatoms a (List.mem_cons_self _ _)
    have hrest : ∀ x ∈ rest, isAtom x := fun x hx => hatoms x (List.mem_cons_of_mem _ hx)
    have hne : a.Typ ≠ e.Typ := by
      rcases ha with h | h <;> rw [h]
      · exact fun h2 => he.2.2.1 h2.symm
      · exact fun h2 => he.2.2.2 h2.symm
    have e1 : fuel + (a :: rest).length + 3 = (fuel + 1 + rest.length + 2) + 1 := by
      rw [List.length_cons]; omega
    rw [e1, Parser.parseExpressionList]
    simp only [listTokens, List.cons_append, parserAt_cons, Parser.peekTokenIs, hne,
      decide_False, Bool.false_eq_true, if_false, Parser.nextToken]
    have hloop := parseExpressionListLoop_atoms e he rest [atomNode a] (errs ++ atomErrors a) a
      after (fuel + 1) hrest
    have hnext : ∃ t ts, listTail e rest ++ after = t :: ts := by
      cases rest <;> simp [listTail]
    obtain ⟨t, ts, hts⟩ := hnext
    have hstop : rank t.Typ ≤ LOWEST := by
      cases rest with
      | nil =>
        simp only [listTail, List.cons_append, List.nil_append, List.cons.injEq] at hts
        rw [← hts.1, rank_of_isListTerminator he]
      | cons b rest2 =>
        simp only [listTail, List.cons_append, List.cons.injEq] at hts
        rw [← hts.1]
        exact le_refl LOWEST
    rw [hts] at hloop ⊢
    simp only [Lexer.NextToken]
    rw [parse_atom (fuel + 1 + rest.length) _ _ _ _ _ ha (Or.inr hstop)]
    simp only
    rw [parserAt_cons] at hloop
    rw [hloop]
    simp [Parser.expectPeek, Parser.peekTokenIs, Parser.nextToken, parserAt, atomsErrors,
      List.append_assoc]

/-! ## The list routine (C12) -/

/-- C12, as amended. Let `e` be a terminator token whose category has no entry in
the precedence table and is neither `,` nor the category of an atom (so `)` and
`]`, the two terminators the parser passes), and let `a1..an` be atoms whose
integer texts convert. With the current token on the opening delimiter and the
tokens `a1 , a2 , ... , an e` next, `parseExpressionList` returns, for every fuel
from `n + 3` on, exactly the sequence of the atoms' nodes in source order (the
empty sequence when `n = 0`), leaves the diagnostics as they were and the
current token on the terminator. -/
theorem parseExpressionList_returns_atoms_in_order (e opening : Token)
    (he : isListTerminator e.Typ) (atoms : List Token) (hatoms : ∀ a ∈ atoms, isAtom a)
    (hconv : ∀ a ∈ atoms, converts a) (errs : List String) (after : List Token)
    (fuel : Nat) (hf : atoms.length + 3 ≤ fuel) :
    Parser.parseExpressionList fuel e.Typ
        (parserAt errs opening (listTokens e atoms ++ after)) =
      some (some (atoms.map atomNode), parserAt errs e after) ∧
    (∀ a ∈ atoms, (atomNode a).isSome = true) ∧
    (parserAt errs e after).errors = errs ∧ (parserAt errs e after).currToken = e := by
  obtain ⟨k, rfl⟩ := Nat.exists_eq_add_of_le' hf
  have e1 : k + (atoms.length + 3) = k + atoms.length + 3 := by omega
  refine ⟨?_, fun a ha => atomNode_isSome (hconv a ha), rfl, rfl⟩
  rw [e1, parseExpressionList_atoms e opening he atoms hatoms errs after k,
    atomsErrors_eq_nil atoms hconv, List.append_nil]

/-- C12, witness: `[ 1 , x , 3 ]`, the current token on `[`. -/
theorem parseExpressionList_returns_atoms_in_order_witness :
    Parser.parseExpressionList 6 .RBRACKET
        (parserAt [] lbracket (listTokens rbracket [⟨.INT, "1"⟩, ⟨.IDENT, "x"⟩, ⟨.INT, "3"⟩] ++ [])) =
      some (some ([⟨.INT, "1"⟩, ⟨.IDENT, "x"⟩, ⟨.INT, "3"⟩].map atomNode),
        parserAt [] rbracket []) ∧
    (∀ a ∈ [(⟨.INT, "1"⟩ : Token), ⟨.IDENT, "x"⟩, ⟨.INT, "3"⟩], (atomNode a).isSome = true) ∧
    (parserAt [] rbracket []).errors = [] ∧ (parserAt [] rbracket []).currToken = rbracket :=
  parseExpressionList_returns_atoms_in_order rbracket lbracket (by decide)
    [⟨.INT, "1"⟩, ⟨.IDENT, "x"⟩, ⟨.INT, "3"⟩] (by decide)
    (by
      intro a ha
      simp only [List.mem_cons, List.mem_singleton, List.not_mem_nil, or_false] at ha
      rcases ha with rfl | rfl | rfl
      · exact fun _ => ⟨1, rfl⟩
      · exact fun h => absurd h (by decide)
      · exact fun _ => ⟨3, rfl⟩)
    [] [] 6 (le_refl 6)

/-- C12, counterexample to "for every terminator category" and to "records no
diagnostic" for every atom. With the current token on `(`:
the terminator `+` after the atom `1` is taken as an infix operator, and the
result is absent with two diagnostics;
the terminator category `IDENT` before the atom `x` ends the sequence at once,
empty, with the current token on `x`;
the terminator `,` after the atom `1` is taken as a separator, and the result is
absent with two diagnostics;
and before `)` the atom `9223372036854775808` is absent in the sequence and its
conversion diagnostic is recorded. -/
theorem parseExpressionList_returns_atoms_in_order_counterexample :
    (∀ fuel, 6 ≤ fuel →
      Parser.parseExpressionList fuel .PLUS
          (parserAt [] lparen [⟨.INT, "1"⟩, ⟨.PLUS, "+"⟩]) =
        some (none, ⟨[], ["no prefix function for EOF found.",
          "expected next token to be +, got EOF"], eofToken, eofToken⟩)) ∧
    (∀ fuel, 6 ≤ fuel →
      Parser.parseExpressionList fuel .IDENT
          (parserAt [] lparen [⟨.IDENT, "x"⟩, ⟨.IDENT, "y"⟩]) =
        some (some [], ⟨[], [], ⟨.IDENT, "x"⟩, ⟨.IDENT, "y"⟩⟩)) ∧
    (∀ fuel, 6 ≤ fuel →
      Parser.parseExpressionList fuel .COMMA
          (parserAt [] lparen [⟨.INT, "1"⟩, comma]) =
        some (none, ⟨[], ["no prefix function for EOF found.",
          "expected next token to be ,, got EOF"], eofToken, eofToken⟩)) ∧
    (∀ fuel, 6 ≤ fuel →
      Parser.parseExpressionList fuel .RPAREN
          (parserAt [] lparen [⟨.INT, "9223372036854775808"⟩, rparen]) =
        some (some [none], ⟨[], ["count not parse string to int64, got=9223372036854775808"],
          rparen, eofToken⟩)) := by
  refine ⟨fun fuel hf => ?_, fun fuel hf => ?_, fun fuel hf => ?_, fun fuel hf => ?_⟩ <;>
    (obtain ⟨k, rfl⟩ := Nat.exists_eq_add_of_le' hf; rfl)

theorem digitVal_of_isDigit {c : Char} (h : c.isDigit = true) :
    digitVal c = some (c.toNat - '0'.toNat) ∧ c ≠ '_' ∧ c.toNat - '0'.toNat < 10 := by
  simp only [Char.isDigit, Bool.and_eq_true, decide_eq_true_eq] at h
  have h1 : 48 ≤ c.toNat := by
    have := h.1
    simpa [Char.toNat, UInt32.le_def, Nat.le] using this
  have h2 : c.toNat ≤ 57 := by
    have := h.2
    simpa [Char.toNat, UInt32.le_def, Nat.le] using this
  have h3 : '0' ≤ c ∧ c ≤ '9' := by
    constructor
    · show (48 : Nat) ≤ c.toNat
      exact h1
    · show c.toNat ≤ (57 : Nat)
      exact h2
  refine ⟨?_, ?_, ?_⟩
  · unfold digitVal
    rw [if_pos h3]
  · intro hc
    rw [hc] at h1 h2
    revert h2
    decide
  · show c.toNat - 48 < 10
    omega

theorem le_foldl_decimal (ds : List Char) :
    ∀ acc : Nat, acc ≤ ds.foldl (fun n c => n * 10 + (c.toNat - '0'.toNat)) acc := by
  induction ds with
  | nil => intro acc; exact le_refl _
  | cons c rest ih =>
    intro acc
    rw [List.foldl_cons]
    have := ih (acc * 10 + (c.toNat - '0'.toNat))
    omega

/-- On decimal digits, in base 10 and below the `uint64` range, the digit loop
of `ParseUint` computes the decimal reading. -/
theorem parseUintLoop_decimal (ds : List Char) :
    ∀ acc : Nat, (∀ c ∈ ds, c.isDigit = true) →
      ds.foldl (fun n c => n * 10 + (c.toNat - '0'.toNat)) acc ≤ maxUint64 →
      parseUintLoop 10 ds acc false =
        .ok (ds.foldl (fun n c => n * 10 + (c.toNat - '0'.toNat)) acc, false) := by
  induction ds with
  | nil => intro acc _ _; rfl
  | cons c rest ih =>
    intro acc hd hle
    obtain ⟨h1, h2, h3⟩ := digitVal_of_isDigit (hd c (List.mem_cons_self _ _))
    rw [List.foldl_cons] at hle ⊢
    have hmono := le_foldl_decimal rest (acc * 10 + (c.toNat - '0'.toNat))
    have hmax : maxUint64 = 18446744073709551615 := by decide
    rw [parseUintLoop, if_neg h2, h1]
    simp only
    rw [if_neg (by omega), if_neg (by rw [hmax]; omega), if_neg (by omega)]
    exact ih _ (fun x hx => hd x (List.mem_cons_of_mem _ hx)) hle

/-- A non-empty string of decimal digits without a leading zero, of decimal
reading at most `2^63 - 1`, converts to that reading. -/
theorem ParseInt_decimal (s : String) (hd : ∀ c ∈ s.toList, c.isDigit = true)
    (hne : s.toList ≠ []) (hz : s.toList.head? ≠ some '0')
    (hn : decimalValue s.toList ≤ 2 ^ 63 - 1) :
    ParseInt s = .ok (decimalValue s.toList : Int) := by
  unfold ParseInt
  cases hs : s.toList with
  | nil => exact absurd hs hne
  | cons c rest =>
    rw [hs] at hd hz hn
    have hc0 : c ≠ '0' := by simpa using hz
    obtain ⟨-, -, -⟩ := digitVal_of_isDigit (hd c (List.mem_cons_self _ _))
    have hcd := hd c (List.mem_cons_self _ _)
    have hplus : c ≠ '+' := by
      intro h; rw [h] at hcd; revert hcd; decide
    have hminus : c ≠ '-' := by
      intro h; rw [h] at hcd; revert hcd; decide
    have hloop := parseUintLoop_decimal (c :: rest) 0 hd (by
      have : decimalValue (c :: rest) ≤ maxUint64 := by
        have hmax : maxUint64 = 18446744073709551615 := by decide
        rw [hmax]; omega
      exact this)
    have hu : ParseUint (c :: rest) = .ok (decimalValue (c :: rest)) := by
      unfold ParseUint
      simp only [if_neg hc0]
      rw [hloop]
      simp [decimalValue]
    simp only [hplus, hminus, or_self, if_false, hu, decide_False]
    have : decimalValue (c :: rest) < 9223372036854775808 := by omega
    simp [this]

/-! ## Integer literals (C18) -/

/-- The text `0` converts to 0. -/
theorem ParseInt_zero (s : String) (h : s.toList = ['0']) :
    ParseInt s = .ok (decimalValue s.toList : Int) := by
  unfold ParseInt
  rw [h]
  rfl

/-- C18, as amended. For a current token whose text is a non-empty string of
decimal digits that is `0` or has no leading zero, denoting `n ≤ 2^63 - 1` in
decimal, `parseIntegerLiteral` returns the `IntegerLiteral` with value `n` and
leaves the parser state, its diagnostics included, as it was. -/
theorem parseIntegerLiteral_decimal_value (p : Parser)
    (hd : ∀ c ∈ p.currToken.Literal.toList, c.isDigit = true)
    (hne : p.currToken.Literal.toList ≠ [])
    (hz : p.currToken.Literal.toList = ['0'] ∨ p.currToken.Literal.toList.head? ≠ some '0')
    (hn : decimalValue p.currToken.Literal.toList ≤ 2 ^ 63 - 1) :
    p.parseIntegerLiteral =
      (some (.IntegerLiteral p.currToken (decimalValue p.currToken.Literal.toList : Int)), p) := by
  unfold Parser.parseIntegerLiteral
  rcases hz with hz | hz
  · rw [ParseInt_zero _ hz]
  · rw [ParseInt_decimal _ hd hne hz hn]

/-- C18, witness: the text `9223372036854775807`, the largest `int64`. -/
theorem parseIntegerLiteral_decimal_value_witness :
    Parser.parseIntegerLiteral ⟨[], [], ⟨.INT, "9223372036854775807"⟩, eofToken⟩ =
      (some (.IntegerLiteral ⟨.INT, "9223372036854775807"⟩
          (decimalValue "9223372036854775807".toList : Int)),
        ⟨[], [], ⟨.INT, "9223372036854775807"⟩, eofToken⟩) ∧
    decimalValue "9223372036854775807".toList = 2 ^ 63 - 1 :=
  ⟨parseIntegerLiteral_decimal_value ⟨[], [], ⟨.INT, "9223372036854775807"⟩, eofToken⟩
    (by decide) (by decide) (Or.inr (by decide)) (by decide), by decide⟩

/-- C18, counterexample to "the decimal reading, including for texts with
leading zeros": `010` is a non-empty string of decimal digits whose decimal
reading is 10, and `parseIntegerLiteral` returns the value 8 (`ParseInt` is
called with base 0, under which a leading `0` selects base 8); `09`, of decimal
reading 9, is rejected with a diagnostic. -/
theorem parseIntegerLiteral_decimal_value_counterexample :
    (∀ c ∈ "010".toList, c.isDigit = true) ∧ decimalValue "010".toList = 10 ∧
    Parser.parseIntegerLiteral ⟨[], [], ⟨.INT, "010"⟩, eofToken⟩ =
      (some (.IntegerLiteral ⟨.INT, "010"⟩ 8), ⟨[], [], ⟨.INT, "010"⟩, eofToken⟩) ∧
    (∀ c ∈ "09".toList, c.isDigit = true) ∧ decimalValue "09".toList = 9 ∧
    Parser.parseIntegerLiteral ⟨[], [], ⟨.INT, "09"⟩, eofToken⟩ =
      (none, ⟨[], ["count not parse string to int64, got=09"], ⟨.INT, "09"⟩, eofToken⟩) := by
  refine ⟨by decide, by decide, rfl, by decide, by decide, rfl⟩

/-! ## The optional alternative (C14) -/

/-- C14. Whenever `parseIfExpression` returns an `IfExpression`, the production
has run up to the end of the consequence block (state `q5`), and the node's
alternative is absent if and only if the token following the consequence block,
`q5.peekToken`, is not `else`. When that token is `else` and the token after it
is not `\x7b`, the result is absent and the expected-token diagnostic for
`\x7b` is appended: no `IfExpression` with an absent alternative is returned. -/
theorem parseIfExpression_alternative_absent_iff_no_else (fuel : Nat) (p : Parser) :
    (∀ e p', Parser.parseIfExpression (fuel + 1) p = some (some e, p') →
      ∃ q1 condition q2 q3 q4 consequence q5 alternative,
        p.expectPeek .LPAREN = (true, q1) ∧
        Parser.parseExpression fuel LOWEST q1.nextToken = some (condition, q2) ∧
        q2.expectPeek .RPAREN = (true, q3) ∧ q3.expectPeek .LBRACE = (true, q4) ∧
        Parser.parseBlockStatement fuel q4 = some (consequence, q5) ∧
        e = .IfExpression p.currToken condition consequence alternative ∧
        (alternative = none ↔ q5.peekToken.Typ ≠ .ELSE)) ∧
    (∀ q1 condition q2 q3 q4 consequence q5,
      p.expectPeek .LPAREN = (true, q1) →
      Parser.parseExpression fuel LOWEST q1.nextToken = some (condition, q2) →
      q2.expectPeek .RPAREN = (true, q3) → q3.expectPeek .LBRACE = (true, q4) →
      Parser.parseBlockStatement fuel q4 = some (consequence, q5) →
      q5.peekToken.Typ = .ELSE → q5.nextToken.peekToken.Typ ≠ .LBRACE →
      Parser.parseIfExpression (fuel + 1) p =
        some (none, ⟨q5.nextToken.l, q5.errors ++
          ["expected next token to be \x7b, got " ++ q5.nextToken.peekToken.Typ.toString],
          q5.nextToken.currToken, q5.nextToken.peekToken⟩)) := by
  constructor
  · intro e p' h
    rw [Parser.parseIfExpression] at h
    simp only at h
    split at h
    · simp at h
    · rename_i q1 h1
      split at h
      · simp at h
      · rename_i r1 condition q2 h2
        split at h
        · simp at h
        · rename_i q3 h3
          split at h
          · simp at h
          · rename_i q4 h4
            split at h
            · simp at h
            · rename_i r2 consequence q5 h5
              split at h
              · rename_i helse
                split at h
                · simp at h
                · rename_i q6 h6
                  split at h
                  · simp at h
                  · rename_i r3 alternative q7 h7
                    simp only [Option.some.injEq, Prod.mk.injEq] at h
                    refine ⟨q1, condition, q2, q3, q4, consequence, q5, some alternative,
                      h1, h2, h3, h4, h5, h.1.symm, ?_⟩
                    simpa [Parser.peekTokenIs] using helse
              · rename_i helse
                simp only [Option.some.injEq, Prod.mk.injEq] at h
                refine ⟨q1, condition, q2, q3, q4, consequence, q5, none,
                  h1, h2, h3, h4, h5, h.1.symm, ?_⟩
                simpa [Parser.peekTokenIs] using helse
  · intro q1 condition q2 q3 q4 consequence q5 h1 h2 h3 h4 h5 helse hbrace
    have hb : q5.nextToken.peekTokenIs .LBRACE = false := by
      simp [Parser.peekTokenIs, hbrace]
    have he : q5.nextToken.expectPeek .LBRACE = (false, q5.nextToken.peekError .LBRACE) := by
      rw [Parser.expectPeek, hb]
      rfl
    have hel : q5.peekTokenIs .ELSE = true := by
      simp [Parser.peekTokenIs, helse]
    rw [Parser.parseIfExpression]
    simp only [h1, h2, h3, h4, h5, hel, if_true, he]
    rfl

/-- C14, witness: `if ( x ) \x7b y \x7d else z` returns an absent result with the
diagnostic for the missing `\x7b`, and `if ( x ) \x7b y \x7d`, where end of file
follows the consequence block, returns an `IfExpression` whose alternative is
absent. -/
theorem parseIfExpression_alternative_absent_iff_no_else_witness :
    Parser.parseIfExpression 7
        (New [⟨.IF, "if"⟩, lparen, ⟨.IDENT, "x"⟩, rparen, lbrace, ⟨.IDENT, "y"⟩, rbrace,
          ⟨.ELSE, "else"⟩, ⟨.IDENT, "z"⟩]) =
      some (none, ⟨[], ["expected next token to be \x7b, got IDENT"], ⟨.ELSE, "else"⟩,
        ⟨.IDENT, "z"⟩⟩) ∧
    ∃ q1 condition q2 q3 q4 consequence q5 alternative,
      (New [⟨.IF, "if"⟩, lparen, ⟨.IDENT, "x"⟩, rparen, lbrace, ⟨.IDENT, "y"⟩,
        rbrace]).expectPeek .LPAREN = (true, q1) ∧
      Parser.parseExpression 6 LOWEST q1.nextToken = some (condition, q2) ∧
      q2.expectPeek .RPAREN = (true, q3) ∧ q3.expectPeek .LBRACE = (true, q4) ∧
      Parser.parseBlockStatement 6 q4 = some (consequence, q5) ∧
      Expression.IfExpression ⟨.IF, "if"⟩ (some (.Identifier ⟨.IDENT, "x"⟩ "x"))
          (.mk lbrace [.ExpressionStatement ⟨.IDENT, "y"⟩ (some (.Identifier ⟨.IDENT, "y"⟩ "y"))])
          none =
        .IfExpression ⟨.IF, "if"⟩ condition consequence alternative ∧
      (alternative = none ↔ q5.peekToken.Typ ≠ .ELSE) :=
  ⟨(parseIfExpression_alternative_absent_iff_no_else 6
      (New [⟨.IF, "if"⟩, lparen, ⟨.IDENT, "x"⟩, rparen, lbrace, ⟨.IDENT, "y"⟩, rbrace,
        ⟨.ELSE, "else"⟩, ⟨.IDENT, "z"⟩])).2
      _ _ _ _ _
      (.mk lbrace [.ExpressionStatement ⟨.IDENT, "y"⟩ (some (.Identifier ⟨.IDENT, "y"⟩ "y"))])
      ⟨[⟨.IDENT, "z"⟩], [], rbrace, ⟨.ELSE, "else"⟩⟩ rfl rfl rfl rfl rfl rfl
      (by decide),
    (parseIfExpression_alternative_absent_iff_no_else 6
      (New [⟨.IF, "if"⟩, lparen, ⟨.IDENT, "x"⟩, rparen, lbrace, ⟨.IDENT, "y"⟩, rbrace])).1
      _ _ rfl⟩

theorem infixRank_atomNode (t : Token) : infixRank (atomNode t) = none := by
  unfold atomNode Parser.parseIntegerLiteral Parser.parseIdentifier
  split
  · cases ParseInt t.Literal <;> rfl
  · rfl

theorem optRankNested_atomNode (t : Token) : optRankNested (atomNode t) = true := by
  unfold atomNode Parser.parseIntegerLiteral Parser.parseIdentifier
  split
  · cases ParseInt t.Literal <;> simp [optRankNested, Expression.rankNested]
  · simp [optRankNested, Expression.rankNested]

theorem chainErrors_append (xs ys : List (Token × Token)) :
    chainErrors (xs ++ ys) = chainErrors xs ++ chainErrors ys := by
  induction xs with
  | nil => rfl
  | cons x rest ih => simp [chainErrors, ih]

theorem lastValue_append (v : Token) (xs ys : List (Token × Token)) :
    lastValue v (xs ++ ys) = lastValue (lastValue v xs) ys := by
  induction xs generalizing v with
  | nil => rfl
  | cons x rest ih => simp [lastValue, ih]

theorem parserAt_chain_cons (errs : List String) (cur : Token) (oa : Token × Token)
    (rest : List (Token × Token)) (tail : List Token) :
    parserAt errs cur (chainTail (oa :: rest) ++ tail) =
      ⟨oa.2 :: (chainTail rest ++ tail), errs, cur, oa.1⟩ := rfl

theorem parseExpressionLoop_stop_at (fuel precedence : Nat) (left : Option Expression)
    (errs : List String) (cur : Token) (ts : List Token)
    (h : rank (Lexer.NextToken ts).1.Typ ≤ precedence) (hf : 1 ≤ fuel) :
    Parser.parseExpressionLoop fuel precedence left (parserAt errs cur ts) =
      some (left, parserAt errs cur ts) := by
  obtain ⟨k, rfl⟩ := Nat.exists_eq_add_of_le' hf
  exact parseExpressionLoop_stop k precedence left (parserAt errs cur ts) (Or.inr h)

theorem parseExpression_atom_at (fuel precedence : Nat) (errs : List String) (a : Token)
    (ts : List Token) (ha : isAtom a) :
    Parser.parseExpression (fuel + 1) precedence (parserAt errs a ts) =
      Parser.parseExpressionLoop fuel precedence (atomNode a)
        (parserAt (errs ++ atomErrors a) a ts) :=
  parseExpression_atom fuel precedence _ errs a _ ha

theorem parseExpressionLoop_binary_at (fuel precedence : Nat) (left : Option Expression)
    (errs : List String) (cur o b : Token) (ts : List Token)
    (ho : isBinaryOperator o.Typ = true) (h : precedence < rank o.Typ) :
    Parser.parseExpressionLoop (fuel + 2) precedence left (parserAt errs cur (o :: b :: ts)) =
      match Parser.parseExpression fuel (rank o.Typ) (parserAt errs b ts) with
      | none => none
      | some (right, q) =>
        Parser.parseExpressionLoop (fuel + 1) precedence (Infix o left right) q :=
  parseExpressionLoop_binary fuel precedence left (parserAt errs cur (o :: b :: ts)) ho h

/-- The loop of `parseExpression` over a chain `o1 a2 o2 a3 ...` that is
followed by a token of rank `LOWEST`: it consumes a first part of the chain and
stops before an operator whose rank does not exceed the bound; the tree it
builds does not depend on the diagnostics so far, on what follows the chain or
on the fuel, it keeps the rank nesting, and its root, when an operator was
folded, ranks above the bound. -/
theorem parseExpressionLoop_chain (n : Nat) :
    ∀ (rest : List (Token × Token)), rest.length ≤ n →
      (∀ oa ∈ rest, isBinaryOperator oa.1.Typ = true ∧ isAtom oa.2) →
      ∀ (precedence : Nat) (left : Option Expression) (cur : Token), LOWEST ≤ precedence →
      ∃ tree consumed rest', rest = consumed ++ rest' ∧
        (∀ oa r, rest' = oa :: r → rank oa.1.Typ ≤ precedence) ∧
        (optRankNested left = true →
          (∀ oa r x, rest = oa :: r → infixRank left = some x → rank oa.1.Typ ≤ x) →
          optRankNested tree = true) ∧
        ((∀ x, infixRank left = some x → precedence < x) →
          ∀ x, infixRank tree = some x → precedence < x) ∧
        ∀ (errs : List String) (tail : List Token) (fuel : Nat),
          rank (Lexer.NextToken tail).1.Typ = LOWEST → 3 * rest.length + 1 ≤ fuel →
          Parser.parseExpressionLoop fuel precedence left
              (parserAt errs cur (chainTail rest ++ tail)) =
            some (tree, parserAt (errs ++ chainErrors consumed) (lastValue cur consumed)
              (chainTail rest' ++ tail)) := by
  induction n with
  | zero =>
    intro rest hlen _ precedence left cur hprec
    have hrest : rest = [] := List.length_eq_zero.mp (Nat.le_zero.mp hlen)
    subst hrest
    refine ⟨left, [], [], rfl, ?_, fun h _ => h, fun h => h, ?_⟩
    · intro oa r h; exact absurd h (by simp)
    · intro errs tail fuel htail hfuel
      rw [parseExpressionLoop_stop_at fuel precedence left errs cur _
        (by rw [chainTail, List.nil_append, htail]; exact hprec) (by omega)]
      simp [chainErrors, lastValue]
  | succ n ih =>
    intro rest hlen hchain precedence left cur hprec
    cases rest with
    | nil =>
      refine ⟨left, [], [], rfl, ?_, fun h _ => h, fun h => h, ?_⟩
      · intro oa r h; exact absurd h (by simp)
      · intro errs tail fuel htail hfuel
        rw [parseExpressionLoop_stop_at fuel precedence left errs cur _
          (by rw [chainTail, List.nil_append, htail]; exact hprec) (by omega)]
        simp [chainErrors, lastValue]
    | cons oa rest1 =>
      obtain ⟨ho, hb⟩ := hchain oa (List.mem_cons_self _ _)
      have hchain1 : ∀ x ∈ rest1, isBinaryOperator x.1.Typ = true ∧ isAtom x.2 :=
        fun x hx => hchain x (List.mem_cons_of_mem _ hx)
      have hlen1 : rest1.length ≤ n := by
        rw [List.length_cons] at hlen; omega
      by_cases hfold : precedence < rank oa.1.Typ
      · -- the operator is folded
        obtain ⟨right, consumed1, rest2, hsplit1, hstop1, hnest1, hroot1, hrun1⟩ :=
          ih rest1 hlen1 hchain1 (rank oa.1.Typ) (atomNode oa.2) oa.2 (LOWEST_le_rank _)
        have hchain2 : ∀ x ∈ rest2, isBinaryOperator x.1.Typ = true ∧ isAtom x.2 := by
          intro x hx
          exact hchain1 x (by rw [hsplit1]; exact List.mem_append_right _ hx)
        have hlen2 : rest2.length ≤ n := by
          have : rest1.length = consumed1.length + rest2.length := by
            rw [hsplit1, List.length_append]
          omega
        obtain ⟨tree, consumed2, rest3, hsplit2, hstop2, hnest2, hroot2, hrun2⟩ :=
          ih rest2 hlen2 hchain2 precedence (Infix oa.1 left right) (lastValue oa.2 consumed1)
            hprec
        refine ⟨tree, oa :: (consumed1 ++ consumed2), rest3, ?_, hstop2, ?_, ?_, ?_⟩
        · rw [hsplit1, hsplit2]; simp
        · intro hleft hleftok
          apply hnest2
          · -- the new node keeps the nesting
            have hr := hnest1 (optRankNested_atomNode _)
              (fun _ _ x _ hx => by rw [infixRank_atomNode] at hx; exact absurd hx (by simp))
            have hrr := hroot1
              (fun x hx => by rw [infixRank_atomNode] at hx; exact absurd hx (by simp))
            simp only [Infix, optRankNested, Expression.rankNested, Bool.and_eq_true]
            refine ⟨⟨⟨?_, ?_⟩, hleft⟩, hr⟩
            · cases hl : infixRank left with
              | none => rfl
              | some x => simpa using hleftok oa rest1 x rfl hl
            · cases hl : infixRank right with
              | none => rfl
              | some x => simpa using hrr x hl
          · intro oa2 r x hrest2 hx
            simp only [Infix, infixRank, Option.some.injEq] at hx
            rw [← hx]
            exact hstop1 oa2 r hrest2
        · intro _ x hx
          exact hroot2 (fun y hy => by
            simp only [Infix, infixRank, Option.some.injEq] at hy
            rw [← hy]; exact hfold) x hx
        · intro errs tail fuel htail hfuel
          rw [List.length_cons] at hfuel
          obtain ⟨k, rfl⟩ := Nat.exists_eq_add_of_le' (show 3 * rest1.length + 4 ≤ fuel by omega)
          have e1 : k + (3 * rest1.length + 4) = (k + 3 * rest1.length + 2) + 2 := by omega
          have e0 : chainTail (oa :: rest1) ++ tail = oa.1 :: oa.2 :: (chainTail rest1 ++ tail) :=
            rfl
          rw [e1, e0, parseExpressionLoop_binary_at _ _ _ _ _ _ _ _ ho hfold]
          have e2 : k + 3 * rest1.length + 2 = (k + 3 * rest1.length + 1) + 1 := by omega
          rw [e2, parseExpression_atom_at _ _ _ _ _ hb]
          have h1 := hrun1 (errs ++ atomErrors oa.2) tail (k + 3 * rest1.length + 1) htail
            (by omega)
          rw [h1]
          simp only
          have hl : rest2.length ≤ rest1.length := by
            have : rest1.length = consumed1.length + rest2.length := by
              rw [hsplit1, List.length_append]
            omega
          have h2 := hrun2 (errs ++ atomErrors oa.2 ++ chainErrors consumed1) tail
            (k + 3 * rest1.length + 1 + 1 + 1) htail (by omega)
          rw [h2]
          simp [chainErrors, chainErrors_append, lastValue, lastValue_append,
            List.append_assoc]
      · -- the loop stops before the operator
        refine ⟨left, [], oa :: rest1, rfl, ?_, fun h _ => h, fun h => h, ?_⟩
        · intro oa2 r h
          simp only [List.cons.injEq] at h
          rw [← h.1]; omega
        · intro errs tail fuel htail hfuel
          rw [parseExpressionLoop_stop_at fuel precedence left errs cur _
            (by show rank oa.1.Typ ≤ precedence; omega) (by omega)]
          simp [chainErrors, lastValue]

/-- The expression `a o1 a2 o2 ...` parsed at `LOWEST`, followed by a token of
rank `LOWEST`: the whole chain is consumed, and the tree, which keeps the rank
nesting, does not depend on the diagnostics so far, on what follows the chain
or on the fuel. -/
theorem parseExpression_chain (a : Token) (rest : List (Token × Token)) (ha : isAtom a)
    (hchain : ∀ oa ∈ rest, isBinaryOperator oa.1.Typ = true ∧ isAtom oa.2) :
    ∃ tree, optRankNested tree = true ∧
      ∀ (errs : List String) (tail : List Token) (fuel : Nat),
        rank (Lexer.NextToken tail).1.Typ = LOWEST → 3 * rest.length + 2 ≤ fuel →
        Parser.parseExpression fuel LOWEST (parserAt errs a (chainTail rest ++ tail)) =
          some (tree, parserAt (errs ++ (atomErrors a ++ chainErrors rest)) (lastValue a rest)
            tail) := by
  obtain ⟨tree, consumed, rest', hsplit, hstop, hnest, -, hrun⟩ :=
    parseExpressionLoop_chain rest.length rest (le_refl _) hchain LOWEST (atomNode a) a
      (le_refl _)
  have hrest' : rest' = [] := by
    cases rest' with
    | nil => rfl
    | cons oa r =>
      have h1 := hstop oa r rfl
      have hmem : oa ∈ rest := by rw [hsplit]; simp
      obtain ⟨-, -, h2, -⟩ := isBinaryOperator_facts (hchain oa hmem).1
      omega
  subst hrest'
  rw [List.append_nil] at hsplit
  subst hsplit
  refine ⟨tree, hnest (optRankNested_atomNode a)
    (fun _ _ x _ hx => by rw [infixRank_atomNode] at hx; exact absurd hx (by simp)), ?_⟩
  intro errs tail fuel htail hfuel
  obtain ⟨k, rfl⟩ := Nat.exists_eq_add_of_le' (show 1 ≤ fuel by omega)
  rw [parseExpression_atom_at _ _ _ _ _ ha, hrun (errs ++ atomErrors a) tail k htail (by omega)]
  simp [chainTail, List.append_assoc]

theorem New_cons (a : Token) (ts : List Token) : New (a :: ts) = parserAt [] a ts := by
  cases ts <;> rfl

/-! ## Rank nesting of operator chains (C13) -/

/-- C13. For every stream `a1 o1 a2 o2 ... an` of atoms separated by binary
operators, `parseExpression` at `LOWEST` returns, for every fuel from `3n - 1`
on (`n - 1` operators), a tree over the whole stream in which every
`InfixExpression` that is the direct right operand of another has a strictly
higher rank than its parent, and every `InfixExpression` that is the direct left
operand of another has a rank greater than or equal to its parent's. -/
theorem parseExpression_chain_rank_nested (a : Token) (rest : List (Token × Token))
    (ha : isAtom a) (hchain : ∀ oa ∈ rest, isBinaryOperator oa.1.Typ = true ∧ isAtom oa.2)
    (fuel : Nat) (hf : 3 * rest.length + 2 ≤ fuel) :
    ∃ tree, Parser.parseExpression fuel LOWEST (New (a :: chainTail rest)) =
        some (tree, ⟨[], atomErrors a ++ chainErrors rest, lastValue a rest, eofToken⟩) ∧
      optRankNested tree = true := by
  obtain ⟨tree, hnest, hrun⟩ := parseExpression_chain a rest ha hchain
  refine ⟨tree, ?_, hnest⟩
  have h := hrun [] [] fuel rfl hf
  rw [List.append_nil] at h
  rw [New_cons, h]
  rfl

/-- C13, witness: `1 < 2 == 3 > 4` gives `Infix(==, Infix(<, 1, 2), Infix(>, 3, 4))`,
where `<` and `>` rank above `==`. -/
theorem parseExpression_chain_rank_nested_witness :
    (∃ tree, Parser.parseExpression 11 LOWEST
          (New (⟨.INT, "1"⟩ :: chainTail [(⟨.LT, "<"⟩, ⟨.INT, "2"⟩), (⟨.EQ, "=="⟩, ⟨.INT, "3"⟩),
            (⟨.GT, ">"⟩, ⟨.INT, "4"⟩)])) =
        some (tree, ⟨[], atomErrors ⟨.INT, "1"⟩ ++ chainErrors [(⟨.LT, "<"⟩, ⟨.INT, "2"⟩),
          (⟨.EQ, "=="⟩, ⟨.INT, "3"⟩), (⟨.GT, ">"⟩, ⟨.INT, "4"⟩)],
          lastValue ⟨.INT, "1"⟩ [(⟨.LT, "<"⟩, ⟨.INT, "2"⟩), (⟨.EQ, "=="⟩, ⟨.INT, "3"⟩),
            (⟨.GT, ">"⟩, ⟨.INT, "4"⟩)], eofToken⟩) ∧
      optRankNested tree = true) ∧
    Parser.parseExpression 11 LOWEST
        (New [⟨.INT, "1"⟩, ⟨.LT, "<"⟩, ⟨.INT, "2"⟩, ⟨.EQ, "=="⟩, ⟨.INT, "3"⟩, ⟨.GT, ">"⟩,
          ⟨.INT, "4"⟩]) =
      some (Infix ⟨.EQ, "=="⟩
          (Infix ⟨.LT, "<"⟩ (some (.IntegerLiteral ⟨.INT, "1"⟩ 1))
            (some (.IntegerLiteral ⟨.INT, "2"⟩ 2)))
          (Infix ⟨.GT, ">"⟩ (some (.IntegerLiteral ⟨.INT, "3"⟩ 3))
            (some (.IntegerLiteral ⟨.INT, "4"⟩ 4))),
        ⟨[], [], ⟨.INT, "4"⟩, eofToken⟩) :=
  ⟨parseExpression_chain_rank_nested ⟨.INT, "1"⟩
      [(⟨.LT, "<"⟩, ⟨.INT, "2"⟩), (⟨.EQ, "=="⟩, ⟨.INT, "3"⟩), (⟨.GT, ">"⟩, ⟨.INT, "4"⟩)]
      (by decide) (by decide) 11 (le_refl 11),
    rfl⟩

theorem chainErrors_eq_nil (rest : List (Token × Token)) (h : ∀ oa ∈ rest, converts oa.2) :
    chainErrors rest = [] := by
  induction rest with
  | nil => rfl
  | cons oa r ih =>
    rw [chainErrors, atomErrors_eq_nil (h oa (List.mem_cons_self _ _)),
      ih (fun x hx => h x (List.mem_cons_of_mem _ hx))]
    rfl

theorem nextToken_mk (l : Lexer) (errs : List String) (cur pk : Token) :
    Parser.nextToken ⟨l, errs, cur, pk⟩ = parserAt errs pk l := rfl

/-- The program `let x = e` with or without the trailing `;`, for a chain `e`:
one let statement, the same in both cases, and the same final state. -/
theorem ParseProgram_let_chain (x a : Token) (rest : List (Token × Token)) (hx : x.Typ = .IDENT)
    (ha : isAtom a) (hchain : ∀ oa ∈ rest, isBinaryOperator oa.1.Typ = true ∧ isAtom oa.2) :
    ∃ tree, ∀ (tail : List Token) (fuel : Nat), tail = [] ∨ tail = [semicolon] →
      3 * rest.length + 5 ≤ fuel →
      Parser.ParseProgram fuel
          (New (letTok :: x :: assignTok :: a :: (chainTail rest ++ tail))) =
        some (⟨[.LetStatement letTok ⟨x, x.Literal⟩ tree]⟩,
          ⟨[], atomErrors a ++ chainErrors rest, eofToken, eofToken⟩) := by
  obtain ⟨tree, -, hrun⟩ := parseExpression_chain a rest ha hchain
  refine ⟨tree, ?_⟩
  intro tail fuel htail hfuel
  obtain ⟨k, rfl⟩ := Nat.exists_eq_add_of_le' (show 3 ≤ fuel by omega)
  have hstop : rank (Lexer.NextToken tail).1.Typ = LOWEST := by
    rcases htail with h | h <;> rw [h] <;> rfl
  have hexpr := hrun [] tail k hstop (by omega)
  rw [List.nil_append] at hexpr
  rw [New_cons_cons, Parser.ParseProgram, Parser.ParseProgramLoop]
  rw [if_pos (by simp [letTok])]
  rw [Parser.parseStatement]
  simp only [letTok]
  rw [Parser.parseLetStatement]
  simp only [Parser.expectPeek, Parser.peekTokenIs, hx, decide_True, if_true,
    nextToken_mk, parserAt_cons, assignTok]
  rw [hexpr]
  rcases htail with h | h <;> subst h
  · simp only [parserAt, Lexer.NextToken, eofToken]
    rw [Parser.ParseProgramLoop]
    simp [Parser.nextToken, Lexer.NextToken]
    rfl
  · simp only [parserAt, Lexer.NextToken, semicolon, decide_True, if_true]
    rw [Parser.ParseProgramLoop]
    simp [eofToken, Parser.nextToken, Lexer.NextToken]

/-- The program `e` with or without the trailing `;`, for a chain `e`: one
expression statement, the same in both cases, and the same final state. -/
theorem ParseProgram_expression_chain (a : Token) (rest : List (Token × Token))
    (ha : isAtom a) (hchain : ∀ oa ∈ rest, isBinaryOperator oa.1.Typ = true ∧ isAtom oa.2) :
    ∃ tree, ∀ (tail : List Token) (fuel : Nat), tail = [] ∨ tail = [semicolon] →
      3 * rest.length + 5 ≤ fuel →
      Parser.ParseProgram fuel (New (a :: (chainTail rest ++ tail))) =
        some (⟨[.ExpressionStatement a tree]⟩,
          ⟨[], atomErrors a ++ chainErrors rest, eofToken, eofToken⟩) := by
  obtain ⟨tree, -, hrun⟩ := parseExpression_chain a rest ha hchain
  refine ⟨tree, ?_⟩
  intro tail fuel htail hfuel
  obtain ⟨k, rfl⟩ := Nat.exists_eq_add_of_le' (show 3 ≤ fuel by omega)
  have hstop : rank (Lexer.NextToken tail).1.Typ = LOWEST := by
    rcases htail with h | h <;> rw [h] <;> rfl
  have hexpr := hrun [] tail k hstop (by omega)
  rw [List.nil_append] at hexpr
  have hne : a.Typ ≠ .EOF := by rcases ha with h | h <;> simp [h]
  have hnl : a.Typ ≠ .LET := by rcases ha with h | h <;> simp [h]
  have hnr : a.Typ ≠ .RETURN := by rcases ha with h | h <;> simp [h]
  rw [New_cons, Parser.ParseProgram, Parser.ParseProgramLoop]
  rw [if_pos (by simpa [parserAt] using hne)]
  rw [parseStatement_expression _ _ (by simpa [parserAt] using hnl)
    (by simpa [parserAt] using hnr), Parser.parseExpressionStatement, hexpr]
  rcases htail with h | h <;> subst h
  · simp only [parserAt, Lexer.NextToken, eofToken]
    rw [Parser.ParseProgramLoop]
    simp [Parser.peekTokenIs, Parser.nextToken, Lexer.NextToken]
    rfl
  · simp only [parserAt, Lexer.NextToken, semicolon]
    rw [Parser.ParseProgramLoop]
    simp [Parser.peekTokenIs, Parser.nextToken, Lexer.NextToken, eofToken]

/-! ## The optional trailing `;` (C15) -/

/-- C15, as amended. For an identifier `x` and an expression `e` that is a chain
of atoms joined by binary operators, all integer texts converting, `ParseProgram`
returns, for every fuel from `3m + 5` on (`m` operators), the same Program and
the same final state with an empty diagnostics list on `let x = e ;` and on
`let x = e`, and likewise on `e ;` and on `e`. -/
theorem ParseProgram_trailing_semicolon_optional (x a : Token) (rest : List (Token × Token))
    (hx : x.Typ = .IDENT) (ha : isAtom a)
    (hchain : ∀ oa ∈ rest, isBinaryOperator oa.1.Typ = true ∧ isAtom oa.2)
    (hca : converts a) (hcr : ∀ oa ∈ rest, converts oa.2)
    (fuel : Nat) (hf : 3 * rest.length + 5 ≤ fuel) :
    (∃ prog,
      Parser.ParseProgram fuel
          (New (letTok :: x :: assignTok :: a :: (chainTail rest ++ [semicolon]))) =
        some (prog, ⟨[], [], eofToken, eofToken⟩) ∧
      Parser.ParseProgram fuel (New (letTok :: x :: assignTok :: a :: chainTail rest)) =
        some (prog, ⟨[], [], eofToken, eofToken⟩)) ∧
    (∃ prog,
      Parser.ParseProgram fuel (New (a :: (chainTail rest ++ [semicolon]))) =
        some (prog, ⟨[], [], eofToken, eofToken⟩) ∧
      Parser.ParseProgram fuel (New (a :: chainTail rest)) =
        some (prog, ⟨[], [], eofToken, eofToken⟩)) := by
  have herrs : atomErrors a ++ chainErrors rest = [] := by
    rw [atomErrors_eq_nil hca, chainErrors_eq_nil rest hcr]; rfl
  obtain ⟨t1, h1⟩ := ParseProgram_let_chain x a rest hx ha hchain
  obtain ⟨t2, h2⟩ := ParseProgram_expression_chain a rest ha hchain
  rw [herrs] at h1 h2
  refine ⟨⟨_, h1 [semicolon] fuel (Or.inr rfl) hf, ?_⟩, ⟨_, h2 [semicolon] fuel (Or.inr rfl) hf, ?_⟩⟩
  · have := h1 [] fuel (Or.inl rfl) hf
    rwa [List.append_nil] at this
  · have := h2 [] fuel (Or.inl rfl) hf
    rwa [List.append_nil] at this

/-- C15, witness: `let x = 1 + 2 ;` and `let x = 1 + 2`, `1 + 2 ;` and `1 + 2`. -/
theorem ParseProgram_trailing_semicolon_optional_witness :
    (∃ prog,
      Parser.ParseProgram 8
          (New (letTok :: ⟨.IDENT, "x"⟩ :: assignTok :: ⟨.INT, "1"⟩ ::
            (chainTail [(⟨.PLUS, "+"⟩, ⟨.INT, "2"⟩)] ++ [semicolon]))) =
        some (prog, ⟨[], [], eofToken, eofToken⟩) ∧
      Parser.ParseProgram 8
          (New (letTok :: ⟨.IDENT, "x"⟩ :: assignTok :: ⟨.INT, "1"⟩ ::
            chainTail [(⟨.PLUS, "+"⟩, ⟨.INT, "2"⟩)])) =
        some (prog, ⟨[], [], eofToken, eofToken⟩)) ∧
    (∃ prog,
      Parser.ParseProgram 8
          (New (⟨.INT, "1"⟩ :: (chainTail [(⟨.PLUS, "+"⟩, ⟨.INT, "2"⟩)] ++ [semicolon]))) =
        some (prog, ⟨[], [], eofToken, eofToken⟩) ∧
      Parser.ParseProgram 8 (New (⟨.INT, "1"⟩ :: chainTail [(⟨.PLUS, "+"⟩, ⟨.INT, "2"⟩)])) =
        some (prog, ⟨[], [], eofToken, eofToken⟩)) :=
  ParseProgram_trailing_semicolon_optional ⟨.IDENT, "x"⟩ ⟨.INT, "1"⟩
    [(⟨.PLUS, "+"⟩, ⟨.INT, "2"⟩)] rfl (by decide) (by decide) (fun _ => ⟨1, rfl⟩)
    (by
      intro oa hoa
      simp only [List.mem_singleton] at hoa
      subst hoa
      exact fun _ => ⟨2, rfl⟩)
    8 (le_refl 8)

/-- C15, counterexample to "(empty) diagnostics list" for every integer-literal
atom: `let x = 9223372036854775808 ;` and `let x = 9223372036854775808` give the
same Program and the same diagnostics list, which holds the conversion
diagnostic of the atom. -/
theorem ParseProgram_trailing_semicolon_optional_counterexample :
    isAtom ⟨.INT, "9223372036854775808"⟩ ∧
    ∀ fuel, 5 ≤ fuel →
      Parser.ParseProgram fuel
          (New [letTok, ⟨.IDENT, "x"⟩, assignTok, ⟨.INT, "9223372036854775808"⟩, semicolon]) =
        some (⟨[.LetStatement letTok ⟨⟨.IDENT, "x"⟩, "x"⟩ none]⟩,
          ⟨[], ["count not parse string to int64, got=9223372036854775808"], eofToken,
            eofToken⟩) ∧
      Parser.ParseProgram fuel
          (New [letTok, ⟨.IDENT, "x"⟩, assignTok, ⟨.INT, "9223372036854775808"⟩]) =
        some (⟨[.LetStatement letTok ⟨⟨.IDENT, "x"⟩, "x"⟩ none]⟩,
          ⟨[], ["count not parse string to int64, got=9223372036854775808"], eofToken,
            eofToken⟩) := by
  refine ⟨by decide, fun fuel hf => ?_⟩
  obtain ⟨k, rfl⟩ := Nat.exists_eq_add_of_le' hf
  exact ⟨rfl, rfl⟩

/-! ## Reasoning about the results of productions -/

theorem sat_none {α : Type} {Q : α → Parser → Prop} : Sat Q (none : Option (α × Parser)) := by
  constructor; intro r q h; exact absurd h (by simp)

theorem sat_some {α : Type} {Q : α → Parser → Prop} {x : α} {p : Parser} (h : Q x p) :
    Sat Q (some (x, p)) := by
  constructor
  intro r q heq
  simp only [Option.some.injEq, Prod.mk.injEq] at heq
  rw [← heq.1, ← heq.2]; exact h

theorem sat_pair {α : Type} {Q : α → Parser → Prop} {v : α × Parser} (h : Q v.1 v.2) :
    Sat Q (some v) := by
  obtain ⟨x, p⟩ := v; exact sat_some h

theorem sat_ite {α : Type} {Q : α → Parser → Prop} {c : Prop} [Decidable c]
    {A B : Option (α × Parser)} (hA : c → Sat Q A) (hB : ¬ c → Sat Q B) :
    Sat Q (if c then A else B) := by
  split
  · exact hA ‹_›
  · exact hB ‹_›

theorem sat_expect {α : Type} {Q : α → Parser → Prop} {p : Parser} {t : TokenType}
    {A B : Parser → Option (α × Parser)} :
    Sat Q (A (p.peekError t)) → (p.peekTokenIs t = true → Sat Q (B p.nextToken)) →
    Sat Q (match p.expectPeek t with
      | (false, q) => A q
      | (true, q) => B q) := by
  intro hA hB
  unfold Parser.expectPeek
  by_cases h : p.peekTokenIs t = true
  · rw [if_pos h]; exact hB h
  · rw [if_neg h]; exact hA

theorem sat_bind_expression {α : Type} {Q : α → Parser → Prop}
    {Q' : Option Expression → Parser → Prop}
    {X : Option (Option Expression × Parser)}
    {K : Option Expression → Parser → Option (α × Parser)} :
    Sat Q' X → (∀ x q, Q' x q → Sat Q (K x q)) →
    Sat Q (match X with
      | none => none
      | some (x, q) => K x q) := by
  intro hX hK
  cases X with
  | none => exact sat_none
  | some v => obtain ⟨x, q⟩ := v; exact hK x q (hX.out x q rfl)

theorem sat_bind_statement {α : Type} {Q : α → Parser → Prop}
    {Q' : Statement → Parser → Prop}
    {X : Option (Statement × Parser)}
    {K : Statement → Parser → Option (α × Parser)} :
    Sat Q' X → (∀ x q, Q' x q → Sat Q (K x q)) →
    Sat Q (match X with
      | none => none
      | some (x, q) => K x q) := by
  intro hX hK
  cases X with
  | none => exact sat_none
  | some v => obtain ⟨x, q⟩ := v; exact hK x q (hX.out x q rfl)

theorem sat_bind_optStatement {α : Type} {Q : α → Parser → Prop}
    {Q' : Option Statement → Parser → Prop}
    {X : Option (Option Statement × Parser)}
    {K : Option Statement → Parser → Option (α × Parser)} :
    Sat Q' X → (∀ x q, Q' x q → Sat Q (K x q)) →
    Sat Q (match X with
      | none => none
      | some (x, q) => K x q) := by
  intro hX hK
  cases X with
  | none => exact sat_none
  | some v => obtain ⟨x, q⟩ := v; exact hK x q (hX.out x q rfl)

theorem sat_bind_block {α : Type} {Q : α → Parser → Prop}
    {Q' : BlockStatement → Parser → Prop}
    {X : Option (BlockStatement × Parser)}
    {K : BlockStatement → Parser → Option (α × Parser)} :
    Sat Q' X → (∀ x q, Q' x q → Sat Q (K x q)) →
    Sat Q (match X with
      | none => none
      | some (x, q) => K x q) := by
  intro hX hK
  cases X with
  | none => exact sat_none
  | some v => obtain ⟨x, q⟩ := v; exact hK x q (hX.out x q rfl)

theorem sat_bind_statements {α : Type} {Q : α → Parser → Prop}
    {Q' : List Statement → Parser → Prop}
    {X : Option (List Statement × Parser)}
    {K : List Statement → Parser → Option (α × Parser)} :
    Sat Q' X → (∀ x q, Q' x q → Sat Q (K x q)) →
    Sat Q (match X with
      | none => none
      | some (x, q) => K x q) := by
  intro hX hK
  cases X with
  | none => exact sat_none
  | some v => obtain ⟨x, q⟩ := v; exact hK x q (hX.out x q rfl)

theorem sat_bind_optList {α : Type} {Q : α → Parser → Prop}
    {Q' : Option (List (Option Expression)) → Parser → Prop}
    {X : Option (Option (List (Option Expression)) × Parser)}
    {K : Option (List (Option Expression)) → Parser → Option (α × Parser)} :
    Sat Q' X → (∀ x q, Q' x q → Sat Q (K x q)) →
    Sat Q (match X with
      | none => none
      | some (x, q) => K x q) := by
  intro hX hK
  cases X with
  | none => exact sat_none
  | some v => obtain ⟨x, q⟩ := v; exact hK x q (hX.out x q rfl)

theorem sat_bind_list {α : Type} {Q : α → Parser → Prop}
    {Q' : List (Option Expression) → Parser → Prop}
    {X : Option (List (Option Expression) × Parser)}
    {K : List (Option Expression) → Parser → Option (α × Parser)} :
    Sat Q' X → (∀ x q, Q' x q → Sat Q (K x q)) →
    Sat Q (match X with
      | none => none
      | some (x, q) => K x q) := by
  intro hX hK
  cases X with
  | none => exact sat_none
  | some v => obtain ⟨x, q⟩ := v; exact hK x q (hX.out x q rfl)

theorem sat_bind_parameters {α : Type} {Q : α → Parser → Prop}
    {Q' : Option (List Identifier) → Parser → Prop}
    {X : Option (Option (List Identifier) × Parser)}
    {K : Option (List Identifier) → Parser → Option (α × Parser)} :
    Sat Q' X → (∀ x q, Q' x q → Sat Q (K x q)) →
    Sat Q (match X with
      | none => none
      | some (x, q) => K x q) := by
  intro hX hK
  cases X with
  | none => exact sat_none
  | some v => obtain ⟨x, q⟩ := v; exact hK x q (hX.out x q rfl)

theorem sat_bind_identifiers {α : Type} {Q : α → Parser → Prop}
    {Q' : List Identifier → Parser → Prop}
    {X : Option (List Identifier × Parser)}
    {K : List Identifier → Parser → Option (α × Parser)} :
    Sat Q' X → (∀ x q, Q' x q → Sat Q (K x q)) →
    Sat Q (match X with
      | none => none
      | some (x, q) => K x q) := by
  intro hX hK
  cases X with
  | none => exact sat_none
  | some v => obtain ⟨x, q⟩ := v; exact hK x q (hX.out x q rfl)

theorem sat_bind_letStatement {α : Type} {Q : α → Parser → Prop}
    {Q' : Option Statement → Parser → Prop}
    {X : Option (Option Statement × Parser)}
    {A : Parser → Option (α × Parser)} {B : Statement → Parser → Option (α × Parser)} :
    Sat Q' X → (∀ q, Q' none q → Sat Q (A q)) → (∀ s q, Q' (some s) q → Sat Q (B s q)) →
    Sat Q (match X with
      | none => none
      | some (none, q) => A q
      | some (some s, q) => B s q) := by
  intro hX hA hB
  cases X with
  | none => exact sat_none
  | some v =>
    obtain ⟨x, q⟩ := v
    cases x with
    | none => exact hA q (hX.out none q rfl)
    | some s => exact hB s q (hX.out (some s) q rfl)

theorem sat_bind_pairs {α : Type} {Q : α → Parser → Prop}
    {Q' : Option (List (Option Expression × Option Expression)) → Parser → Prop}
    {X : Option (Option (List (Option Expression × Option Expression)) × Parser)}
    {A : Parser → Option (α × Parser)}
    {B : List (Option Expression × Option Expression) → Parser → Option (α × Parser)} :
    Sat Q' X → (∀ q, Q' none q → Sat Q (A q)) → (∀ s q, Q' (some s) q → Sat Q (B s q)) →
    Sat Q (match X with
      | none => none
      | some (none, q) => A q
      | some (some s, q) => B s q) := by
  intro hX hA hB
  cases X with
  | none => exact sat_none
  | some v =>
    obtain ⟨x, q⟩ := v
    cases x with
    | none => exact hA q (hX.out none q rfl)
    | some s => exact hB s q (hX.out (some s) q rfl)

theorem sat_bind_state {α : Type} {Q : α → Parser → Prop} {Q' : Parser → Prop}
    {X : Option Parser} {K : Parser → Option (α × Parser)} :
    (∀ q, X = some q → Q' q) → (∀ q, Q' q → Sat Q (K q)) →
    Sat Q (match X with
      | none => none
      | some q => K q) := by
  intro hX hK
  cases X with
  | none => exact sat_none
  | some q => exact hK q (hX q rfl)

/-! ## The diagnostics only grow -/

theorem prefix_peekError {e0 : List String} {q : Parser} (t : TokenType)
    (h : e0 <+: q.errors) : e0 <+: (q.peekError t).errors :=
  List.IsPrefix.trans h (List.prefix_append _ _)

theorem prefix_noPrefixParseFnError {e0 : List String} {q : Parser} (t : TokenType)
    (h : e0 <+: q.errors) : e0 <+: (q.noPrefixParseFnError t).errors :=
  List.IsPrefix.trans h (List.prefix_append _ _)

theorem prefix_ite {e0 : List String} {c : Prop} [Decidable c] {A B : Parser}
    (hA : e0 <+: A.errors) (hB : e0 <+: B.errors) : e0 <+: (if c then A else B).errors := by
  split
  · exact hA
  · exact hB

theorem prefix_parseIntegerLiteral {e0 : List String} {p : Parser} (h : e0 <+: p.errors) :
    e0 <+: p.parseIntegerLiteral.2.errors := by
  unfold Parser.parseIntegerLiteral
  split
  · exact List.IsPrefix.trans h (List.prefix_append _ _)
  · exact h

theorem parseReturnStatementLoop_errors (n : Nat) :
    ∀ p q, Parser.parseReturnStatementLoop n p = some q → q.errors = p.errors := by
  induction n with
  | zero => intro p q h; exact absurd h (by simp [Parser.parseReturnStatementLoop])
  | succ n ih =>
    intro p q h
    rw [Parser.parseReturnStatementLoop] at h
    split at h
    · exact (ih _ _ h).trans rfl
    · simp only [Option.some.injEq] at h
      rw [← h]

theorem prefix_parseReturnStatementLoop (e0 : List String) {n : Nat} {p : Parser}
    (h : e0 <+: p.errors) :
    ∀ q, Parser.parseReturnStatementLoop n p = some q → e0 <+: q.errors := by
  intro q hq
  rw [parseReturnStatementLoop_errors n p q hq]; exact h

theorem grows_parseFunctionParamtersLoop (n : Nat) :
    ∀ e0 p, e0 <+: p.errors → ∀ identifers,
      Grows e0 (Parser.parseFunctionParamtersLoop n identifers p) := by
  induction n with
  | zero => intro e0 p hp identifers; exact sat_none
  | succ n ih =>
    intro e0 p hp identifers
    rw [Parser.parseFunctionParamtersLoop]
    dsimp only
    apply sat_ite
    · intro _; exact ih e0 p.nextToken.nextToken hp _
    · intro _; exact sat_some hp

theorem grows_parseFunctionParamters (n : Nat) :
    ∀ e0 p, e0 <+: p.errors → Grows e0 (Parser.parseFunctionParamters n p) := by
  cases n with
  | zero => intro e0 p hp; exact sat_none
  | succ n =>
    intro e0 p hp
    rw [Parser.parseFunctionParamters]
    dsimp only
    apply sat_ite
    · intro _; exact sat_some hp
    · intro _
      refine sat_bind_identifiers (grows_parseFunctionParamtersLoop n e0 p.nextToken hp _) ?_
      intro x q hq
      apply sat_expect
      · exact sat_some (prefix_peekError _ hq)
      · intro _; exact sat_some hq

theorem errorsGrow_zero : ErrorsGrow 0 := by
  constructor <;> intros <;> exact sat_none

theorem errorsGrow_succ (n : Nat) (ih : ErrorsGrow n) : ErrorsGrow (n + 1) := by
  constructor <;> intro e0 p hp <;> intros <;>
  (first
    | rw [Parser.parseStatement]
    | rw [Parser.parseLetStatement]
    | rw [Parser.parseReturnStatement]
    | rw [Parser.parseExpressionStatement]
    | rw [Parser.parseExpression]
    | rw [Parser.parseExpressionLoop]
    | rw [Parser.parsePrefixExpressions]
    | rw [Parser.parseInfixExpressions]
    | rw [Parser.parseGroupedExpression]
    | rw [Parser.parseIfExpression]
    | rw [Parser.parseBlockStatement]
    | rw [Parser.parseBlockStatementLoop]
    | rw [Parser.parseFunctionLiteral]
    | rw [Parser.parseCallExpression]
    | rw [Parser.parseCallArguments]
    | rw [Parser.parseCallArgumentsLoop]
    | rw [Parser.parseArrayLiteral]
    | rw [Parser.parseHashLiteral]
    | rw [Parser.parseHashLiteralLoop]
    | rw [Parser.parseExpressionList]
    | rw [Parser.parseExpressionListLoop]
    | rw [Parser.parseIndexExpression]
  ) <;> (try dsimp only) <;>
  repeat' first
    | exact sat_none
    | apply sat_some
    | apply sat_pair
    | apply sat_expect
    | apply sat_ite
    | refine @sat_bind_expression _ _ (fun _ q => e0 <+: q.errors) _ _ ?_ ?_
    | refine @sat_bind_statement _ _ (fun _ q => e0 <+: q.errors) _ _ ?_ ?_
    | refine @sat_bind_optStatement _ _ (fun _ q => e0 <+: q.errors) _ _ ?_ ?_
    | refine @sat_bind_block _ _ (fun _ q => e0 <+: q.errors) _ _ ?_ ?_
    | refine @sat_bind_statements _ _ (fun _ q => e0 <+: q.errors) _ _ ?_ ?_
    | refine @sat_bind_optList _ _ (fun _ q => e0 <+: q.errors) _ _ ?_ ?_
    | refine @sat_bind_list _ _ (fun _ q => e0 <+: q.errors) _ _ ?_ ?_
    | refine @sat_bind_parameters _ _ (fun _ q => e0 <+: q.errors) _ _ ?_ ?_
    | refine @sat_bind_identifiers _ _ (fun _ q => e0 <+: q.errors) _ _ ?_ ?_
    | refine @sat_bind_letStatement _ _ (fun _ q => e0 <+: q.errors) _ _ _ ?_ ?_ ?_
    | refine @sat_bind_pairs _ _ (fun _ q => e0 <+: q.errors) _ _ _ ?_ ?_ ?_
    | refine @sat_bind_state _ _ (fun q => e0 <+: q.errors) _ _ ?_ ?_
    | refine ih.parseStatement e0 _ ?_
    | refine ih.parseLetStatement e0 _ ?_
    | refine ih.parseReturnStatement e0 _ ?_
    | refine ih.parseExpressionStatement e0 _ ?_
    | refine ih.parseExpression e0 _ ?_ _
    | refine ih.parseExpressionLoop e0 _ ?_ _ _
    | refine ih.parsePrefixExpressions e0 _ ?_
    | refine ih.parseInfixExpressions e0 _ ?_ _
    | refine ih.parseGroupedExpression e0 _ ?_
    | refine ih.parseIfExpression e0 _ ?_
    | refine ih.parseBlockStatement e0 _ ?_
    | refine ih.parseBlockStatementLoop e0 _ ?_ _
    | refine ih.parseFunctionLiteral e0 _ ?_
    | refine ih.parseCallExpression e0 _ ?_ _
    | refine ih.parseCallArguments e0 _ ?_
    | refine ih.parseCallArgumentsLoop e0 _ ?_ _
    | refine ih.parseArrayLiteral e0 _ ?_
    | refine ih.parseHashLiteral e0 _ ?_
    | refine ih.parseHashLiteralLoop e0 _ ?_ _
    | refine ih.parseExpressionList e0 _ ?_ _
    | refine ih.parseExpressionListLoop e0 _ ?_ _
    | refine ih.parseIndexExpression e0 _ ?_ _
    | refine grows_parseFunctionParamters n e0 _ ?_
    | refine prefix_parseReturnStatementLoop e0 ?_
    | intro _ _ _
    | intro _ _
    | intro _
    | assumption
    | exact prefix_peekError _ (by assumption)
    | exact prefix_noPrefixParseFnError _ (by assumption)
    | exact prefix_parseIntegerLiteral (by assumption)
    | apply prefix_ite
    | split

theorem errorsGrow (n : Nat) : ErrorsGrow n := by
  induction n with
  | zero => exact errorsGrow_zero
  | succ n ih => exact errorsGrow_succ n ih


theorem grows_ParseProgramLoop (n : Nat) :
    ∀ e0 p, e0 <+: p.errors → ∀ statements,
      Grows e0 (Parser.ParseProgramLoop n statements p) := by
  induction n with
  | zero => intro e0 p hp statements; exact sat_none
  | succ n ih =>
    intro e0 p hp statements
    rw [Parser.ParseProgramLoop]
    dsimp only
    apply sat_ite
    · intro _
      refine sat_bind_optStatement ((errorsGrow n).parseStatement e0 p hp) ?_
      intro x q hq
      exact ih e0 q.nextToken hq _
    · intro _; exact sat_some hp

theorem grows_ParseProgram (n : Nat) (e0 : List String) (p : Parser) (hp : e0 <+: p.errors) :
    Grows e0 (Parser.ParseProgram n p) := by
  unfold Parser.ParseProgram
  refine sat_bind_statements (grows_ParseProgramLoop n e0 p hp []) ?_
  intro x q hq
  exact sat_some hq

/-! ## The diagnostics are only appended to (C16) -/

/-- C16: for every parser state `p`, every amount of fuel and every production
(`parseStatement`, `parseExpression` at any precedence, the ten prefix
productions, the three infix productions with any left operand, `expectPeek`
for any expected category, and `ParseProgram`), whenever the production returns,
the diagnostics of `p` are a prefix of the diagnostics of the state it returns:
entries are only appended. -/
theorem diagnostics_only_appended (fuel : Nat) (p : Parser) :
    (∀ r q, Parser.parseStatement fuel p = some (r, q) → p.errors <+: q.errors) ∧
    (∀ precedence r q, Parser.parseExpression fuel precedence p = some (r, q) →
      p.errors <+: q.errors) ∧
    p.errors <+: p.parseIdentifier.2.errors ∧
    p.errors <+: p.parseIntegerLiteral.2.errors ∧
    (∀ r q, Parser.parsePrefixExpressions fuel p = some (r, q) → p.errors <+: q.errors) ∧
    p.errors <+: p.parseBooleans.2.errors ∧
    (∀ r q, Parser.parseGroupedExpression fuel p = some (r, q) → p.errors <+: q.errors) ∧
    (∀ r q, Parser.parseIfExpression fuel p = some (r, q) → p.errors <+: q.errors) ∧
    (∀ r q, Parser.parseFunctionLiteral fuel p = some (r, q) → p.errors <+: q.errors) ∧
    p.errors <+: p.parseStringLiteral.2.errors ∧
    (∀ r q, Parser.parseArrayLiteral fuel p = some (r, q) → p.errors <+: q.errors) ∧
    (∀ r q, Parser.parseHashLiteral fuel p = some (r, q) → p.errors <+: q.errors) ∧
    (∀ left r q, Parser.parseInfixExpressions fuel left p = some (r, q) →
      p.errors <+: q.errors) ∧
    (∀ function r q, Parser.parseCallExpression fuel function p = some (r, q) →
      p.errors <+: q.errors) ∧
    (∀ left r q, Parser.parseIndexExpression fuel left p = some (r, q) →
      p.errors <+: q.errors) ∧
    (∀ t, p.errors <+: (p.expectPeek t).2.errors) ∧
    (∀ program q, Parser.ParseProgram fuel p = some (program, q) → p.Errors <+: q.Errors) := by
  have h := errorsGrow fuel
  have hp : p.errors <+: p.errors := List.prefix_refl _
  refine ⟨(h.parseStatement _ p hp).out, fun precedence => (h.parseExpression _ p hp precedence).out,
    hp, prefix_parseIntegerLiteral hp, (h.parsePrefixExpressions _ p hp).out, hp,
    (h.parseGroupedExpression _ p hp).out, (h.parseIfExpression _ p hp).out,
    (h.parseFunctionLiteral _ p hp).out, hp, (h.parseArrayLiteral _ p hp).out,
    (h.parseHashLiteral _ p hp).out, fun left => (h.parseInfixExpressions _ p hp left).out,
    fun function => (h.parseCallExpression _ p hp function).out,
    fun left => (h.parseIndexExpression _ p hp left).out, ?_,
    (grows_ParseProgram fuel _ p hp).out⟩
  intro t
  unfold Parser.expectPeek
  split
  · exact hp
  · exact prefix_peekError t hp

/-- On `let x 5` read after an earlier diagnostic, `ParseProgram` returns: the
earlier diagnostic is kept in front and one entry is appended. -/
theorem diagnostics_only_appended_witness :
    Parser.ParseProgram 6 (parserAt ["earlier"] letTok [⟨.IDENT, "x"⟩, ⟨.INT, "5"⟩]) =
      some (⟨[.nilLetStatement, .ExpressionStatement ⟨.INT, "5"⟩
          (some (.IntegerLiteral ⟨.INT, "5"⟩ 5))]⟩,
        parserAt ["earlier", "expected next token to be =, got INT"] eofToken []) ∧
    ["earlier"] <+:
      (parserAt ["earlier", "expected next token to be =, got INT"] eofToken []).Errors :=
  ⟨rfl, (diagnostics_only_appended 6
    (parserAt ["earlier"] letTok [⟨.IDENT, "x"⟩, ⟨.INT, "5"⟩])).2.2.2.2.2.2.2.2.2.2.2.2.2.2.2.2
      _ _ rfl⟩

/-! ## Every failed production is reported -/

theorem sat_mono {α : Type} {Q Q' : α → Parser → Prop} {X : Option (α × Parser)}
    (h : ∀ r q, Q' r q → Q r q) (hX : Sat Q' X) : Sat Q X :=
  ⟨fun r q e => h r q (hX.out r q e)⟩

@[simp] theorem errors_nextToken (p : Parser) : p.nextToken.errors = p.errors := rfl

@[simp] theorem errors_peekError (p : Parser) (t : TokenType) :
    (p.peekError t).errors = p.errors ++
      ["expected next token to be " ++ t.toString ++ ", got " ++ p.peekToken.Typ.toString] :=
  rfl

@[simp] theorem errors_noPrefixParseFnError (p : Parser) (t : TokenType) :
    (p.noPrefixParseFnError t).errors =
      p.errors ++ ["no prefix function for " ++ t.toString ++ " found."] := rfl

@[simp] theorem errors_ite_nextToken (p : Parser) (c : Prop) [Decidable c] :
    (if c then p.nextToken else p).errors = p.errors := by
  split <;> rfl

theorem listComplete_append (l : List (Option Expression)) (e : Option Expression) :
    listComplete (l ++ [e]) = (listComplete l && optComplete e) := by
  induction l with
  | nil => simp [listComplete]
  | cons a l ih => simp [listComplete, ih, Bool.and_assoc]

theorem stmtsComplete_append (l : List Statement) (s : Statement) :
    stmtsComplete (l ++ [s]) = (stmtsComplete l && s.complete) := by
  induction l with
  | nil => simp [stmtsComplete]
  | cons a l ih => simp [stmtsComplete, ih, Bool.and_assoc]

theorem pairsComplete_append (l : List (Option Expression × Option Expression))
    (k v : Option Expression) :
    pairsComplete (l ++ [(k, v)]) = (pairsComplete l && (optComplete k && optComplete v)) := by
  induction l with
  | nil => simp [pairsComplete]
  | cons a l ih =>
    obtain ⟨a1, a2⟩ := a
    simp [pairsComplete, ih, Bool.and_assoc]

theorem pairsComplete_hashPairsSet (pairs : List (Option Expression × Option Expression))
    (key value : Option Expression) (hk : optComplete key = true) :
    pairsComplete (hashPairsSet pairs key value) =
      (pairsComplete pairs && optComplete value) := by
  cases key with
  | none => simp [optComplete] at hk
  | some k =>
    simp only [hashPairsSet, pairsComplete_append, hk, Bool.true_and]

theorem sat_returnLoop {α : Type} {Q : α → Parser → Prop} {n : Nat} {p : Parser}
    {K : Parser → Option (α × Parser)} :
    (∀ q, q.errors = p.errors → Sat Q (K q)) →
    Sat Q (match Parser.parseReturnStatementLoop n p with
      | none => none
      | some q => K q) := by
  intro hK
  cases h : Parser.parseReturnStatementLoop n p with
  | none => exact sat_none
  | some q => exact hK q (parseReturnStatementLoop_errors n p q h)

theorem reported_parseIntegerLiteral (p : Parser) :
    Reported p (fun r => optComplete r = true) (some p.parseIntegerLiteral) := by
  apply sat_pair
  unfold Parser.parseIntegerLiteral
  split
  · intro h; simp at h
  · intro h; exact ⟨h, by simp [optComplete, Expression.complete]⟩

theorem reported_parseFunctionParamtersLoop (n : Nat) :
    ∀ p identifers, Reported p (fun _ => True)
      (Parser.parseFunctionParamtersLoop n identifers p) := by
  induction n with
  | zero => intro p identifers; exact sat_none
  | succ n ih =>
    intro p identifers
    rw [Parser.parseFunctionParamtersLoop]
    dsimp only
    apply sat_ite
    · intro _; exact ih p.nextToken.nextToken _
    · intro _; exact sat_some (fun h => ⟨h, trivial⟩)

theorem reported_parseFunctionParamters (n : Nat) :
    ∀ p, Reported p (fun r => r.isSome = true) (Parser.parseFunctionParamters n p) := by
  cases n with
  | zero => intro p; exact sat_none
  | succ n =>
    intro p
    rw [Parser.parseFunctionParamters]
    dsimp only
    apply sat_ite
    · intro _; exact sat_some (fun h => ⟨h, rfl⟩)
    · intro _
      refine sat_bind_identifiers (reported_parseFunctionParamtersLoop n p.nextToken _) ?_
      intro x q hq
      apply sat_expect
      · exact sat_some (fun h => by simp at h)
      · intro _; exact sat_some (fun h => ⟨(hq h).1, rfl⟩)

theorem reports_zero : Reports 0 := by
  constructor <;> intros <;> exact sat_none

theorem reports_succ (n : Nat) (ih : Reports n) : Reports (n + 1) := by
  constructor <;> intro p <;> (first | intro precedence leftExp | intros) <;>
  (first
    | rw [Parser.parseStatement]
    | rw [Parser.parseLetStatement]
    | rw [Parser.parseReturnStatement]
    | rw [Parser.parseExpressionStatement]
    | rw [Parser.parseExpression]
    | rw [Parser.parseExpressionLoop]
    | rw [Parser.parsePrefixExpressions]
    | rw [Parser.parseInfixExpressions]
    | rw [Parser.parseGroupedExpression]
    | rw [Parser.parseIfExpression]
    | rw [Parser.parseBlockStatement]
    | rw [Parser.parseBlockStatementLoop]
    | rw [Parser.parseFunctionLiteral]
    | rw [Parser.parseCallExpression]
    | rw [Parser.parseCallArguments]
    | rw [Parser.parseCallArgumentsLoop]
    | rw [Parser.parseArrayLiteral]
    | rw [Parser.parseHashLiteral]
    | rw [Parser.parseHashLiteralLoop]
    | rw [Parser.parseExpressionList]
    | rw [Parser.parseExpressionListLoop]
    | rw [Parser.parseIndexExpression]
  ) <;> (try dsimp only) <;>
  repeat' first
    | exact sat_none
    | apply sat_some
    | apply sat_expect
    | apply sat_ite
    | refine sat_bind_optStatement (ih.parseStatement _) ?_
    | refine sat_bind_letStatement (ih.parseLetStatement _) ?_ ?_
    | refine sat_bind_statement (ih.parseReturnStatement _) ?_
    | refine sat_bind_statement (ih.parseExpressionStatement _) ?_
    | refine sat_bind_expression (ih.parseExpression _ _) ?_
    | refine sat_bind_expression (ih.parseExpressionLoop _ _ _) ?_
    | refine sat_bind_expression (ih.parsePrefixExpressions _) ?_
    | refine sat_bind_expression (ih.parseInfixExpressions _ _) ?_
    | refine sat_bind_expression (ih.parseGroupedExpression _) ?_
    | refine sat_bind_expression (ih.parseIfExpression _) ?_
    | refine sat_bind_block (ih.parseBlockStatement _) ?_
    | refine sat_bind_statements (ih.parseBlockStatementLoop _ _) ?_
    | refine sat_bind_expression (ih.parseFunctionLiteral _) ?_
    | refine sat_bind_expression (ih.parseCallExpression _ _) ?_
    | refine sat_bind_optList (ih.parseCallArguments _) ?_
    | refine sat_bind_list (ih.parseCallArgumentsLoop _ _) ?_
    | refine sat_bind_expression (ih.parseArrayLiteral _) ?_
    | refine sat_bind_expression (ih.parseHashLiteral _) ?_
    | refine sat_bind_pairs (ih.parseHashLiteralLoop _ _) ?_ ?_
    | refine sat_bind_optList (ih.parseExpressionList _ _) ?_
    | refine sat_bind_list (ih.parseExpressionListLoop _ _) ?_
    | refine sat_bind_expression (ih.parseIndexExpression _ _) ?_
    | refine sat_bind_parameters (reported_parseFunctionParamters n _) ?_
    | apply sat_returnLoop
    | refine @sat_bind_expression _ _ (fun r q => q.errors = [] → p.errors = [] ∧
        (optComplete leftExp = true → optComplete r = true)) _ _ ?_ ?_
    | refine @sat_bind_expression _ _ (fun r q => q.errors = [] → p.errors = [] ∧
        optComplete r = true) _ _ ?_ ?_
    | cases ‹Option Statement›
    | refine sat_mono ?_ (reported_parseIntegerLiteral _)
    | refine sat_mono ?_ (ih.parseStatement _)
    | refine sat_mono ?_ (ih.parseLetStatement _)
    | refine sat_mono ?_ (ih.parseReturnStatement _)
    | refine sat_mono ?_ (ih.parseExpressionStatement _)
    | refine sat_mono ?_ (ih.parseExpression _ _)
    | refine sat_mono ?_ (ih.parseExpressionLoop _ _ _)
    | refine sat_mono ?_ (ih.parsePrefixExpressions _)
    | refine sat_mono ?_ (ih.parseInfixExpressions _ _)
    | refine sat_mono ?_ (ih.parseGroupedExpression _)
    | refine sat_mono ?_ (ih.parseIfExpression _)
    | refine sat_mono ?_ (ih.parseBlockStatement _)
    | refine sat_mono ?_ (ih.parseBlockStatementLoop _ _)
    | refine sat_mono ?_ (ih.parseFunctionLiteral _)
    | refine sat_mono ?_ (ih.parseCallExpression _ _)
    | refine sat_mono ?_ (ih.parseCallArguments _)
    | refine sat_mono ?_ (ih.parseCallArgumentsLoop _ _)
    | refine sat_mono ?_ (ih.parseArrayLiteral _)
    | refine sat_mono ?_ (ih.parseHashLiteral _)
    | refine sat_mono ?_ (ih.parseHashLiteralLoop _ _)
    | refine sat_mono ?_ (ih.parseExpressionList _ _)
    | refine sat_mono ?_ (ih.parseExpressionListLoop _ _)
    | refine sat_mono ?_ (ih.parseIndexExpression _ _)
    | intro _ _ _
    | intro _ _
    | intro _
    | (simp_all [listComplete_append, stmtsComplete_append,
        pairsComplete_hashPairsSet, Expression.complete, optComplete, optListComplete,
        listComplete, pairsComplete, Statement.complete, BlockStatement.complete,
        optBlockComplete, stmtsComplete, optStatementComplete, optPairsComplete,
        Parser.parseIdentifier, Parser.parseBooleans, Parser.parseStringLiteral]; done)
    | split


theorem reports (n : Nat) : Reports n := by
  induction n with
  | zero => exact reports_zero
  | succ n ih => exact reports_succ n ih

theorem reported_ParseProgramLoop (n : Nat) :
    ∀ p statements,
      Reported p (fun r => stmtsComplete statements = true → stmtsComplete r = true)
        (Parser.ParseProgramLoop n statements p) := by
  induction n with
  | zero => intro p statements; exact sat_none
  | succ n ih =>
    intro p statements
    rw [Parser.ParseProgramLoop]
    dsimp only
    apply sat_ite
    · intro _
      refine sat_bind_optStatement ((reports n).parseStatement p) ?_
      intro x q hq
      refine sat_mono ?_ (ih _ _)
      intro r q1 h hq1
      cases x <;> simp_all [stmtsComplete_append, optStatementComplete]
    · intro _; exact sat_some (fun h => ⟨h, id⟩)

/-! ## Empty diagnostics mean a complete tree (C17) -/

/-- C17: whenever `ParseProgram` returns, from any parser state and with any
fuel, and the diagnostics of the state it returns are empty, the Program it
returns is complete: every statement of every statement sequence is present,
and every expression-valued or sequence-valued field of every node is present;
only the alternative of an `IfExpression` may be absent. -/
theorem ParseProgram_empty_diagnostics_complete (fuel : Nat) (p : Parser) (program : Program)
    (q : Parser) (h : Parser.ParseProgram fuel p = some (program, q)) (he : q.Errors = []) :
    program.complete = true := by
  have hloop := reported_ParseProgramLoop fuel p []
  unfold Parser.ParseProgram at h
  cases hl : Parser.ParseProgramLoop fuel [] p with
  | none => rw [hl] at h; exact absurd h (by simp)
  | some v =>
    obtain ⟨statements, q1⟩ := v
    rw [hl] at h
    simp only [Option.some.injEq, Prod.mk.injEq] at h
    obtain ⟨h1, h2⟩ := h
    subst h1 h2
    exact (hloop.out _ _ hl he).2 rfl

/-- C17, witness: `if (x) { 1 }` parses without a diagnostic; the tree is
complete, with the alternative absent. -/
theorem ParseProgram_empty_diagnostics_complete_witness :
    Parser.ParseProgram 12
        (New [⟨.IF, "if"⟩, lparen, ⟨.IDENT, "x"⟩, rparen, lbrace, ⟨.INT, "1"⟩, rbrace]) =
      some (⟨[.ExpressionStatement ⟨.IF, "if"⟩
          (some (.IfExpression ⟨.IF, "if"⟩ (some (.Identifier ⟨.IDENT, "x"⟩ "x"))
            (.mk lbrace [.ExpressionStatement ⟨.INT, "1"⟩
              (some (.IntegerLiteral ⟨.INT, "1"⟩ 1))]) none))]⟩,
        ⟨[], [], eofToken, eofToken⟩) ∧
    (⟨[], [], eofToken, eofToken⟩ : Parser).Errors = [] ∧
    Program.complete ⟨[.ExpressionStatement ⟨.IF, "if"⟩
          (some (.IfExpression ⟨.IF, "if"⟩ (some (.Identifier ⟨.IDENT, "x"⟩ "x"))
            (.mk lbrace [.ExpressionStatement ⟨.INT, "1"⟩
              (some (.IntegerLiteral ⟨.INT, "1"⟩ 1))]) none))]⟩ = true :=
  ⟨rfl, rfl, ParseProgram_empty_diagnostics_complete 12
    (New [⟨.IF, "if"⟩, lparen, ⟨.IDENT, "x"⟩, rparen, lbrace, ⟨.INT, "1"⟩, rbrace]) _ _ rfl rfl⟩

end Miuscript
